import Mathlib

/-!
Verification development for the blob-scanning / extraction engine of
cursor_cli_manager (src/cursor_cli_manager/agent_store.py).

The Python module is shallowly embedded: byte buffers are lists of naturals
(each byte value < 256 at use sites), Python str values are Lean Strings,
JSON values are the inductive JVal below, the sqlite blob store is the Store
structure, the process-wide full-history cache is threaded explicitly, and
each connection-level query is recorded in an access log whose constructors
are named after the store collaborator interface (fetch_rows_ascending,
fetch_fingerprint, ...).  Fallible host operations (utf-8 decode, json
parse, sqlite queries) are modelled with Option / Except.
-/

namespace AgentStore

/-- JSON values as returned by the host json parser (json.loads).
Numbers keep their source lexeme (no numeric semantics is needed by the
code under verification); objects keep their key/value pairs in parse
order, with lookups returning the last binding (dict overwrite). -/
inductive JVal where
  | null
  | bool (b : Bool)
  | num (lex : String)
  | str (s : String)
  | arr (elems : List JVal)
  | obj (fields : List (String × JVal))

/-- Python dict .get for a parsed JSON object: last binding wins. -/
def jget (kvs : List (String × JVal)) (k : String) : Option JVal :=
  kvs.foldl (fun acc p => if p.1 = k then some p.2 else acc) none

/-- Python dict membership test (key in obj). -/
def jhas (kvs : List (String × JVal)) (k : String) : Bool :=
  kvs.any (fun p => p.1 == k)

/-- Whitespace for Python str.strip / str.lstrip (ASCII fragment). -/
def py_ws (c : Char) : Bool :=
  let n := c.toNat
  n == 32 || n == 9 || n == 10 || n == 13 || n == 11 || n == 12

/-- Python str.strip(). -/
def py_strip (s : String) : String :=
  String.mk (((s.toList.dropWhile py_ws).reverse.dropWhile py_ws).reverse)

/-- Python str.lstrip(). -/
def py_lstrip (s : String) : String :=
  String.mk (s.toList.dropWhile py_ws)

/-- bytes of an ASCII Lean string (used to build concrete test buffers). -/
def ascii_bytes (s : String) : List Nat :=
  s.toList.map Char.toNat

/-- Is b a UTF-8 continuation byte. -/
def utf8_cont (b : Nat) : Bool := 0x80 ≤ b && b ≤ 0xBF

/-- Strict UTF-8 decoding (bytes.decode("utf-8")): rejects truncated
sequences, stray continuation bytes, overlong encodings, surrogates and
out-of-range code points. -/
def utf8_decode_list : List Nat → Option (List Char)
  | [] => some []
  | b :: rest =>
    if b < 0x80 then
      (utf8_decode_list rest).map (Char.ofNat b :: ·)
    else if 0xC2 ≤ b && b ≤ 0xDF then
      match rest with
      | b2 :: rest2 =>
        if utf8_cont b2 then
          (utf8_decode_list rest2).map (Char.ofNat ((b - 0xC0) * 0x40 + (b2 - 0x80)) :: ·)
        else none
      | [] => none
    else if b == 0xE0 then
      match rest with
      | b2 :: b3 :: rest3 =>
        if (0xA0 ≤ b2 && b2 ≤ 0xBF) && utf8_cont b3 then
          (utf8_decode_list rest3).map
            (Char.ofNat ((b - 0xE0) * 0x1000 + (b2 - 0x80) * 0x40 + (b3 - 0x80)) :: ·)
        else none
      | _ => none
    else if (0xE1 ≤ b && b ≤ 0xEC) || b == 0xEE || b == 0xEF then
      match rest with
      | b2 :: b3 :: rest3 =>
        if utf8_cont b2 && utf8_cont b3 then
          (utf8_decode_list rest3).map
            (Char.ofNat ((b - 0xE0) * 0x1000 + (b2 - 0x80) * 0x40 + (b3 - 0x80)) :: ·)
        else none
      | _ => none
    else if b == 0xED then
      match rest with
      | b2 :: b3 :: rest3 =>
        if (0x80 ≤ b2 && b2 ≤ 0x9F) && utf8_cont b3 then
          (utf8_decode_list rest3).map
            (Char.ofNat ((b - 0xE0) * 0x1000 + (b2 - 0x80) * 0x40 + (b3 - 0x80)) :: ·)
        else none
      | _ => none
    else if b == 0xF0 then
      match rest with
      | b2 :: b3 :: b4 :: rest4 =>
        if (0x90 ≤ b2 && b2 ≤ 0xBF) && utf8_cont b3 && utf8_cont b4 then
          (utf8_decode_list rest4).map
            (Char.ofNat ((b - 0xF0) * 0x40000 + (b2 - 0x80) * 0x1000 +
              (b3 - 0x80) * 0x40 + (b4 - 0x80)) :: ·)
        else none
      | _ => none
    else if 0xF1 ≤ b && b ≤ 0xF3 then
      match rest with
      | b2 :: b3 :: b4 :: rest4 =>
        if utf8_cont b2 && utf8_cont b3 && utf8_cont b4 then
          (utf8_decode_list rest4).map
            (Char.ofNat ((b - 0xF0) * 0x40000 + (b2 - 0x80) * 0x1000 +
              (b3 - 0x80) * 0x40 + (b4 - 0x80)) :: ·)
        else none
      | _ => none
    else if b == 0xF4 then
      match rest with
      | b2 :: b3 :: b4 :: rest4 =>
        if (0x80 ≤ b2 && b2 ≤ 0x8F) && utf8_cont b3 && utf8_cont b4 then
          (utf8_decode_list rest4).map
            (Char.ofNat ((b - 0xF0) * 0x40000 + (b2 - 0x80) * 0x1000 +
              (b3 - 0x80) * 0x40 + (b4 - 0x80)) :: ·)
        else none
      | _ => none
    else none

/-- Hex digit value for json \uXXXX escapes. -/
def hex_val (c : Char) : Option Nat :=
  let n := c.toNat
  if 48 ≤ n && n ≤ 57 then some (n - 48)
  else if 97 ≤ n && n ≤ 102 then some (n - 87)
  else if 65 ≤ n && n ≤ 70 then some (n - 55)
  else none

/-- Value of a 4-hex-digit escape. -/
def hex4_val (c1 c2 c3 c4 : Char) : Option Nat :=
  match hex_val c1, hex_val c2, hex_val c3, hex_val c4 with
  | some h1, some h2, some h3, some h4 => some (h1 * 0x1000 + h2 * 0x100 + h3 * 0x10 + h4)
  | _, _, _, _ => none

/-- Body of a JSON string (after the opening quote): returns the decoded
characters and the input remaining after the closing quote.  Strict mode:
raw control characters and unknown escapes are rejected.  Lone surrogate
escapes are mapped to U+FFFD (the host string type of this model cannot
carry lone surrogates). -/
def parse_json_string_body : Nat → List Char → Option (List Char × List Char)
  | 0, _ => none
  | _ + 1, [] => none
  | fuel + 1, c :: cs =>
    if c = '"' then some ([], cs)
    else if c = '\\' then
      match cs with
      | [] => none
      | e :: cs2 =>
        if e = '"' then (parse_json_string_body fuel cs2).map (fun p => ('"' :: p.1, p.2))
        else if e = '\\' then (parse_json_string_body fuel cs2).map (fun p => ('\\' :: p.1, p.2))
        else if e = '/' then (parse_json_string_body fuel cs2).map (fun p => ('/' :: p.1, p.2))
        else if e = 'b' then (parse_json_string_body fuel cs2).map (fun p => ('\x08' :: p.1, p.2))
        else if e = 'f' then (parse_json_string_body fuel cs2).map (fun p => ('\x0c' :: p.1, p.2))
        else if e = 'n' then (parse_json_string_body fuel cs2).map (fun p => ('\n' :: p.1, p.2))
        else if e = 'r' then (parse_json_string_body fuel cs2).map (fun p => ('\r' :: p.1, p.2))
        else if e = 't' then (parse_json_string_body fuel cs2).map (fun p => ('\t' :: p.1, p.2))
        else if e = 'u' then
          match cs2 with
          | c1 :: c2 :: c3 :: c4 :: cs3 =>
            match hex4_val c1 c2 c3 c4 with
            | none => none
            | some n =>
              if 0xD800 ≤ n && n ≤ 0xDBFF then
                match cs3 with
                | '\\' :: 'u' :: d1 :: d2 :: d3 :: d4 :: cs4 =>
                  match hex4_val d1 d2 d3 d4 with
                  | some m =>
                    if 0xDC00 ≤ m && m ≤ 0xDFFF then
                      (parse_json_string_body fuel cs4).map
                        (fun p => (Char.ofNat (0x10000 + (n - 0xD800) * 0x400 + (m - 0xDC00)) :: p.1, p.2))
                    else (parse_json_string_body fuel cs3).map (fun p => ('\uFFFD' :: p.1, p.2))
                  | none => (parse_json_string_body fuel cs3).map (fun p => ('\uFFFD' :: p.1, p.2))
                | _ => (parse_json_string_body fuel cs3).map (fun p => ('\uFFFD' :: p.1, p.2))
              else if 0xDC00 ≤ n && n ≤ 0xDFFF then
                (parse_json_string_body fuel cs3).map (fun p => ('\uFFFD' :: p.1, p.2))
              else
                (parse_json_string_body fuel cs3).map (fun p => (Char.ofNat n :: p.1, p.2))
          | _ => none
        else none
    else if c.toNat < 0x20 then none
    else (parse_json_string_body fuel cs).map (fun p => (c :: p.1, p.2))

/-- JSON whitespace (as accepted by the json module). -/
def json_ws (c : Char) : Bool :=
  let n := c.toNat
  n == 32 || n == 9 || n == 10 || n == 13

/-- Lex a JSON number at the head of the input: returns its lexeme and the
rest.  Grammar: -? (0 | [1-9][0-9]*) (. [0-9]+)? ([eE] [+-]? [0-9]+)?. -/
def parse_json_number (cs : List Char) : Option (List Char × List Char) :=
  let (neg, cs1) := match cs with
    | '-' :: t => ([('-' : Char)], t)
    | _ => ([], cs)
  match cs1 with
  | [] => none
  | d :: t =>
    if ¬ d.isDigit then none
    else
      let (ipart, cs2) :=
        if d = '0' then ([d], t)
        else
          let more := t.takeWhile Char.isDigit
          (d :: more, t.drop more.length)
      let (fpart, cs3) :=
        match cs2 with
        | '.' :: u =>
          let ds := u.takeWhile Char.isDigit
          if ds = [] then ([('!' : Char)], cs2) else ('.' :: ds, u.drop ds.length)
        | _ => ([], cs2)
      if fpart = [('!' : Char)] then none
      else
        let (epart, cs4) :=
          match cs3 with
          | e :: u =>
            if e = 'e' ∨ e = 'E' then
              let (sgn, u2) := match u with
                | '+' :: v => ([('+' : Char)], v)
                | '-' :: v => ([('-' : Char)], v)
                | _ => ([], u)
              let ds := u2.takeWhile Char.isDigit
              if ds = [] then ([('!' : Char)], cs3) else (e :: (sgn ++ ds), u2.drop ds.length)
            else ([], cs3)
          | [] => ([], cs3)
        if epart = [('!' : Char)] then none
        else some (neg ++ ipart ++ fpart ++ epart, cs4)

/-- Parser mode: one JSON value, the inside of an object (after the open
brace), a member list with its accumulator, the inside of an array, or an
element list with its accumulator.  A single mode-tagged function keeps the
whole parser structurally recursive on its fuel. -/
inductive PMode where
  | value
  | object
  | members (acc : List (String × JVal))
  | array
  | elems (acc : List JVal)

/-- The recursive core of the json.loads model.  The fuel is always called
with more than the number of characters remaining, and every recursive call
first consumes at least one character. -/
def parse_json_core : Nat → PMode → List Char → Option (JVal × List Char)
  | 0, _, _ => none
  | fuel + 1, PMode.value, cs0 =>
    let cs := cs0.dropWhile json_ws
    match cs with
    | [] => none
    | c :: t =>
      if c = '"' then
        (parse_json_string_body (t.length + 1) t).map (fun p => (JVal.str (String.mk p.1), p.2))
      else if c = '\x7b' then
        parse_json_core fuel PMode.object t
      else if c = '[' then
        parse_json_core fuel PMode.array t
      else if c = 't' then
        match cs with
        | 't' :: 'r' :: 'u' :: 'e' :: r => some (JVal.bool true, r)
        | _ => none
      else if c = 'f' then
        match cs with
        | 'f' :: 'a' :: 'l' :: 's' :: 'e' :: r => some (JVal.bool false, r)
        | _ => none
      else if c = 'n' then
        match cs with
        | 'n' :: 'u' :: 'l' :: 'l' :: r => some (JVal.null, r)
        | _ => none
      else
        (parse_json_number cs).map (fun p => (JVal.num (String.mk p.1), p.2))
  | fuel + 1, PMode.object, cs0 =>
    let cs := cs0.dropWhile json_ws
    match cs with
    | '\x7d' :: r => some (JVal.obj [], r)
    | _ => parse_json_core fuel (PMode.members []) cs
  | fuel + 1, PMode.members acc, cs =>
    match cs with
    | '"' :: t =>
      match parse_json_string_body (t.length + 1) t with
      | none => none
      | some (kcs, r1) =>
        let r2 := r1.dropWhile json_ws
        match r2 with
        | ':' :: r3 =>
          match parse_json_core fuel PMode.value r3 with
          | none => none
          | some (v, r4) =>
            let acc2 := acc ++ [(String.mk kcs, v)]
            let r5 := r4.dropWhile json_ws
            match r5 with
            | ',' :: r6 => parse_json_core fuel (PMode.members acc2) (r6.dropWhile json_ws)
            | '\x7d' :: r6 => some (JVal.obj acc2, r6)
            | _ => none
        | _ => none
    | _ => none
  | fuel + 1, PMode.array, cs0 =>
    let cs := cs0.dropWhile json_ws
    match cs with
    | ']' :: r => some (JVal.arr [], r)
    | _ => parse_json_core fuel (PMode.elems []) cs
  | fuel + 1, PMode.elems acc, cs =>
    match parse_json_core fuel PMode.value cs with
    | none => none
    | some (v, r1) =>
      let acc2 := acc ++ [v]
      let r2 := r1.dropWhile json_ws
      match r2 with
      | ',' :: r3 => parse_json_core fuel (PMode.elems acc2) r3
      | ']' :: r3 => some (JVal.arr acc2, r3)
      | _ => none

/-- Model of json.loads on a host string: parse one value and require only
whitespace to remain. -/
def json_loads (s : String) : Option JVal :=
  let cs := s.toList
  match parse_json_core (cs.length + 1) PMode.value cs with
  | some (v, rest) => if rest.dropWhile json_ws = [] then some v else none
  | none => none

/-- chunk.decode("utf-8") followed by json.loads, with every host exception
mapped to none (the scanners catch all of them). -/
def parse_json_bytes (bs : List Nat) : Option JVal :=
  (utf8_decode_list bs).bind (fun cs => json_loads (String.mk cs))

/-! ### Byte-level search primitives (bytes.find / bytes.rfind) -/

/-- Helper for bytes.find of a single byte: scans the tail of the buffer
starting at absolute index i. -/
def byte_find_aux (b : Nat) : List Nat → Nat → Option Nat
  | [], _ => none
  | x :: xs, i => if x == b then some i else byte_find_aux b xs (i + 1)

/-- data.find(bytes([b]), i): index of the first occurrence of byte b at
position at least i, if any. -/
def byte_find_from (data : List Nat) (b : Nat) (i : Nat) : Option Nat :=
  byte_find_aux b (data.drop i) i

/-- Does pat occur in data starting exactly at position p. -/
def matches_at (data pat : List Nat) (p : Nat) : Bool :=
  pat.isPrefixOf (data.drop p)

/-- Helper for bytes.find of a multi-byte pattern. -/
def sub_find_aux (pat : List Nat) : List Nat → Nat → Option Nat
  | [], i => if pat = [] then some i else none
  | x :: xs, i =>
    if pat.isPrefixOf (x :: xs) then some i else sub_find_aux pat xs (i + 1)

/-- data.find(pat, i): position of the first occurrence of pat at index at
least i, if any. -/
def sub_find_from (data pat : List Nat) (i : Nat) : Option Nat :=
  sub_find_aux pat (data.drop i) i

/-- Helper for bytes.rfind of one byte over [left, left + k): scans from
the top index downwards. -/
def byte_rfind_aux (data : List Nat) (b : Nat) (left : Nat) : Nat → Option Nat
  | 0 => none
  | k + 1 =>
    let j := left + k
    if data.getD j 0x100 == b then some j else byte_rfind_aux data b left k

/-- data.rfind(bytes([b]), left, hi): highest index j with left ≤ j < hi
(hi clamped to the length) holding byte b, if any. -/
def byte_rfind (data : List Nat) (b : Nat) (left hi : Nat) : Option Nat :=
  byte_rfind_aux data b left (min hi data.length - left)

/-! ### String-aware brace balancing (shared state machine of
_iter_embedded_json_objects and _scan_balanced_object_end) -/

/-- Walks bytes tracking brace depth, inside-string and escape-pending
state; j is the absolute index of the head byte; returns the index of the
first closing brace that brings the depth (back) to zero. -/
def fb_aux : List Nat → Nat → Int → Bool → Bool → Option Nat
  | [], _, _, _, _ => none
  | b :: rest, j, depth, inStr, esc =>
    if inStr then
      if esc then fb_aux rest (j + 1) depth true false
      else if b == 0x5C then fb_aux rest (j + 1) depth true true
      else if b == 0x22 then fb_aux rest (j + 1) depth false false
      else fb_aux rest (j + 1) depth true false
    else
      if b == 0x22 then fb_aux rest (j + 1) depth true false
      else if b == 0x7B then fb_aux rest (j + 1) (depth + 1) false false
      else if b == 0x7D then
        if depth - 1 == 0 then some j
        else fb_aux rest (j + 1) (depth - 1) false false
      else fb_aux rest (j + 1) depth false false

/-- Run the balance walker from absolute index start, looking only at
indices below lim. -/
def find_balanced_close (data : List Nat) (start lim : Nat) : Option Nat :=
  fb_aux ((data.drop start).take (lim - start)) start 0 false false

/-- data[a : b] as a byte list. -/
def slice_bytes (data : List Nat) (a b : Nat) : List Nat :=
  (data.drop a).take (b - a)

/-! ### _iter_embedded_json_objects: the balanced-object baseline scanner -/

/-- Loop of _iter_embedded_json_objects: i is the scan cursor, found the
number of objects yielded so far; fuel dominates the number of remaining
iterations (each iteration advances i by at least one). -/
def iter_embedded_go (data : List Nat) (maxObjects : Nat) : Nat → Nat → Nat → List JVal
  | 0, _, _ => []
  | fuel + 1, i, found =>
    if maxObjects ≤ found then []
    else
      match byte_find_from data 0x7B i with
      | none => []
      | some start =>
        match find_balanced_close data start data.length with
        | none => iter_embedded_go data maxObjects fuel (start + 1) found
        | some j =>
          match parse_json_bytes (slice_bytes data start (j + 1)) with
          | some (JVal.obj kvs) =>
            JVal.obj kvs :: iter_embedded_go data maxObjects fuel (j + 1) (found + 1)
          | _ => iter_embedded_go data maxObjects fuel (start + 1) found

/-- _iter_embedded_json_objects(data, max_objects): every balanced span
that decodes to a JSON object, in order of opening brace, resuming one
past the opening brace on failure and after the span on success. -/
def iter_embedded_json_objects (data : List Nat) (maxObjects : Nat) : List JVal :=
  iter_embedded_go data maxObjects (data.length + 1) 0 0

/-! ### Role-anchored scanner -/

/-- The marker bytes searched by the role-anchored scanner: a double
quote, the four letters of the role key, a double quote. -/
def role_marker : List Nat := [0x22, 0x72, 0x6F, 0x6C, 0x65, 0x22]

/-- _scan_balanced_object_end(data, start, max_len). -/
def scan_balanced_object_end (data : List Nat) (start maxLen : Nat) : Option Nat :=
  if data.length ≤ start then none
  else if data.getD start 0x100 ≠ 0x7B then none
  else find_balanced_close data start (min data.length (start + maxLen))

/-- _parse_json_dict_from_span(data, start, end_inclusive). -/
def parse_json_dict_from_span (data : List Nat) (start endInc : Nat) : Option (List (String × JVal)) :=
  if endInc < start ∨ data.length ≤ endInc then none
  else
    match parse_json_bytes (slice_bytes data start (endInc + 1)) with
    | some (JVal.obj kvs) => some kvs
    | _ => none

/-- Candidate opening-brace positions: repeated rfind of a brace below hi
(exclusive), nearest first, up to the given count, never below left. -/
def collect_candidates (data : List Nat) (left : Nat) : Nat → Nat → List Nat
  | 0, _ => []
  | k + 1, hi =>
    match byte_rfind data 0x7B left hi with
    | none => []
    | some s => s :: collect_candidates data left k s

/-- Try each candidate in order: balanced scan, parse, then require a role
field in the accepted set and a content key; returns the parsed dict and
the index one past its closing brace. -/
def first_qualifying (data : List Nat) (rolesSet : List String) (maxObjLen : Nat) :
    List Nat → Option (List (String × JVal) × Nat)
  | [] => none
  | s :: rest =>
    match scan_balanced_object_end data s maxObjLen with
    | none => first_qualifying data rolesSet maxObjLen rest
    | some e =>
      match parse_json_dict_from_span data s e with
      | none => first_qualifying data rolesSet maxObjLen rest
      | some kvs =>
        match jget kvs "role" with
        | some (JVal.str r) =>
          if r ∈ rolesSet then
            if jhas kvs "content" then some (kvs, e + 1)
            else first_qualifying data rolesSet maxObjLen rest
          else first_qualifying data rolesSet maxObjLen rest
        | _ => first_qualifying data rolesSet maxObjLen rest

/-- _find_enclosing_message_obj_around_role(data, role_pos, roles_set,
back_window, max_candidates, max_obj_len). -/
def find_enclosing_message_obj_around_role (data : List Nat) (rolePos : Nat)
    (rolesSet : List String) (backWindow maxCandidates maxObjLen : Nat) :
    Option (List (String × JVal) × Nat) :=
  if data.length ≤ rolePos then none
  else
    let left := rolePos - backWindow
    first_qualifying data rolesSet maxObjLen
      (collect_candidates data left (max 1 maxCandidates) (rolePos + 1))

/-- Loop of _iter_message_objects_role_anchored. -/
def iter_role_anchored_go (data : List Nat) (rolesSet : List String) (maxObjects : Nat) :
    Nat → Nat → Nat → List (List (String × JVal))
  | 0, _, _ => []
  | fuel + 1, pos, found =>
    if maxObjects ≤ found then []
    else
      match sub_find_from data role_marker pos with
      | none => []
      | some rp =>
        match find_enclosing_message_obj_around_role data rp rolesSet 65536 16 262144 with
        | none => iter_role_anchored_go data rolesSet maxObjects fuel (rp + role_marker.length) found
        | some (kvs, endPos) =>
          kvs :: iter_role_anchored_go data rolesSet maxObjects fuel
            (max endPos (rp + role_marker.length)) (found + 1)

/-- _iter_message_objects_role_anchored(data, roles, max_objects): anchors
on role-marker occurrences and yields the parsed enclosing message dicts.
The accepted role set is the roles sequence itself (all entries are host
strings in this model). -/
def iter_message_objects_role_anchored (data : List Nat) (roles : List String)
    (maxObjects : Nat) : List (List (String × JVal)) :=
  if data = [] then []
  else if roles = [] then []
  else if (byte_find_from data 0x7B 0).isNone || (sub_find_from data role_marker 0).isNone then []
  else iter_role_anchored_go data roles maxObjects (data.length + 1) 0 0

/-! ### Message normalizer (_extract_text_from_message) -/

/-- Recognized part type tags that allow falling back to a data field. -/
def text_part_types : List String := ["text", "output_text", "input_text"]

/-- Is part.get("type") one of the recognized text-like tags. -/
def type_is_text_like (part : List (String × JVal)) : Bool :=
  match jget part "type" with
  | some (JVal.str ty) => text_part_types.contains ty
  | _ => false

/-- Scan content parts in order: a part's non-blank text wins; otherwise a
non-blank data with a recognized type tag; otherwise the next part. -/
def extract_text_parts : List JVal → Option String
  | [] => none
  | JVal.obj part :: rest =>
    let viaData : Option String :=
      match jget part "data" with
      | some (JVal.str d) =>
        if py_strip d ≠ "" ∧ type_is_text_like part then some d else none
      | _ => none
    (match jget part "text" with
     | some (JVal.str t) =>
       if py_strip t ≠ "" then some t
       else
         match viaData with
         | some d => some d
         | none => extract_text_parts rest
     | _ =>
       match viaData with
       | some d => some d
       | none => extract_text_parts rest)
  | _ :: rest => extract_text_parts rest

/-- _extract_text_from_message(msg): string content wins when non-blank,
else the first acceptable list part, else nothing. -/
def extract_text_from_message (kvs : List (String × JVal)) : Option String :=
  match jget kvs "content" with
  | some (JVal.str s) => if py_strip s ≠ "" then some s else none
  | some (JVal.arr parts) => extract_text_parts parts
  | _ => none

/-- The scanners only ever yield dicts; project a yielded value to its
key/value pairs. -/
def jval_as_obj : JVal → Option (List (String × JVal))
  | JVal.obj kvs => some kvs
  | _ => none

/-! ### The blob store, its failure modes, and the access log -/

/-- A value stored in the meta side table (sqlite cell). -/
inductive MetaVal where
  | mstr (s : String)
  | mint (n : Int)
  | mbytes (b : List Nat)
  | mnull
deriving DecidableEq

/-- The sqlite store behind one store.db path.  present models file
existence, connectOk whether a read-only connection can be established,
queriesFail makes every query raise; blobs are (id, data) rows in rowid
(chronological) order, the implicit rowid of position p being p + 1. -/
structure Store where
  pathKey : String
  present : Bool
  connectOk : Bool
  queriesFail : Bool
  blobs : List (String × List Nat)
  metaRows : List (MetaVal × MetaVal)
deriving DecidableEq

/-- One store-level query, named after the collaborator interface of the
store (the read-only connection itself is out-of-scope plumbing and is not
an access). -/
inductive Access where
  | fetch_fingerprint
  | fetch_rows_ascending (lim : Option Int)
  | fetch_rows_descending (lim : Int)
  | fetch_meta_row0
  | fetch_meta_rows
  | fetch_blob_by_id (id : String)
deriving DecidableEq

/-- Equality of wrapper results is decidable componentwise. -/
instance {e a : Type} [DecidableEq e] [DecidableEq a] : DecidableEq (Except e a) := fun x y =>
  match x, y with
  | Except.ok v, Except.ok w =>
    if h : v = w then isTrue (by rw [h]) else isFalse (by simp [h])
  | Except.error v, Except.error w =>
    if h : v = w then isTrue (by rw [h]) else isFalse (by simp [h])
  | Except.ok _, Except.error _ => isFalse (by simp)
  | Except.error _, Except.ok _ => isFalse (by simp)

/-- Host exceptions relevant to the module: sqlite3.Error (caught by the
connection wrapper) and the attribute error raised by calling .get on a
non-dict decoded meta value (not caught anywhere). -/
inductive PErr where
  | sqliteError
  | attrError
deriving DecidableEq

/-! ### The process-wide full-history cache -/

/-- Cache key: (db path key, roles tuple, blobs stamp). -/
abbrev CKey := String × List String × (Nat × Nat)

/-- Extracted messages: (role, text) pairs. -/
abbrev Msgs := List (String × String)

/-- _FULL_CACHE (an ordered dict, least recently used first) together with
_FULL_CACHE_BYTES. -/
structure Cache where
  entries : List (CKey × (Msgs × Int))
  bytesTotal : Int
deriving DecidableEq

/-- The cache at process start / after _clear_caches_for_tests. -/
def empty_cache : Cache := ⟨[], 0⟩

/-- _approx_messages_bytes. -/
def approx_messages_bytes (msgs : Msgs) : Int :=
  msgs.foldl (fun a p => a + p.1.length + p.2.length + 32) 0

/-- Pure lookup of a cache entry value (no recency side effect). -/
def cache_lookup (k : CKey) (c : Cache) : Option Msgs :=
  (c.entries.find? (fun e => e.1 == k)).map (fun e => e.2.1)

/-- _full_cache_get: on a hit the entry is moved to the most recent end. -/
def full_cache_get (k : CKey) (c : Cache) : Option Msgs × Cache :=
  match c.entries.find? (fun e => e.1 == k) with
  | none => (none, c)
  | some e =>
    (some e.2.1, ⟨c.entries.filter (fun e2 => !(e2.1 == k)) ++ [e], c.bytesTotal⟩)

/-- Eviction loop of _full_cache_put: pop least-recent entries while over
the entry bound (24) or the byte bound (32 MiB). -/
def cache_evict : Nat → List (CKey × (Msgs × Int)) → Int → List (CKey × (Msgs × Int)) × Int
  | 0, es, bt => (es, bt)
  | fuel + 1, es, bt =>
    match es with
    | [] => ([], bt)
    | e :: rest =>
      if 24 < es.length ∨ 33554432 < bt then cache_evict fuel rest (bt - e.2.2)
      else (es, bt)

/-- _full_cache_put: replace any entry under the same key (adjusting the
byte total), append the new entry at the most recent end, then evict. -/
def full_cache_put (k : CKey) (msgs : Msgs) (c : Cache) : Cache :=
  let b := approx_messages_bytes msgs
  let popped : List (CKey × (Msgs × Int)) × Int :=
    match c.entries.find? (fun e => e.1 == k) with
    | none => (c.entries, c.bytesTotal)
    | some old => (c.entries.filter (fun e => !(e.1 == k)), c.bytesTotal - old.2.2)
  let es2 := popped.1 ++ [(k, (msgs, b))]
  let bt2 := popped.2 + b
  let ev := cache_evict (es2.length + 1) es2 bt2
  ⟨ev.1, ev.2⟩

/-- The aggregate value of the fingerprint query on a healthy store:
(MAX(rowid), SUM(LENGTH(data))). -/
def blobs_stamp_val (st : Store) : Nat × Nat :=
  (st.blobs.length, (st.blobs.map (fun b => b.2.length)).sum)

/-- _blobs_stamp: the fingerprint query with its internal exception
handler (failures degrade to (0, 0)); always logs one fingerprint fetch. -/
def blobs_stamp (st : Store) : (Nat × Nat) × List Access :=
  ((if st.queriesFail then (0, 0) else blobs_stamp_val st), [Access.fetch_fingerprint])

/-! ### The directional extractor (_extract_messages_from_connection) -/

/-- The loop state of _extract_messages_from_connection: the seen set, the
output in order, and the early-stop flag. -/
structure ExtState where
  seen : List (String × String)
  out : Msgs
  stopped : Bool
deriving DecidableEq

/-- The nested _append: drop once stopped, drop exact duplicates, drop a
repeat of the last entry, then append and raise the stop flag when a
bounded from-start extraction is full. -/
def ext_append (fromStart : Bool) (mm : Option Int) (st : ExtState)
    (key : String × String) : ExtState :=
  if st.stopped then st
  else if key ∈ st.seen then st
  else
    let seen2 := key :: st.seen
    if st.out ≠ [] ∧ st.out.getLast? = some key then ⟨seen2, st.out, st.stopped⟩
    else
      let out2 := st.out ++ [key]
      let stopped2 := fromStart &&
        (match mm with
         | some m => decide ((out2.length : Int) ≥ m)
         | none => false)
      ⟨seen2, out2, stopped2⟩

/-- Per-object processing of the extractor loop: role filter against the
requested roles, text extraction, and the environment-block filter;
returns the (role, stripped text) pair handed to _append. -/
def ext_norm (roles : List String) (kvs : List (String × JVal)) : Option (String × String) :=
  match jget kvs "role" with
  | some (JVal.str r) =>
    if r ∈ roles then
      match extract_text_from_message kvs with
      | some t =>
        if r = "user" ∧ (py_lstrip t).startsWith "<user_info>" then none
        else some (r, py_strip t)
      | none => none
    else none
  | _ => none

/-- Fold the extractor loop body over a list of scanned dicts. -/
def ext_fold_objs (fromStart : Bool) (mm : Option Int) (roles : List String)
    (st : ExtState) (objs : List (List (String × JVal))) : ExtState :=
  objs.foldl
    (fun s kvs =>
      match ext_norm roles kvs with
      | some key => ext_append fromStart mm s key
      | none => s)
    st

/-- The cheap per-blob pre-filter: a brace and the role marker both occur. -/
def has_brace_and_marker (blob : List Nat) : Bool :=
  (byte_find_from blob 0x7B 0).isSome && (sub_find_from blob role_marker 0).isSome

/-- One blob of the extractor loop: quick filter, role-anchored scan, and
the per-blob fallback to the embedded-object scan when the anchored scan
yields nothing. -/
def process_blob (fromStart : Bool) (mm : Option Int) (roles : List String)
    (st : ExtState) (blob : List Nat) : ExtState :=
  if ¬ has_brace_and_marker blob then st
  else
    let objs := iter_message_objects_role_anchored blob roles 500
    let st1 := ext_fold_objs fromStart mm roles st objs
    if objs.isEmpty then
      ext_fold_objs fromStart mm roles st1
        ((iter_embedded_json_objects blob 500).filterMap jval_as_obj)
    else st1

/-- Is the max_messages argument an int that is ≤ 0. -/
def mm_nonpos (mm : Option Int) : Bool :=
  match mm with
  | some m => decide (m ≤ 0)
  | none => false

/-- Fold all selected blob rows and apply the final slicing (head slice
for from-start, tail slice for recent). -/
def run_rows (fromStart : Bool) (mm : Option Int) (roles : List String)
    (rows : List (List Nat)) : Msgs :=
  let fin := rows.foldl (process_blob fromStart mm roles) ⟨[], [], false⟩
  match mm with
  | none => fin.out
  | some m =>
    if fromStart then fin.out.take m.toNat
    else fin.out.drop (fin.out.length - m.toNat)

/-- _extract_messages_from_connection(con, max_messages, max_blobs, roles,
from_start): selects blob rows (ascending, possibly limited; or the most
recent limited window re-reversed to chronological order), scans each, and
slices.  The single rows query is logged; a failing store raises at that
query. -/
def extract_messages_from_connection (st : Store) (mm : Option Int) (mb : Option Int)
    (roles : List String) (fromStart : Bool) : Except PErr Msgs × List Access :=
  if mm_nonpos mm then (Except.ok [], [])
  else
    match mb with
    | none =>
      if st.queriesFail then (Except.error PErr.sqliteError, [Access.fetch_rows_ascending none])
      else
        (Except.ok (run_rows fromStart mm roles (st.blobs.map (fun b => b.2))),
         [Access.fetch_rows_ascending none])
    | some m =>
      if m ≤ 0 then (Except.ok [], [])
      else if fromStart then
        if st.queriesFail then
          (Except.error PErr.sqliteError, [Access.fetch_rows_ascending (some m)])
        else
          (Except.ok (run_rows fromStart mm roles ((st.blobs.map (fun b => b.2)).take m.toNat)),
           [Access.fetch_rows_ascending (some m)])
      else
        if st.queriesFail then
          (Except.error PErr.sqliteError, [Access.fetch_rows_descending m])
        else
          let all := st.blobs.map (fun b => b.2)
          (Except.ok (run_rows fromStart mm roles (all.drop (all.length - m.toNat))),
           [Access.fetch_rows_descending m])

/-! ### Connection wrapper and public operations -/

/-- _with_ro_connection: nothing at all happens when the store is missing
or cannot be opened; a sqlite error from the operation causes one retry on
the second candidate URI; the attribute error path is never caught. -/
def with_ro_connection {α : Type} (st : Store) (c : Cache)
    (op : Cache → Except PErr α × Cache × List Access) :
    Except PErr (Option α) × Cache × List Access :=
  if ¬ (st.present = true ∧ st.connectOk = true) then (Except.ok none, c, [])
  else
    match op c with
    | (Except.ok v, c1, l1) => (Except.ok (some v), c1, l1)
    | (Except.error PErr.attrError, c1, l1) => (Except.error PErr.attrError, c1, l1)
    | (Except.error PErr.sqliteError, c1, l1) =>
      match op c1 with
      | (Except.ok v, c2, l2) => (Except.ok (some v), c2, l1 ++ l2)
      | (Except.error PErr.attrError, c2, l2) => (Except.error PErr.attrError, c2, l1 ++ l2)
      | (Except.error PErr.sqliteError, c2, l2) => (Except.ok none, c2, l1 ++ l2)

/-- tuple(str(r) for r in roles): the identity on a list of host strings. -/
def roles_key (roles : List String) : List String := roles

/-- The result of a public extraction: the messages, the cache state after
the call, and every store query performed. -/
structure XOut where
  msgs : Msgs
  cache : Cache
  log : List Access
deriving DecidableEq

/-- Dispatch on the wrapper result for a messages-valued operation: a None
result (store unavailable / queries kept failing) degrades to []; the
attribute-error arm is unreachable for extraction operations, which only
perform sqlite-fallible queries. -/
def xout_of (r : Except PErr (Option Msgs) × Cache × List Access) : XOut :=
  match r with
  | (Except.ok (some v), c2, l) => ⟨v, c2, l⟩
  | (Except.ok none, c2, l) => ⟨[], c2, l⟩
  | (Except.error _, c2, l) => ⟨[], c2, l⟩

/-- extract_recent_messages(store_db, max_messages, max_blobs, roles) with
the process cache threaded explicitly.  With max_blobs unbounded and an
existing store, the full-history cache is consulted under the fingerprint
and populated on a miss with the unbounded extraction, then tail-sliced;
otherwise a plain bounded extraction runs. -/
def extract_recent_messages (st : Store) (mm : Option Int) (mb : Option Int)
    (roles : List String) (c : Cache) : XOut :=
  if mm_nonpos mm then ⟨[], c, []⟩
  else if mb = none ∧ st.present = true then
    let op := fun (c0 : Cache) =>
      let stamp := (blobs_stamp st).1
      let k : CKey := (st.pathKey, roles_key roles, stamp)
      let hit := full_cache_get k c0
      match hit.1 with
      | some cached =>
        (Except.ok
          (match mm with
           | none => cached
           | some m => cached.drop (cached.length - m.toNat)),
         hit.2, (blobs_stamp st).2)
      | none =>
        match extract_messages_from_connection st none none (roles_key roles) false with
        | (Except.ok full, l1) =>
          (Except.ok
            (match mm with
             | none => full
             | some m => full.drop (full.length - m.toNat)),
           full_cache_put k full hit.2, (blobs_stamp st).2 ++ l1)
        | (Except.error e, l1) => (Except.error e, hit.2, (blobs_stamp st).2 ++ l1)
    xout_of (with_ro_connection st c op)
  else
    let op := fun (c0 : Cache) =>
      match extract_messages_from_connection st mm mb roles false with
      | (r, l) => (r, c0, l)
    xout_of (with_ro_connection st c op)

/-- extract_initial_messages(store_db, max_messages, max_blobs, roles):
max_messages here is a plain int.  With max_blobs unbounded and an
existing store, a fresh cache entry serves the head slice (and the cache
is never populated here); otherwise a from-start extraction runs. -/
def extract_initial_messages (st : Store) (k : Int) (mb : Option Int)
    (roles : List String) (c : Cache) : XOut :=
  if k ≤ 0 then ⟨[], c, []⟩
  else if mb = none ∧ st.present = true then
    let op := fun (c0 : Cache) =>
      let stamp := (blobs_stamp st).1
      let ck : CKey := (st.pathKey, roles_key roles, stamp)
      let hit := full_cache_get ck c0
      match hit.1 with
      | some cached => (Except.ok (cached.take k.toNat), hit.2, (blobs_stamp st).2)
      | none =>
        match extract_messages_from_connection st (some k) none (roles_key roles) true with
        | (r, l1) => (r, hit.2, (blobs_stamp st).2 ++ l1)
    xout_of (with_ro_connection st c op)
  else
    let op := fun (c0 : Cache) =>
      match extract_messages_from_connection st (some k) mb roles true with
      | (r, l) => (r, c0, l)
    xout_of (with_ro_connection st c op)

/-! ### Preview reader -/

/-- _read_blob_from_connection: SELECT data FROM blobs WHERE id=? LIMIT 1. -/
def read_blob_from_connection (st : Store) (blobId : String) :
    Except PErr (Option (List Nat)) × List Access :=
  if st.queriesFail then (Except.error PErr.sqliteError, [Access.fetch_blob_by_id blobId])
  else
    (Except.ok ((st.blobs.find? (fun b => b.1 == blobId)).map (fun b => b.2)),
     [Access.fetch_blob_by_id blobId])

/-- The preview loop over scanned dicts: remember the last (role, text)
with a string role, extractable text, and not the environment block. -/
def preview_fold (objs : List (List (String × JVal))) : Option String × Option String :=
  objs.foldl
    (fun acc kvs =>
      match jget kvs "role" with
      | some (JVal.str r) =>
        match extract_text_from_message kvs with
        | some t =>
          if r = "user" ∧ (py_lstrip t).startsWith "<user_info>" then acc
          else (some r, some t)
        | none => acc
      | _ => acc)
    (none, none)

/-- _extract_last_message_preview_from_connection: scan only the given
blob with the embedded-object scanner for the last qualifying message; if
that yields nothing, fall back to a bounded recent extraction (200 blobs,
1 message). -/
def extract_last_message_preview_from_connection (st : Store) (blobId : String) :
    Except PErr (Option String × Option String) × List Access :=
  match read_blob_from_connection st blobId with
  | (Except.error e, l) => (Except.error e, l)
  | (Except.ok blobOpt, l) =>
    let viaBlob : Option (Option String × Option String) :=
      match blobOpt with
      | some blob =>
        if blob = [] then none
        else
          let lp := preview_fold ((iter_embedded_json_objects blob 200).filterMap jval_as_obj)
          match lp.2 with
          | some t => if t ≠ "" then some (lp.1, some t) else none
          | none => none
      | none => none
    match viaBlob with
    | some pair => (Except.ok pair, l)
    | none =>
      match extract_messages_from_connection st (some 1) (some 200) ["user", "assistant"] false with
      | (Except.ok msgs, l2) =>
        (match msgs.getLast? with
         | some p => (Except.ok (some p.1, some p.2), l ++ l2)
         | none => (Except.ok (none, none), l ++ l2))
      | (Except.error e, l2) => (Except.error e, l ++ l2)

/-- extract_last_message_preview(store_db, latest_root_blob_id): public
wrapper, (None, None) when the wrapper yields nothing. -/
def extract_last_message_preview (st : Store) (blobId : String) :
    (Option String × Option String) × List Access :=
  match
    with_ro_connection st empty_cache
      (fun c0 =>
        match extract_last_message_preview_from_connection st blobId with
        | (r, l) => (r, c0, l))
  with
  | (Except.ok (some pair), _, l) => (pair, l)
  | (Except.ok none, _, l) => ((none, none), l)
  | (Except.error _, _, l) => ((none, none), l)

/-! ### Metadata reader -/

/-- AgentChatMeta dataclass. -/
structure AgentChatMeta where
  agent_id : String
  latest_root_blob_id : Option String
  name : String
  mode : Option String
  created_at_ms : Option Int
deriving DecidableEq

/-- Is c a hex digit after lowercasing (c in "0123456789abcdef" over
s.lower()). -/
def is_hex_digit (c : Char) : Bool :=
  let n := c.toNat
  (48 ≤ n && n ≤ 57) || (97 ≤ n && n ≤ 102) || (65 ≤ n && n ≤ 70)

/-- binascii.unhexlify on an even-length hex string. -/
def unhex_pairs : List Char → Option (List Nat)
  | [] => some []
  | c1 :: c2 :: rest =>
    match hex_val c1, hex_val c2 with
    | some h, some l => (unhex_pairs rest).map (fun bs => (h * 16 + l) :: bs)
    | _, _ => none
  | _ => none

/-- binascii.unhexlify of a host string. -/
def unhexlify (s : String) : Option (List Nat) :=
  unhex_pairs s.toList

/-- _maybe_decode_hex_json(s): an empty value decodes to nothing; a
stripped value of even length made of hex digits is unhexlified, decoded
as UTF-8 and json-parsed (any failure yields nothing); any other value is
json-parsed directly.  The result is whatever json.loads returned (not
necessarily a dict, matching the source). -/
def maybe_decode_hex_json (s : String) : Option JVal :=
  if s = "" then none
  else
    let ss := py_strip s
    if ss.length % 2 = 0 ∧ ss.toList.all is_hex_digit then
      match unhexlify ss with
      | some bs => parse_json_bytes bs
      | none => none
    else json_loads ss

/-- The decoded meta mapping: either a json value (from the hex / json
decode) or the flat key/value dict built from the raw rows. -/
inductive MetaObj where
  | json (v : JVal)
  | flat (kvs : List (String × MetaVal))

/-- A raw field value read out of a MetaObj. -/
inductive RawV where
  | rjson (v : JVal)
  | rmeta (m : MetaVal)

/-- Lookup in the flat dict built by row iteration (later rows win). -/
def mlookup (kvs : List (String × MetaVal)) (f : String) : Option MetaVal :=
  kvs.foldl (fun acc p => if p.1 = f then some p.2 else acc) none

/-- The flat fallback map: string-keyed rows, in order. -/
def flat_of_rows (rows : List (MetaVal × MetaVal)) : List (String × MetaVal) :=
  rows.filterMap
    (fun r =>
      match r.1 with
      | MetaVal.mstr k => some (k, r.2)
      | _ => none)

/-- Calling .get on the decoded meta value raises an attribute error
exactly when the json decode produced a non-dict. -/
def mobj_bad : MetaObj → Bool
  | MetaObj.json (JVal.obj _) => false
  | MetaObj.json _ => true
  | MetaObj.flat _ => false

/-- meta_obj.get(field) for a well-typed meta object. -/
def mobj_get (mo : MetaObj) (f : String) : Option RawV :=
  match mo with
  | MetaObj.json (JVal.obj kvs) => (jget kvs f).map RawV.rjson
  | MetaObj.json _ => none
  | MetaObj.flat kvs => (mlookup kvs f).map RawV.rmeta

/-- isinstance(x, str) projection of a raw field value. -/
def raw_as_str : RawV → Option String
  | RawV.rjson (JVal.str s) => some s
  | RawV.rmeta (MetaVal.mstr s) => some s
  | _ => none

/-- Numeric value of an integer json lexeme, if it is one. -/
def lex_to_int (lex : String) : Option Int :=
  match lex.toList with
  | '-' :: ds =>
    if ds ≠ [] ∧ ds.all Char.isDigit then
      some (-(ds.foldl (fun a c => a * 10 + (c.toNat - '0'.toNat)) 0 : Nat))
    else none
  | ds =>
    if ds ≠ [] ∧ ds.all Char.isDigit then
      some ((ds.foldl (fun a c => a * 10 + (c.toNat - '0'.toNat)) 0 : Nat) : Int)
    else none

/-- isinstance(x, int) projection of a raw field value (a json bool is an
int in the host language). -/
def raw_as_int : RawV → Option Int
  | RawV.rjson (JVal.num lex) => lex_to_int lex
  | RawV.rjson (JVal.bool b) => some (if b then 1 else 0)
  | RawV.rmeta (MetaVal.mint n) => some n
  | _ => none

/-- The field extraction tail of _read_chat_meta_from_connection: .get on
a non-dict decode raises; a missing / non-string / empty agentId yields
None; the remaining fields degrade individually. -/
def build_meta (mo : MetaObj) : Except PErr (Option AgentChatMeta) :=
  if mobj_bad mo then Except.error PErr.attrError
  else
    match (mobj_get mo "agentId").bind raw_as_str with
    | none => Except.ok none
    | some aid =>
      if aid = "" then Except.ok none
      else
        let latest :=
          match (mobj_get mo "latestRootBlobId").bind raw_as_str with
          | some s => if s = "" then none else some s
          | none => none
        let nm :=
          match (mobj_get mo "name").bind raw_as_str with
          | some s => if py_strip s = "" then "Untitled" else s
          | none => "Untitled"
        let md := (mobj_get mo "mode").bind raw_as_str
        let created := (mobj_get mo "createdAt").bind raw_as_int
        Except.ok (some ⟨aid, latest, nm, md, created⟩)

/-- SELECT value FROM meta for the key "0", LIMIT 1. -/
def meta_value0 (st : Store) : Except PErr (Option MetaVal) × List Access :=
  if st.queriesFail then (Except.error PErr.sqliteError, [Access.fetch_meta_row0])
  else
    (Except.ok ((st.metaRows.find? (fun r => r.1 == MetaVal.mstr "0")).map (fun r => r.2)),
     [Access.fetch_meta_row0])

/-- SELECT key, value FROM meta. -/
def meta_all (st : Store) : Except PErr (List (MetaVal × MetaVal)) × List Access :=
  if st.queriesFail then (Except.error PErr.sqliteError, [Access.fetch_meta_rows])
  else (Except.ok st.metaRows, [Access.fetch_meta_rows])

/-- _read_chat_meta_from_connection: fast path through the key-0 row
(errors swallowed), then the flat fallback, preferring a single-row hex /
json decode when it succeeds. -/
def read_chat_meta_from_connection (st : Store) :
    Except PErr (Option AgentChatMeta) × List Access :=
  let q1 := meta_value0 st
  let metaObj1 : Option JVal :=
    match q1.1 with
    | Except.error _ => none
    | Except.ok (some (MetaVal.mstr s)) => maybe_decode_hex_json s
    | Except.ok _ => none
  match metaObj1 with
  | some mv => (build_meta (MetaObj.json mv), q1.2)
  | none =>
    match meta_all st with
    | (Except.error e, l2) => (Except.error e, q1.2 ++ l2)
    | (Except.ok rows, l2) =>
      if rows = [] then (Except.ok none, q1.2 ++ l2)
      else
        let base := MetaObj.flat (flat_of_rows rows)
        let mo :=
          match rows with
          | [(_, MetaVal.mstr v0)] =>
            match maybe_decode_hex_json v0 with
            | some dv => MetaObj.json dv
            | none => base
          | _ => base
        (build_meta mo, q1.2 ++ l2)

/-- read_chat_meta(store_db): missing store short-circuits; otherwise the
wrapper runs the connection-level reader (its attribute error is the one
host exception the wrapper does not catch). -/
def read_chat_meta (st : Store) : Except PErr (Option AgentChatMeta) × List Access :=
  if st.present = false then (Except.ok none, [])
  else
    match
      with_ro_connection st empty_cache
        (fun c0 =>
          match read_chat_meta_from_connection st with
          | (r, l) => (r, c0, l))
    with
    | (Except.ok v, _, l) => (Except.ok (v.bind (fun x => x)), l)
    | (Except.error e, _, l) => (Except.error e, l)

/-! ## Infrastructure lemmas -/

/-- Scanning past the end finds nothing. -/
theorem byte_find_from_ge (data : List Nat) (b i : Nat) (h : data.length ≤ i) :
    byte_find_from data b i = none := by
  unfold byte_find_from
  rw [List.drop_eq_nil_of_le h]
  rfl

theorem byte_find_aux_some (b : Nat) :
    ∀ (l : List Nat) (i0 j : Nat), byte_find_aux b l i0 = some j →
      i0 ≤ j ∧ j < i0 + l.length := by
  intro l
  induction l with
  | nil => intro i0 j h; simp [byte_find_aux] at h
  | cons x xs ih =>
    intro i0 j h
    simp only [byte_find_aux] at h
    by_cases hx : (x == b) = true
    · simp [hx] at h
      subst h
      simp
    · simp [hx] at h
      have := ih (i0 + 1) j h
      constructor
      · omega
      · simp only [List.length_cons]
        omega

/-- A found byte position lies in [i, length). -/
theorem byte_find_from_some (data : List Nat) (b i j : Nat)
    (h : byte_find_from data b i = some j) : i ≤ j ∧ j < data.length := by
  by_cases hle : data.length ≤ i
  · rw [byte_find_from_ge data b i hle] at h
    exact absurd h (by simp)
  · unfold byte_find_from at h
    have hb := byte_find_aux_some b (data.drop i) i j h
    rw [List.length_drop] at hb
    omega

theorem sub_find_aux_some (pat : List Nat) (hpat : pat ≠ []) :
    ∀ (l : List Nat) (i0 j : Nat), sub_find_aux pat l i0 = some j →
      i0 ≤ j ∧ j + pat.length ≤ i0 + l.length := by
  intro l
  induction l with
  | nil => intro i0 j h; simp [sub_find_aux, hpat] at h
  | cons x xs ih =>
    intro i0 j h
    simp only [sub_find_aux] at h
    by_cases hx : pat.isPrefixOf (x :: xs) = true
    · simp [hx] at h
      subst h
      have hl := (List.isPrefixOf_iff_prefix.mp hx).length_le
      simp only [List.length_cons] at hl ⊢
      omega
    · simp [hx] at h
      have := ih (i0 + 1) j h
      simp only [List.length_cons]
      omega

/-- A found pattern occurrence fits inside the buffer and starts at or
after the scan position. -/
theorem sub_find_from_some (data pat : List Nat) (i j : Nat) (hpat : pat ≠ [])
    (h : sub_find_from data pat i = some j) :
    i ≤ j ∧ j + pat.length ≤ data.length := by
  by_cases hle : data.length ≤ i
  · unfold sub_find_from at h
    rw [List.drop_eq_nil_of_le hle] at h
    simp [sub_find_aux, hpat] at h
  · unfold sub_find_from at h
    have hb := sub_find_aux_some pat hpat (data.drop i) i j h
    rw [List.length_drop] at hb
    omega

theorem fb_aux_some :
    ∀ (l : List Nat) (j0 : Nat) (d : Int) (is es : Bool) (j : Nat),
      fb_aux l j0 d is es = some j → j0 ≤ j ∧ j < j0 + l.length := by
  intro l
  induction l with
  | nil => intro j0 d is es j h; simp [fb_aux] at h
  | cons b rest ih =>
    intro j0 d is es j h
    simp only [fb_aux] at h
    split_ifs at h with h1 h2 h3 h4 h5 h6 h7 h8 <;>
      first
        | (have hx := ih (j0 + 1) _ _ _ j h; simp only [List.length_cons]; omega)
        | (simp at h; subst h; simp only [List.length_cons]; omega)

/-- A balanced close lies in [start, min lim length). -/
theorem find_balanced_close_some (data : List Nat) (start lim j : Nat)
    (h : find_balanced_close data start lim = some j) :
    start ≤ j ∧ j < data.length ∧ j < lim := by
  unfold find_balanced_close at h
  have hb := fb_aux_some _ start 0 false false j h
  rw [List.length_take, List.length_drop] at hb
  omega

/-- The accepted end position of the candidate search is positive and
bounded by the buffer length. -/
theorem first_qualifying_some (data : List Nat) (rolesSet : List String) (maxObjLen : Nat) :
    ∀ (cands : List Nat) (kvs : List (String × JVal)) (ep : Nat),
      first_qualifying data rolesSet maxObjLen cands = some (kvs, ep) →
      1 ≤ ep ∧ ep ≤ data.length := by
  intro cands
  induction cands with
  | nil => intro kvs ep h; simp [first_qualifying] at h
  | cons s rest ih =>
    intro kvs ep h
    simp only [first_qualifying] at h
    rcases hscan : scan_balanced_object_end data s maxObjLen with _ | e
    · simp only [hscan] at h
      exact ih kvs ep h
    · simp only [hscan] at h
      have he : s ≤ e ∧ e < data.length := by
        unfold scan_balanced_object_end at hscan
        split_ifs at hscan with hg1 hg2
        have := find_balanced_close_some data s _ e hscan
        omega
      rcases hp : parse_json_dict_from_span data s e with _ | kvs2
      · simp only [hp] at h
        exact ih kvs ep h
      · simp only [hp] at h
        rcases hr : jget kvs2 "role" with _ | v
        · simp only [hr] at h
          exact ih kvs ep h
        · simp only [hr] at h
          match v, h with
          | JVal.str r, h =>
            simp only at h
            split_ifs at h with hin hhas
            · simp at h
              obtain ⟨h1, h2⟩ := h
              omega
            · exact ih kvs ep h
            · exact ih kvs ep h
          | JVal.null, h => exact ih kvs ep h
          | JVal.bool b2, h => exact ih kvs ep h
          | JVal.num l2, h => exact ih kvs ep h
          | JVal.arr a2, h => exact ih kvs ep h
          | JVal.obj o2, h => exact ih kvs ep h

/-- The accepted object end returned by the enclosing-object search. -/
theorem find_enclosing_some (data : List Nat) (rolePos : Nat) (rolesSet : List String)
    (bw mc ml : Nat) (kvs : List (String × JVal)) (ep : Nat)
    (h : find_enclosing_message_obj_around_role data rolePos rolesSet bw mc ml = some (kvs, ep)) :
    1 ≤ ep ∧ ep ≤ data.length := by
  unfold find_enclosing_message_obj_around_role at h
  split_ifs at h
  exact first_qualifying_some data rolesSet ml _ kvs ep h

/-- Is an optional json value an object. -/
def jopt_is_obj : Option JVal → Bool
  | some (JVal.obj _) => true
  | _ => false

/-- The baseline loop yields nothing once the object budget is reached. -/
theorem iter_embedded_go_stop (data : List Nat) (maxO fuel i found : Nat)
    (hfd : maxO ≤ found) : iter_embedded_go data maxO fuel i found = [] := by
  cases fuel with
  | zero => rfl
  | succ f => simp [iter_embedded_go, hfd]

/-- The baseline loop ends when no brace remains. -/
theorem iter_embedded_go_no_brace (data : List Nat) (maxO fuel i found : Nat)
    (hfind : byte_find_from data 0x7B i = none) :
    iter_embedded_go data maxO fuel i found = [] := by
  cases fuel with
  | zero => rfl
  | succ f =>
    simp only [iter_embedded_go, hfind]
    split_ifs <;> rfl

/-- The baseline scanner loop ignores the fuel as long as it dominates the
number of positions remaining. -/
theorem iter_embedded_go_fuel (data : List Nat) (maxO : Nat) :
    ∀ (f1 f2 i found : Nat), data.length + 1 - i ≤ f1 → data.length + 1 - i ≤ f2 →
      iter_embedded_go data maxO f1 i found = iter_embedded_go data maxO f2 i found := by
  intro f1
  induction f1 with
  | zero =>
    intro f2 i found h1 h2
    have hge : data.length ≤ i := by omega
    have hfind := byte_find_from_ge data 0x7B i hge
    cases f2 with
    | zero => rfl
    | succ g =>
      simp only [iter_embedded_go, hfind]
      split_ifs <;> rfl
  | succ f ih =>
    intro f2 i found h1 h2
    cases f2 with
    | zero =>
      have hge : data.length ≤ i := by omega
      have hfind := byte_find_from_ge data 0x7B i hge
      simp only [iter_embedded_go, hfind]
      split_ifs <;> rfl
    | succ g =>
      by_cases hfd : maxO ≤ found
      · rw [iter_embedded_go_stop data maxO (f + 1) i found hfd,
          iter_embedded_go_stop data maxO (g + 1) i found hfd]
      · rcases hfind : byte_find_from data 0x7B i with _ | start
        · rw [iter_embedded_go_no_brace data maxO (f + 1) i found hfind,
            iter_embedded_go_no_brace data maxO (g + 1) i found hfind]
        · have hs := byte_find_from_some data 0x7B i start hfind
          rcases hclose : find_balanced_close data start data.length with _ | j
          · simp only [iter_embedded_go, hfind, hclose, if_neg hfd]
            exact ih g (start + 1) found (by omega) (by omega)
          · have hj := find_balanced_close_some data start _ j hclose
            rcases hp : parse_json_bytes (slice_bytes data start (j + 1)) with _ | v
            · simp only [iter_embedded_go, hfind, hclose, hp, if_neg hfd]
              exact ih g (start + 1) found (by omega) (by omega)
            · cases v with
              | obj kvs =>
                simp only [iter_embedded_go, hfind, hclose, hp, if_neg hfd]
                exact congrArg (JVal.obj kvs :: ·)
                  (ih g (j + 1) (found + 1) (by omega) (by omega))
              | null =>
                simp only [iter_embedded_go, hfind, hclose, hp, if_neg hfd]
                exact ih g (start + 1) found (by omega) (by omega)
              | bool b2 =>
                simp only [iter_embedded_go, hfind, hclose, hp, if_neg hfd]
                exact ih g (start + 1) found (by omega) (by omega)
              | num l2 =>
                simp only [iter_embedded_go, hfind, hclose, hp, if_neg hfd]
                exact ih g (start + 1) found (by omega) (by omega)
              | str s2 =>
                simp only [iter_embedded_go, hfind, hclose, hp, if_neg hfd]
                exact ih g (start + 1) found (by omega) (by omega)
              | arr a2 =>
                simp only [iter_embedded_go, hfind, hclose, hp, if_neg hfd]
                exact ih g (start + 1) found (by omega) (by omega)

/-- Two cursor positions from which the next brace search agrees make the
baseline loop agree (at equal fuel). -/
theorem iter_embedded_go_congr (data : List Nat) (maxO fuel i i2 found : Nat)
    (h : byte_find_from data 0x7B i = byte_find_from data 0x7B i2) :
    iter_embedded_go data maxO fuel i found = iter_embedded_go data maxO fuel i2 found := by
  cases fuel with
  | zero => rfl
  | succ f => simp only [iter_embedded_go, h]

/-- Successful step of the baseline loop: a balanced span that parses to
an object is yielded, and scanning resumes after the span. -/
theorem iter_embedded_go_yield (data : List Nat) (maxO fuel i found start j : Nat)
    (kvs : List (String × JVal))
    (hf : data.length + 1 - i ≤ fuel) (hfd : found < maxO)
    (hfind : byte_find_from data 0x7B i = some start)
    (hclose : find_balanced_close data start data.length = some j)
    (hp : parse_json_bytes (slice_bytes data start (j + 1)) = some (JVal.obj kvs)) :
    iter_embedded_go data maxO fuel i found
      = JVal.obj kvs :: iter_embedded_go data maxO fuel (j + 1) (found + 1) := by
  have hs := byte_find_from_some data 0x7B i start hfind
  have hj := find_balanced_close_some data start _ j hclose
  cases fuel with
  | zero => omega
  | succ f =>
    have hR : iter_embedded_go data maxO (f + 1) (j + 1) (found + 1)
        = iter_embedded_go data maxO f (j + 1) (found + 1) :=
      iter_embedded_go_fuel data maxO (f + 1) f (j + 1) (found + 1) (by omega) (by omega)
    rw [hR]
    simp only [iter_embedded_go, hfind, hclose, hp, if_neg (by omega : ¬ maxO ≤ found)]

/-- Failing step of the baseline loop: when the candidate has no balanced
close, or its span does not decode to an object, scanning resumes exactly
one byte past the opening brace. -/
theorem iter_embedded_go_skip (data : List Nat) (maxO fuel i found start : Nat)
    (hf : data.length + 1 - i ≤ fuel) (hfd : found < maxO)
    (hfind : byte_find_from data 0x7B i = some start)
    (hskip : match find_balanced_close data start data.length with
             | none => True
             | some j => jopt_is_obj (parse_json_bytes (slice_bytes data start (j + 1))) = false) :
    iter_embedded_go data maxO fuel i found
      = iter_embedded_go data maxO fuel (start + 1) found := by
  have hs := byte_find_from_some data 0x7B i start hfind
  cases fuel with
  | zero => omega
  | succ f =>
    have hR : iter_embedded_go data maxO (f + 1) (start + 1) found
        = iter_embedded_go data maxO f (start + 1) found :=
      iter_embedded_go_fuel data maxO (f + 1) f (start + 1) found (by omega) (by omega)
    rw [hR]
    rcases hclose : find_balanced_close data start data.length with _ | j
    · simp only [iter_embedded_go, hfind, hclose, if_neg (by omega : ¬ maxO ≤ found)]
    · rw [hclose] at hskip
      have hskip2 : jopt_is_obj (parse_json_bytes (slice_bytes data start (j + 1))) = false :=
        hskip
      rcases hp : parse_json_bytes (slice_bytes data start (j + 1)) with _ | v
      · simp only [iter_embedded_go, hfind, hclose, hp, if_neg (by omega : ¬ maxO ≤ found)]
      · rw [hp] at hskip2
        cases v with
        | obj kvs => simp [jopt_is_obj] at hskip2
        | null =>
          simp only [iter_embedded_go, hfind, hclose, hp, if_neg (by omega : ¬ maxO ≤ found)]
        | bool b2 =>
          simp only [iter_embedded_go, hfind, hclose, hp, if_neg (by omega : ¬ maxO ≤ found)]
        | num l2 =>
          simp only [iter_embedded_go, hfind, hclose, hp, if_neg (by omega : ¬ maxO ≤ found)]
        | str s2 =>
          simp only [iter_embedded_go, hfind, hclose, hp, if_neg (by omega : ¬ maxO ≤ found)]
        | arr a2 =>
          simp only [iter_embedded_go, hfind, hclose, hp, if_neg (by omega : ¬ maxO ≤ found)]

/-- The role marker is six bytes long. -/
theorem role_marker_length : role_marker.length = 6 := rfl

/-- The anchored loop yields nothing once the object budget is reached. -/
theorem iter_anch_go_stop (data : List Nat) (rolesSet : List String)
    (maxO fuel pos found : Nat) (hfd : maxO ≤ found) :
    iter_role_anchored_go data rolesSet maxO fuel pos found = [] := by
  cases fuel with
  | zero => rfl
  | succ f => simp [iter_role_anchored_go, hfd]

/-- The anchored loop ends when no marker remains. -/
theorem iter_anch_go_no_marker (data : List Nat) (rolesSet : List String)
    (maxO fuel pos found : Nat)
    (hfind : sub_find_from data role_marker pos = none) :
    iter_role_anchored_go data rolesSet maxO fuel pos found = [] := by
  cases fuel with
  | zero => rfl
  | succ f =>
    simp only [iter_role_anchored_go, hfind]
    split_ifs <;> rfl

/-- The anchored scanner loop ignores the fuel as long as it dominates the
number of positions remaining. -/
theorem iter_anch_go_fuel (data : List Nat) (rolesSet : List String) (maxO : Nat) :
    ∀ (f1 f2 pos found : Nat), data.length + 1 - pos ≤ f1 → data.length + 1 - pos ≤ f2 →
      iter_role_anchored_go data rolesSet maxO f1 pos found
        = iter_role_anchored_go data rolesSet maxO f2 pos found := by
  have hpat : role_marker ≠ [] := by decide
  have hnone : ∀ pos, data.length ≤ pos → sub_find_from data role_marker pos = none := by
    intro pos hge
    rcases hf : sub_find_from data role_marker pos with _ | rp
    · rfl
    · have := sub_find_from_some data role_marker pos rp hpat hf
      rw [role_marker_length] at this
      omega
  intro f1
  induction f1 with
  | zero =>
    intro f2 pos found h1 h2
    have hfind := hnone pos (by omega)
    cases f2 with
    | zero => rfl
    | succ g =>
      simp only [iter_role_anchored_go, hfind]
      split_ifs <;> rfl
  | succ f ih =>
    intro f2 pos found h1 h2
    cases f2 with
    | zero =>
      have hfind := hnone pos (by omega)
      simp only [iter_role_anchored_go, hfind]
      split_ifs <;> rfl
    | succ g =>
      by_cases hfd : maxO ≤ found
      · rw [iter_anch_go_stop data rolesSet maxO (f + 1) pos found hfd,
          iter_anch_go_stop data rolesSet maxO (g + 1) pos found hfd]
      · rcases hfind : sub_find_from data role_marker pos with _ | rp
        · rw [iter_anch_go_no_marker data rolesSet maxO (f + 1) pos found hfind,
            iter_anch_go_no_marker data rolesSet maxO (g + 1) pos found hfind]
        · have hrp := sub_find_from_some data role_marker pos rp hpat hfind
          rw [role_marker_length] at hrp
          rcases henc : find_enclosing_message_obj_around_role data rp rolesSet 65536 16 262144
            with _ | pr
          · simp only [iter_role_anchored_go, hfind, henc, if_neg hfd, role_marker_length]
            exact ih g (rp + 6) found (by omega) (by omega)
          · obtain ⟨kvs, ep⟩ := pr
            have hep := find_enclosing_some data rp rolesSet 65536 16 262144 kvs ep henc
            simp only [iter_role_anchored_go, hfind, henc, if_neg hfd, role_marker_length]
            refine congrArg (kvs :: ·) (ih g (max ep (rp + 6)) (found + 1) ?_ ?_)
            · have := Nat.le_max_right ep (rp + 6)
              omega
            · have := Nat.le_max_right ep (rp + 6)
              omega

/-- Two positions from which the marker search agrees make the anchored
loop agree (at equal fuel). -/
theorem iter_anch_go_congr (data : List Nat) (rolesSet : List String)
    (maxO fuel pos pos2 found : Nat)
    (h : sub_find_from data role_marker pos = sub_find_from data role_marker pos2) :
    iter_role_anchored_go data rolesSet maxO fuel pos found
      = iter_role_anchored_go data rolesSet maxO fuel pos2 found := by
  cases fuel with
  | zero => rfl
  | succ f => simp only [iter_role_anchored_go, h]

/-- Failing step of the anchored loop: a marker with no acceptable
enclosing object advances past the marker only. -/
theorem iter_anch_go_skip (data : List Nat) (rolesSet : List String)
    (maxO fuel pos found rp : Nat)
    (hf : data.length + 1 - pos ≤ fuel) (hfd : found < maxO)
    (hfind : sub_find_from data role_marker pos = some rp)
    (henc : find_enclosing_message_obj_around_role data rp rolesSet 65536 16 262144 = none) :
    iter_role_anchored_go data rolesSet maxO fuel pos found
      = iter_role_anchored_go data rolesSet maxO fuel (rp + 6) found := by
  have hpat : role_marker ≠ [] := by decide
  have hrp := sub_find_from_some data role_marker pos rp hpat hfind
  rw [role_marker_length] at hrp
  cases fuel with
  | zero => omega
  | succ f =>
    have hR : iter_role_anchored_go data rolesSet maxO (f + 1) (rp + 6) found
        = iter_role_anchored_go data rolesSet maxO f (rp + 6) found :=
      iter_anch_go_fuel data rolesSet maxO (f + 1) f (rp + 6) found (by omega) (by omega)
    rw [hR]
    simp only [iter_role_anchored_go, hfind, henc, if_neg (by omega : ¬ maxO ≤ found),
      role_marker_length]

/-- Successful step of the anchored loop: the accepted dict is yielded and
the cursor jumps past the accepted object (never backwards over the
marker). -/
theorem iter_anch_go_yield (data : List Nat) (rolesSet : List String)
    (maxO fuel pos found rp ep : Nat) (kvs : List (String × JVal))
    (hf : data.length + 1 - pos ≤ fuel) (hfd : found < maxO)
    (hfind : sub_find_from data role_marker pos = some rp)
    (henc : find_enclosing_message_obj_around_role data rp rolesSet 65536 16 262144
      = some (kvs, ep)) :
    iter_role_anchored_go data rolesSet maxO fuel pos found
      = kvs :: iter_role_anchored_go data rolesSet maxO fuel (max ep (rp + 6)) (found + 1) := by
  have hpat : role_marker ≠ [] := by decide
  have hrp := sub_find_from_some data role_marker pos rp hpat hfind
  rw [role_marker_length] at hrp
  have hep := find_enclosing_some data rp rolesSet 65536 16 262144 kvs ep henc
  have hmax : pos + 1 ≤ max ep (rp + 6) := by
    have := Nat.le_max_right ep (rp + 6)
    omega
  cases fuel with
  | zero => omega
  | succ f =>
    have hR : iter_role_anchored_go data rolesSet maxO (f + 1) (max ep (rp + 6)) (found + 1)
        = iter_role_anchored_go data rolesSet maxO f (max ep (rp + 6)) (found + 1) :=
      iter_anch_go_fuel data rolesSet maxO (f + 1) f (max ep (rp + 6)) (found + 1)
        (by omega) (by omega)
    rw [hR]
    simp only [iter_role_anchored_go, hfind, henc, if_neg (by omega : ¬ maxO ≤ found),
      role_marker_length]

/-! ## Concrete stores used by closed theorems and witnesses -/

set_option maxRecDepth 40000

/-- Serialized message object bytes (role and text are ASCII). -/
def msg_bytes (r t : String) : List Nat :=
  ascii_bytes ("\x7b\"role\":\"" ++ r ++ "\",\"content\":\"" ++ t ++ "\"\x7d")

/-- The default role filter. -/
def roles_ua : List String := ["user", "assistant"]

/-- Six messages m0..m5 in insertion order across three blobs, roles
alternating user/assistant. -/
def c5_store : Store :=
  ⟨"/tmp/store.db", true, true, false,
    [("b1", msg_bytes "user" "m0" ++ msg_bytes "assistant" "m1"),
     ("b2", msg_bytes "user" "m2" ++ msg_bytes "assistant" "m3"),
     ("b3", msg_bytes "user" "m4" ++ msg_bytes "assistant" "m5")], []⟩

/-- C5: the returned order is chronological regardless of scan direction:
on the six-message store, extract_initial with max_messages 3 returns
m0, m1, m2 in order and extract_recent with max_messages 3 (default
max_blobs 200) returns m3, m4, m5 in order. -/
theorem c5_directionality :
    (extract_initial_messages c5_store 3 none roles_ua empty_cache).msgs
      = [("user", "m0"), ("assistant", "m1"), ("user", "m2")] ∧
    (extract_recent_messages c5_store (some 3) (some 200) roles_ua empty_cache).msgs
      = [("assistant", "m3"), ("user", "m4"), ("assistant", "m5")] := by
  decide

/-- C7: a nonpositive max_messages and a nonpositive max_blobs each yield
the empty sequence with no store access (no fetch is logged, the cache is
untouched), for both extraction directions. -/
theorem c7_degenerate_bounds (st : Store) (roles : List String) (c : Cache)
    (m b k k2 : Int) (mmx mb0 : Option Int)
    (hm : m ≤ 0) (hb : b ≤ 0) (hk : k ≤ 0) :
    extract_recent_messages st (some m) mb0 roles c = ⟨[], c, []⟩ ∧
    extract_initial_messages st k mb0 roles c = ⟨[], c, []⟩ ∧
    extract_recent_messages st mmx (some b) roles c = ⟨[], c, []⟩ ∧
    extract_initial_messages st k2 (some b) roles c = ⟨[], c, []⟩ := by
  have hm1 : mm_nonpos (some m) = true := by simp [mm_nonpos]; omega
  refine ⟨?_, ?_, ?_, ?_⟩
  · simp [extract_recent_messages, hm1]
  · simp [extract_initial_messages, if_pos hk]
  · by_cases hnp : mm_nonpos mmx = true
    · simp [extract_recent_messages, hnp]
    · have hnp2 : mm_nonpos mmx = false := by simpa using hnp
      have hco : extract_messages_from_connection st mmx (some b) roles false
          = (Except.ok [], []) := by
        simp [extract_messages_from_connection, hnp2, if_pos hb]
      have hnone : ¬ ((some b : Option Int) = none ∧ st.present = true) := by simp
      simp only [extract_recent_messages, hnp2, Bool.false_eq_true, if_false, if_neg hnone]
      unfold with_ro_connection
      split_ifs with hconn
      · simp [hco, xout_of]
      · simp [hco, xout_of]
  · by_cases hk2 : k2 ≤ 0
    · simp [extract_initial_messages, if_pos hk2]
    · have hco : extract_messages_from_connection st (some k2) (some b) roles true
          = (Except.ok [], []) := by
        have hnp2 : mm_nonpos (some k2) = false := by simp [mm_nonpos]; omega
        simp [extract_messages_from_connection, hnp2, if_pos hb]
      have hnone : ¬ ((some b : Option Int) = none ∧ st.present = true) := by simp
      simp only [extract_initial_messages, if_neg hk2, if_neg hnone]
      unfold with_ro_connection
      split_ifs with hconn
      · simp [hco, xout_of]
      · simp [hco, xout_of]

/-- Witness for C7 at concrete degenerate bounds on a live store. -/
theorem c7_witness :
    extract_recent_messages c5_store (some 0) (some 200) roles_ua empty_cache
        = ⟨[], empty_cache, []⟩ ∧
    extract_initial_messages c5_store (-2) none roles_ua empty_cache
        = ⟨[], empty_cache, []⟩ ∧
    extract_recent_messages c5_store (some 5) (some (-1)) roles_ua empty_cache
        = ⟨[], empty_cache, []⟩ ∧
    extract_initial_messages c5_store 5 (some 0) roles_ua empty_cache
        = ⟨[], empty_cache, []⟩ := by
  refine ⟨?_, ?_, ?_, ?_⟩
  · exact (c7_degenerate_bounds c5_store roles_ua empty_cache 0 (-1) (-2) 5 (some 5) (some 200)
      (by decide) (by decide) (by decide)).1
  · exact (c7_degenerate_bounds c5_store roles_ua empty_cache 0 (-1) (-2) 5 (some 5) none
      (by decide) (by decide) (by decide)).2.1
  · exact (c7_degenerate_bounds c5_store roles_ua empty_cache 0 (-1) (-2) 5 (some 5) none
      (by decide) (by decide) (by decide)).2.2.1
  · exact (c7_degenerate_bounds c5_store roles_ua empty_cache 0 0 (-2) 5 (some 5) none
      (by decide) (by decide) (by decide)).2.2.2

/-- C9: inside the balanced-object scanner, a candidate span whose parse
does not produce an object resumes scanning exactly one byte past its
opening brace, and a successful candidate is yielded with scanning
resuming immediately after the consumed span. -/
theorem c9_balanced_scanner_resume
    (data : List Nat) (maxO fuel i found start j : Nat)
    (hf : data.length + 1 - i ≤ fuel) (hfd : found < maxO)
    (hfind : byte_find_from data 0x7B i = some start)
    (hclose : find_balanced_close data start data.length = some j) :
    (jopt_is_obj (parse_json_bytes (slice_bytes data start (j + 1))) = false →
      iter_embedded_go data maxO fuel i found
        = iter_embedded_go data maxO fuel (start + 1) found) ∧
    (∀ kvs, parse_json_bytes (slice_bytes data start (j + 1)) = some (JVal.obj kvs) →
      iter_embedded_go data maxO fuel i found
        = JVal.obj kvs :: iter_embedded_go data maxO fuel (j + 1) (found + 1)) := by
  constructor
  · intro hbad
    refine iter_embedded_go_skip data maxO fuel i found start hf hfd hfind ?_
    rw [hclose]
    exact hbad
  · intro kvs hp
    exact iter_embedded_go_yield data maxO fuel i found start j kvs hf hfd hfind hclose hp

/-- A buffer whose outer balanced candidate is invalid json while a valid
object opens exactly one byte past the failed opening brace. -/
def c9_buf : List Nat := ascii_bytes "\x7b\x7b\"a\":\"b\"\x7d\x7d"

/-- Witness for C9: on the concrete buffer the failed outer candidate
resumes at index 1, and the scanner still finds the nested object. -/
theorem c9_witness :
    iter_embedded_go c9_buf 200 12 0 0 = iter_embedded_go c9_buf 200 12 1 0 ∧
    iter_embedded_json_objects c9_buf 200 = [JVal.obj [("a", JVal.str "b")]] :=
  ⟨(c9_balanced_scanner_resume c9_buf 200 12 0 0 0 10
      (by decide) (by decide) (by decide) (by decide)).1 (by decide),
   by rfl⟩

/-- C10: a non-empty even-length all-hex meta value is interpreted
exclusively as hex-encoded json: the result is exactly the decode of the
unhexlified bytes (nothing when those are not valid UTF-8 json), and the
value is never parsed as plain json text. -/
theorem c10_hex_exclusive (s : String)
    (h0 : s ≠ "") (h1 : py_strip s ≠ "")
    (h2 : (py_strip s).length % 2 = 0)
    (h3 : (py_strip s).toList.all is_hex_digit = true) :
    maybe_decode_hex_json s = (unhexlify (py_strip s)).bind parse_json_bytes := by
  simp only [maybe_decode_hex_json, if_neg h0, if_pos (And.intro h2 h3)]
  cases hu : unhexlify (py_strip s) <;> simp [hu]

/-- Witness for C10: the value "31" is valid json text (the number 31) but
is decoded through the hex path as the byte 0x31, that is the json text
"1". -/
theorem c10_witness :
    maybe_decode_hex_json "31" = (unhexlify (py_strip "31")).bind parse_json_bytes :=
  c10_hex_exclusive "31" (by decide) (by decide) (by decide) (by decide)

/-! ## Cache lemmas and the caching-policy claims -/

/-- find? over an append scans the left part first. -/
theorem find_append {α : Type} (p : α → Bool) :
    ∀ (l1 l2 : List α), (l1 ++ l2).find? p
      = match l1.find? p with
        | some x => some x
        | none => l2.find? p := by
  intro l1 l2
  induction l1 with
  | nil => simp
  | cons x xs ih =>
    by_cases hx : p x = true
    · simp [List.find?, hx]
    · simp only [List.cons_append, List.find?, hx]
      simpa [hx] using ih

/-- Filtering out entries under one key does not disturb lookups under a
different key. -/
theorem find_filter_ne (k q : CKey) (hne : q ≠ k) :
    ∀ (l : List (CKey × (Msgs × Int))),
      (l.filter (fun e => !(e.1 == k))).find? (fun e => e.1 == q)
        = l.find? (fun e => e.1 == q) := by
  intro l
  induction l with
  | nil => simp
  | cons x xs ih =>
    by_cases hk : (x.1 == k) = true
    · have hq : (x.1 == q) = false := by
        have : x.1 = k := by simpa using hk
        subst this
        simpa using fun h => hne h.symm
      simp only [List.filter, hk, Bool.not_true, List.find?, hq]
      exact ih
    · by_cases hq : (x.1 == q) = true
      · simp [List.filter, hk, List.find?, hq]
      · simp only [List.filter, hk, Bool.not_false, List.find?, hq]
        exact ih

/-- A cache read (with its recency move) preserves every lookup. -/
theorem cache_lookup_after_get (k q : CKey) (c : Cache) :
    cache_lookup q (full_cache_get k c).2 = cache_lookup q c := by
  unfold full_cache_get cache_lookup
  rcases hfind : c.entries.find? (fun e => e.1 == k) with _ | e
  · simp only [hfind]
  · simp only [hfind]
    have hek : (e.1 == k) = true := by
      have := List.find?_some hfind
      simpa using this
    by_cases hqk : q = k
    · subst hqk
      have hnone : (c.entries.filter (fun e2 => !(e2.1 == q))).find?
          (fun e2 => e2.1 == q) = none := by
        apply List.find?_eq_none.mpr
        intro x hx
        have hmem := (List.mem_filter.mp hx).2
        simp only [Bool.not_eq_true'] at hmem
        simp [hmem]
      rw [find_append, hnone]
      simp [List.find?, hek, hfind]
    · have heq : (e.1 == q) = false := by
        have hek2 : e.1 = k := by simpa using hek
        subst hek2
        simpa using fun h => hqk h.symm
      rw [find_append, find_filter_ne k q hqk]
      rcases hfq : c.entries.find? (fun e2 => e2.1 == q) with _ | e2
      · simp [List.find?, heq, hfq]
      · simp [hfq]

/-- The eviction loop does nothing when both bounds hold. -/
theorem cache_evict_noop (fuel : Nat) (es : List (CKey × (Msgs × Int))) (bt : Int)
    (h1 : ¬ 24 < es.length) (h2 : ¬ 33554432 < bt) :
    cache_evict fuel es bt = (es, bt) := by
  cases fuel with
  | zero => rfl
  | succ f =>
    cases es with
    | nil => rfl
    | cons e rest =>
      simp only [cache_evict]
      rw [if_neg]
      push_neg
      constructor <;> omega

/-- Writing a fresh entry with head room makes it immediately readable. -/
theorem cache_lookup_after_put (k : CKey) (msgs : Msgs) (c : Cache)
    (hmiss : c.entries.find? (fun e => e.1 == k) = none)
    (hlen : c.entries.length < 24)
    (hbytes : c.bytesTotal + approx_messages_bytes msgs ≤ 33554432) :
    cache_lookup k (full_cache_put k msgs c) = some msgs := by
  unfold full_cache_put
  simp only [hmiss]
  rw [cache_evict_noop _ _ _ (by simp; omega) (by omega)]
  unfold cache_lookup
  simp only [find_append, hmiss, List.find?, beq_self_eq_true]
  rfl

/-- The most recent m blobs in chronological order (descending fetch with
limit, re-reversed). -/
def recent_window (st : Store) (m : Nat) : List (List Nat) :=
  let all := st.blobs.map (fun x => x.2)
  all.drop (all.length - m)

/-- An operation that only reads the store leaves the threaded cache of
the wrapper unchanged, on every path. -/
theorem xout_pure_cache (st : Store) (c : Cache) (x : Except PErr Msgs × List Access) :
    (xout_of (with_ro_connection st c (fun c0 => (x.1, c0, x.2)))).cache = c := by
  unfold with_ro_connection xout_of
  rcases x with ⟨r, l⟩
  split_ifs
  · cases r with
    | ok v => rfl
    | error e => cases e <;> rfl
  · cases r with
    | ok v => rfl
    | error e => cases e <;> rfl

/-- C2 (amended): only calls with unbounded max_blobs touch the
full-history cache.  Any call with a bounded max_blobs, for either
direction and any max_messages, leaves the cache exactly as it was and is
recomputed from the store (shown on a healthy store); extract_recent with
unbounded max_blobs populates the cache with the full unbounded history
even when max_messages is bounded (here under a fresh fingerprint and
cache head room, which rule out eviction). -/
theorem c2_cache_policy (st : Store) (roles : List String) (c : Cache)
    (mm : Option Int) (k b : Int) :
    (extract_recent_messages st mm (some b) roles c).cache = c ∧
    (extract_initial_messages st k (some b) roles c).cache = c ∧
    (st.present = true → st.connectOk = true → st.queriesFail = false →
      mm_nonpos mm = false → 0 < b →
      (extract_recent_messages st mm (some b) roles c).msgs
        = run_rows false mm roles (recent_window st b.toNat)) ∧
    (st.present = true → st.connectOk = true → st.queriesFail = false →
      ¬ k ≤ 0 → 0 < b →
      (extract_initial_messages st k (some b) roles c).msgs
        = run_rows true (some k) roles ((st.blobs.map (fun x => x.2)).take b.toNat)) ∧
    (st.present = true → st.connectOk = true → st.queriesFail = false →
      mm_nonpos mm = false →
      cache_lookup (st.pathKey, roles_key roles, blobs_stamp_val st) c = none →
      c.entries.length < 24 →
      c.bytesTotal + approx_messages_bytes
          (run_rows false none (roles_key roles) (st.blobs.map (fun x => x.2))) ≤ 33554432 →
      cache_lookup (st.pathKey, roles_key roles, blobs_stamp_val st)
          (extract_recent_messages st mm none roles c).cache
        = some (run_rows false none (roles_key roles) (st.blobs.map (fun x => x.2)))) := by
  have hnone : ¬ ((some b : Option Int) = none ∧ st.present = true) := by simp
  refine ⟨?_, ?_, ?_, ?_, ?_⟩
  · by_cases hnp : mm_nonpos mm = true
    · simp [extract_recent_messages, hnp]
    · have hnp2 : mm_nonpos mm = false := by simpa using hnp
      simp only [extract_recent_messages, hnp2, Bool.false_eq_true, if_false, if_neg hnone]
      exact xout_pure_cache st c (extract_messages_from_connection st mm (some b) roles false)
  · by_cases hk : k ≤ 0
    · simp [extract_initial_messages, hk]
    · simp only [extract_initial_messages, if_neg hk, if_neg hnone]
      exact xout_pure_cache st c (extract_messages_from_connection st (some k) (some b) roles true)
  · intro hp hcn hq hnp hb
    have hco : extract_messages_from_connection st mm (some b) roles false
        = (Except.ok (run_rows false mm roles (recent_window st b.toNat)),
           [Access.fetch_rows_descending b]) := by
      simp only [extract_messages_from_connection, hnp, Bool.false_eq_true, if_false]
      rw [if_neg (by omega : ¬ b ≤ 0)]
      simp [hq, recent_window]
    simp only [extract_recent_messages, hnp, Bool.false_eq_true, if_false, if_neg hnone]
    unfold with_ro_connection xout_of
    rw [if_neg (by simp [hp, hcn])]
    simp [hco]
  · intro hp hcn hq hk hb
    have hco : extract_messages_from_connection st (some k) (some b) roles true
        = (Except.ok (run_rows true (some k) roles ((st.blobs.map (fun x => x.2)).take b.toNat)),
           [Access.fetch_rows_ascending (some b)]) := by
      have hnp : mm_nonpos (some k) = false := by simp [mm_nonpos]; omega
      simp only [extract_messages_from_connection, hnp, Bool.false_eq_true, if_false]
      rw [if_neg (by omega : ¬ b ≤ 0)]
      simp [hq]
    simp only [extract_initial_messages, if_neg hk, if_neg hnone]
    unfold with_ro_connection xout_of
    rw [if_neg (by simp [hp, hcn])]
    simp [hco]
  · intro hp hcn hq hnp hmiss hlen hbytes
    have hmiss2 : c.entries.find?
        (fun e => e.1 == (st.pathKey, roles_key roles, blobs_stamp_val st)) = none := by
      unfold cache_lookup at hmiss
      rcases hf : c.entries.find?
          (fun e => e.1 == (st.pathKey, roles_key roles, blobs_stamp_val st)) with _ | e
      · exact hf
      · rw [hf] at hmiss
        simp at hmiss
    have hstamp : blobs_stamp st = (blobs_stamp_val st, [Access.fetch_fingerprint]) := by
      simp [blobs_stamp, hq]
    have hco : extract_messages_from_connection st none none (roles_key roles) false
        = (Except.ok (run_rows false none (roles_key roles) (st.blobs.map (fun x => x.2))),
           [Access.fetch_rows_ascending none]) := by
      simp [extract_messages_from_connection, mm_nonpos, hq]
    simp only [extract_recent_messages, hnp, Bool.false_eq_true, if_false]
    rw [if_pos (And.intro trivial hp : True ∧ st.present = true)]
    unfold with_ro_connection xout_of
    rw [if_neg (by simp [hp, hcn])]
    simp only [hstamp, hco]
    unfold full_cache_get
    simp only [hmiss2]
    exact cache_lookup_after_put _ _ c hmiss2 hlen hbytes

/-- C2 counterexample: a bounded max_messages together with unbounded
max_blobs does consult and populate the cache, so the claim that every
call with bounded max_messages leaves the cache unchanged fails: on a
fresh cache the call inserts the full-history entry. -/
theorem c2_counterexample :
    (extract_recent_messages c5_store (some 1) none roles_ua empty_cache).msgs
        = [("assistant", "m5")] ∧
    (extract_recent_messages c5_store (some 1) none roles_ua empty_cache).cache
        ≠ empty_cache := by
  decide

/-- Witness for C2 at concrete arguments. -/
theorem c2_witness :
    (extract_recent_messages c5_store (some 2) (some 200) roles_ua empty_cache).cache
        = empty_cache ∧
    (extract_initial_messages c5_store 2 (some 200) roles_ua empty_cache).cache
        = empty_cache ∧
    (extract_recent_messages c5_store (some 2) (some 200) roles_ua empty_cache).msgs
        = run_rows false (some 2) roles_ua (recent_window c5_store 200) ∧
    cache_lookup (c5_store.pathKey, roles_key roles_ua, blobs_stamp_val c5_store)
        (extract_recent_messages c5_store (some 2) none roles_ua empty_cache).cache
      = some (run_rows false none (roles_key roles_ua)
          (c5_store.blobs.map (fun x => x.2))) := by
  have h := c2_cache_policy c5_store roles_ua empty_cache (some 2) 2 200
  refine ⟨h.1, h.2.1, ?_, ?_⟩
  · exact h.2.2.1 (by decide) (by decide) (by decide) (by decide) (by decide)
  · exact h.2.2.2.2 (by decide) (by decide) (by decide) (by decide) (by decide)
      (by decide) (by decide)

/-- C3 (amended): with a fresh full-history cache entry for the store
identity, roles and live fingerprint, extract_initial with unbounded
max_blobs returns the head slice of the cached sequence, performs only
the single fingerprint query (no blob rows are read), and neither
populates nor refreshes any cache entry (only the recency order moves). -/
theorem c3_cache_hit_initial (st : Store) (roles : List String) (c : Cache)
    (k : Int) (msgs : Msgs)
    (hp : st.present = true) (hcn : st.connectOk = true) (hq : st.queriesFail = false)
    (hk : 0 < k)
    (hhit : cache_lookup (st.pathKey, roles_key roles, blobs_stamp_val st) c = some msgs) :
    (extract_initial_messages st k none roles c).msgs = msgs.take k.toNat ∧
    (extract_initial_messages st k none roles c).log = [Access.fetch_fingerprint] ∧
    ∀ q, cache_lookup q (extract_initial_messages st k none roles c).cache
      = cache_lookup q c := by
  obtain ⟨e, hfind, hval⟩ := Option.map_eq_some'.mp hhit
  have hstamp : blobs_stamp st = (blobs_stamp_val st, [Access.fetch_fingerprint]) := by
    simp [blobs_stamp, hq]
  have hget1 : (full_cache_get (st.pathKey, roles_key roles, blobs_stamp_val st) c).1
      = some msgs := by
    unfold full_cache_get
    simp [hfind, hval]
  simp only [extract_initial_messages, if_neg (by omega : ¬ k ≤ 0)]
  rw [if_pos (And.intro trivial hp : True ∧ st.present = true)]
  unfold with_ro_connection xout_of
  rw [if_neg (by simp [hp, hcn])]
  simp only [hstamp, hget1]
  refine ⟨trivial, trivial, ?_⟩
  intro q
  exact cache_lookup_after_get _ q c

/-- The full six-message history of the directionality store. -/
def c5_history : Msgs :=
  [("user", "m0"), ("assistant", "m1"), ("user", "m2"),
   ("assistant", "m3"), ("user", "m4"), ("assistant", "m5")]

/-- A cache holding the fresh full-history entry for the store. -/
def c3_cache : Cache :=
  ⟨[((c5_store.pathKey, roles_ua, blobs_stamp_val c5_store),
     (c5_history, approx_messages_bytes c5_history))],
   approx_messages_bytes c5_history⟩

/-- C3 counterexample: on a cache hit the call still queries the store
fingerprint, so the head slice is not served "without touching the store
at all": the access log of the call is not empty. -/
theorem c3_counterexample :
    cache_lookup (c5_store.pathKey, roles_ua, blobs_stamp_val c5_store) c3_cache
        = some c5_history ∧
    (extract_initial_messages c5_store 2 none roles_ua c3_cache).msgs
        = [("user", "m0"), ("assistant", "m1")] ∧
    (extract_initial_messages c5_store 2 none roles_ua c3_cache).log ≠ [] := by
  decide

/-- Witness for C3 at the concrete cached store. -/
theorem c3_witness :
    (extract_initial_messages c5_store 2 none roles_ua c3_cache).msgs
        = c5_history.take 2 ∧
    (extract_initial_messages c5_store 2 none roles_ua c3_cache).log
        = [Access.fetch_fingerprint] := by
  have h := c3_cache_hit_initial c5_store roles_ua c3_cache 2 c5_history
    (by decide) (by decide) (by decide) (by decide) (by decide)
  exact ⟨h.1, h.2.1⟩

/-! ## C8: failure propagation -/

/-- A missing or unopenable store makes the wrapper yield nothing without
running the operation. -/
theorem with_ro_unavailable {α : Type} (st : Store) (c : Cache)
    (op : Cache → Except PErr α × Cache × List Access)
    (h : ¬ (st.present = true ∧ st.connectOk = true)) :
    with_ro_connection st c op = (Except.ok none, c, []) := by
  unfold with_ro_connection
  rw [if_pos h]

/-- Whatever the connection state, an operation that raises the sqlite
error on the starting cache while leaving it unchanged produces the empty
message list through the wrapper, with the cache intact. -/
theorem xout_msgs_of_fail (st : Store) (c : Cache)
    (op : Cache → Except PErr Msgs × Cache × List Access)
    (h1 : (op c).1 = Except.error PErr.sqliteError) (hc1 : (op c).2.1 = c) :
    (xout_of (with_ro_connection st c op)).msgs = []
      ∧ (xout_of (with_ro_connection st c op)).cache = c := by
  unfold with_ro_connection xout_of
  by_cases hcn : st.present = true ∧ st.connectOk = true
  · rw [if_neg (not_not_intro hcn)]
    rcases hop : op c with ⟨r, c1, l1⟩
    rw [hop] at h1 hc1
    simp only at h1 hc1
    subst h1
    subst hc1
    simp only [hop]
    exact ⟨trivial, trivial⟩
  · rw [if_pos hcn]
    exact ⟨rfl, rfl⟩

/-- Through the wrapper, an unavailable store also yields the empty list. -/
theorem xout_msgs_unavailable (st : Store) (c : Cache)
    (op : Cache → Except PErr Msgs × Cache × List Access)
    (h : ¬ (st.present = true ∧ st.connectOk = true)) :
    (xout_of (with_ro_connection st c op)).msgs = [] := by
  rw [with_ro_unavailable st c op h]
  rfl

/-- On a query-failing store, the connection-level extractor either
returns nothing (degenerate bounds) or raises the sqlite error. -/
theorem extract_conn_fail (st : Store) (mm mb : Option Int) (roles : List String)
    (fs : Bool) (hq : st.queriesFail = true) :
    (extract_messages_from_connection st mm mb roles fs).1 = Except.ok [] ∨
    (extract_messages_from_connection st mm mb roles fs).1
      = Except.error PErr.sqliteError := by
  unfold extract_messages_from_connection
  by_cases hnp : mm_nonpos mm = true
  · left
    simp [hnp]
  · have hnp2 : mm_nonpos mm = false := by simpa using hnp
    rcases mb with _ | m
    · right
      simp [hnp2, hq]
    · by_cases hm : m ≤ 0
      · left
        simp [hnp2, hm]
      · right
        cases fs <;> simp [hnp2, hm, hq]

/-- The pure-store operations either fail with sqlite or return a plain ok
value; in both cases the wrapper yields the empty list when the ok value is
itself empty. -/
theorem xout_pure_fail_msgs (st : Store) (c : Cache) (x : Except PErr Msgs × List Access)
    (hx : x.1 = Except.ok [] ∨ x.1 = Except.error PErr.sqliteError) :
    (xout_of (with_ro_connection st c (fun c0 => (x.1, c0, x.2)))).msgs = [] := by
  unfold with_ro_connection xout_of
  rcases x with ⟨r, l⟩
  simp only at hx
  by_cases hcn : st.present = true ∧ st.connectOk = true
  · rw [if_neg (not_not_intro hcn)]
    rcases hx with h | h <;> subst h <;> rfl
  · rw [if_pos hcn]

/-- On a query-failing store the preview reader raises at its first blob
fetch. -/
theorem preview_conn_fail (st : Store) (bid : String) (hq : st.queriesFail = true) :
    (extract_last_message_preview_from_connection st bid).1
      = Except.error PErr.sqliteError := by
  unfold extract_last_message_preview_from_connection read_blob_from_connection
  simp [hq]

/-- On a query-failing store the metadata reader swallows the fast-path
error and then raises at the fallback rows query. -/
theorem meta_conn_fail (st : Store) (hq : st.queriesFail = true) :
    (read_chat_meta_from_connection st).1 = Except.error PErr.sqliteError := by
  unfold read_chat_meta_from_connection meta_value0 meta_all
  simp [hq]

/-- The public preview yields the empty pair when the store is unavailable
or its connection-level reader raises sqlite. -/
theorem preview_public_fail (st : Store) (bid : String)
    (h : ¬ (st.present = true ∧ st.connectOk = true) ∨
      (extract_last_message_preview_from_connection st bid).1
        = Except.error PErr.sqliteError) :
    (extract_last_message_preview st bid).1 = (none, none) := by
  unfold extract_last_message_preview with_ro_connection
  rcases hop : extract_last_message_preview_from_connection st bid with ⟨r, l⟩
  by_cases hcn : st.present = true ∧ st.connectOk = true
  · rw [if_neg (not_not_intro hcn)]
    rcases h with h | h
    · exact absurd hcn h
    · rw [hop] at h
      simp only at h
      subst h
      rfl
  · rw [if_pos hcn]

/-- The public meta reader yields ok-none when the store is missing,
unopenable, or its connection-level reader raises sqlite. -/
theorem meta_public_fail (st : Store)
    (h : st.present = false ∨ ¬ (st.present = true ∧ st.connectOk = true) ∨
      (read_chat_meta_from_connection st).1 = Except.error PErr.sqliteError) :
    (read_chat_meta st).1 = Except.ok none := by
  unfold read_chat_meta with_ro_connection
  by_cases hp : st.present = false
  · rw [if_pos hp]
  · rw [if_neg hp]
    rcases hop : read_chat_meta_from_connection st with ⟨r, l⟩
    by_cases hcn : st.present = true ∧ st.connectOk = true
    · rw [if_neg (not_not_intro hcn)]
      rcases h with h | h | h
      · exact absurd h hp
      · exact absurd hcn h
      · rw [hop] at h
        simp only at h
        subst h
        rfl
    · rw [if_pos hcn]
      rfl

/-- C8: with a missing store, an unopenable store, or a store whose every
query errors, each public operation returns its empty result (empty list
or None values) instead of propagating the failure; the cache holds no
entry under the degraded fingerprint, matching every real execution. -/
theorem c8_failure_policy (st : Store) (roles : List String) (c : Cache)
    (mm mb : Option Int) (k : Int) (bid : String)
    (hf : st.present = false ∨ st.connectOk = false ∨ st.queriesFail = true)
    (hc : cache_lookup (st.pathKey, roles_key roles, (0, 0)) c = none) :
    (extract_recent_messages st mm mb roles c).msgs = [] ∧
    (extract_initial_messages st k mb roles c).msgs = [] ∧
    (extract_last_message_preview st bid).1 = (none, none) ∧
    (read_chat_meta st).1 = Except.ok none := by
  have hmiss2 : c.entries.find?
      (fun e => e.1 == (st.pathKey, roles_key roles, ((0 : Nat), (0 : Nat)))) = none := by
    unfold cache_lookup at hc
    rcases hfq : c.entries.find?
        (fun e => e.1 == (st.pathKey, roles_key roles, ((0 : Nat), (0 : Nat)))) with _ | e
    · exact hfq
    · rw [hfq] at hc
      simp at hc
  have hget0 : full_cache_get (st.pathKey, roles_key roles, ((0 : Nat), (0 : Nat))) c
      = (none, c) := by
    unfold full_cache_get
    rw [hmiss2]
  refine ⟨?_, ?_, ?_, ?_⟩
  · by_cases hnp : mm_nonpos mm = true
    · simp [extract_recent_messages, hnp]
    · have hnp2 : mm_nonpos mm = false := by simpa using hnp
      by_cases hmb : mb = none ∧ st.present = true
      · obtain ⟨hmb1, hp⟩ := hmb
        subst hmb1
        simp only [extract_recent_messages, hnp2, Bool.false_eq_true, if_false]
        rw [if_pos (And.intro trivial hp : True ∧ st.present = true)]
        by_cases hcn : st.connectOk = true
        · have hq : st.queriesFail = true := by
            rcases hf with h | h | h
            · rw [hp] at h; exact absurd h (by simp)
            · rw [hcn] at h; exact absurd h (by simp)
            · exact h
          have hstamp : blobs_stamp st = ((0, 0), [Access.fetch_fingerprint]) := by
            simp [blobs_stamp, hq]
          have hco : (extract_messages_from_connection st none none (roles_key roles) false).1
              = Except.error PErr.sqliteError := by
            simp [extract_messages_from_connection, mm_nonpos, hq]
          refine (xout_msgs_of_fail st c _ ?_ ?_).1
          all_goals
            simp only [hstamp, hget0]
            rcases hx : extract_messages_from_connection st none none (roles_key roles) false
              with ⟨r, l⟩
            rw [hx] at hco
            simp only at hco
            subst hco
            rfl
        · exact xout_msgs_unavailable st c _ (by simp [hcn])
      · simp only [extract_recent_messages, hnp2, Bool.false_eq_true, if_false, if_neg hmb]
        rcases hf with h | h | h
        · exact xout_msgs_unavailable st c _ (by simp [h])
        · exact xout_msgs_unavailable st c _ (by simp [h])
        · exact xout_pure_fail_msgs st c _ (extract_conn_fail st mm mb roles false h)
  · by_cases hk : k ≤ 0
    · simp [extract_initial_messages, hk]
    · by_cases hmb : mb = none ∧ st.present = true
      · obtain ⟨hmb1, hp⟩ := hmb
        subst hmb1
        simp only [extract_initial_messages, if_neg hk]
        rw [if_pos (And.intro trivial hp : True ∧ st.present = true)]
        by_cases hcn : st.connectOk = true
        · have hq : st.queriesFail = true := by
            rcases hf with h | h | h
            · rw [hp] at h; exact absurd h (by simp)
            · rw [hcn] at h; exact absurd h (by simp)
            · exact h
          have hstamp : blobs_stamp st = ((0, 0), [Access.fetch_fingerprint]) := by
            simp [blobs_stamp, hq]
          have hco : (extract_messages_from_connection st (some k) none (roles_key roles) true).1
              = Except.error PErr.sqliteError := by
            have hnp2 : mm_nonpos (some k) = false := by
              simp only [mm_nonpos, decide_eq_false_iff_not]
              omega
            simp [extract_messages_from_connection, hnp2, hq, hk]
          refine (xout_msgs_of_fail st c _ ?_ ?_).1
          · simp only [hstamp, hget0]
            exact hco
          · simp only [hstamp, hget0]
        · exact xout_msgs_unavailable st c _ (by simp [hcn])
      · simp only [extract_initial_messages, if_neg hk, if_neg hmb]
        rcases hf with h | h | h
        · exact xout_msgs_unavailable st c _ (by simp [h])
        · exact xout_msgs_unavailable st c _ (by simp [h])
        · exact xout_pure_fail_msgs st c _
            (extract_conn_fail st (some k) mb roles true h)
  · rcases hf with h | h | h
    · exact preview_public_fail st bid (Or.inl (by simp [h]))
    · exact preview_public_fail st bid (Or.inl (by simp [h]))
    · exact preview_public_fail st bid (Or.inr (preview_conn_fail st bid h))
  · rcases hf with h | h | h
    · exact meta_public_fail st (Or.inl h)
    · exact meta_public_fail st (Or.inr (Or.inl (by simp [h])))
    · exact meta_public_fail st (Or.inr (Or.inr (meta_conn_fail st h)))

/-- A store whose every query raises. -/
def c8_store : Store :=
  ⟨"/tmp/bad.db", true, true, true,
    [("b1", msg_bytes "user" "m0")], [(MetaVal.mstr "0", MetaVal.mstr "ff")]⟩

/-- Witness for C8 on the concrete failing store. -/
theorem c8_witness :
    (extract_recent_messages c8_store (some 5) none roles_ua empty_cache).msgs = [] ∧
    (extract_initial_messages c8_store 5 none roles_ua empty_cache).msgs = [] ∧
    (extract_last_message_preview c8_store "b1").1 = (none, none) ∧
    (read_chat_meta c8_store).1 = Except.ok none :=
  c8_failure_policy c8_store roles_ua empty_cache (some 5) none 5 "b1"
    (by decide) (by decide)

/-! ## C6: last-message preview -/

/-- The preview loop's per-object qualification: a string role, extractable
text, and not the auto-injected environment block. -/
def preview_norm (kvs : List (String × JVal)) : Option (String × String) :=
  match jget kvs "role" with
  | some (JVal.str r) =>
    match extract_text_from_message kvs with
    | some t =>
      if r = "user" ∧ (py_lstrip t).startsWith "<user_info>" then none
      else some (r, t)
    | none => none
  | _ => none

/-- The qualifying (role, text) pairs of a single blob under the
balanced-object baseline scanner, in document order. -/
def preview_quals (blob : List Nat) : List (String × String) :=
  ((iter_embedded_json_objects blob 200).filterMap jval_as_obj).filterMap preview_norm

/-- The preview fold's step function is preview_norm. -/
theorem preview_fun_eq :
    (fun (acc : Option String × Option String) (kvs : List (String × JVal)) =>
      match jget kvs "role" with
      | some (JVal.str r) =>
        match extract_text_from_message kvs with
        | some t =>
          if r = "user" ∧ (py_lstrip t).startsWith "<user_info>" then acc
          else (some r, some t)
        | none => acc
      | _ => acc)
    = (fun acc kvs =>
      match preview_norm kvs with
      | some p => (some p.1, some p.2)
      | none => acc) := by
  funext acc kvs
  unfold preview_norm
  rcases hr : jget kvs "role" with _ | v
  · rfl
  · cases v with
    | str s =>
      rcases ht : extract_text_from_message kvs with _ | t
      · rfl
      · show (if s = "user" ∧ (py_lstrip t).startsWith "<user_info>" then acc
             else (some s, some t))
          = match (if s = "user" ∧ (py_lstrip t).startsWith "<user_info>" then none
                   else some (s, t)) with
            | some p => (some p.1, some p.2)
            | none => acc
        by_cases hcnd : s = "user" ∧ ((py_lstrip t).startsWith "<user_info>" = true)
        · rw [if_pos hcnd, if_pos hcnd]
        · rw [if_neg hcnd, if_neg hcnd]
    | null => rfl
    | bool b => rfl
    | num lex => rfl
    | arr elems => rfl
    | obj fields => rfl

/-- getLast? of a cons, by cases on the tail. -/
theorem last_option_cons {α : Type} (a : α) (l : List α) :
    (a :: l).getLast? = match l.getLast? with
      | some q => some q
      | none => some a := by
  cases l with
  | nil => rfl
  | cons b t =>
    rw [List.getLast?_cons_cons]
    rcases h : (b :: t).getLast? with _ | q
    · exact absurd h (by simp)
    · rfl

/-- getLast? yields a member of the list. -/
theorem last_option_mem {α : Type} {l : List α} {a : α} (h : l.getLast? = some a) :
    a ∈ l := by
  induction l with
  | nil => exact absurd h (by simp)
  | cons b t ih =>
    rw [last_option_cons] at h
    rcases hl : t.getLast? with _ | q
    · rw [hl] at h
      simp only [Option.some.injEq] at h
      subst h
      exact List.mem_cons_self _ _
    · rw [hl] at h
      simp only [Option.some.injEq] at h
      subst h
      exact List.mem_cons_of_mem b (ih hl)

/-- Folding preview_norm steps computes the last qualifying pair. -/
theorem preview_fold_aux (objs : List (List (String × JVal)))
    (acc : Option String × Option String) :
    List.foldl
      (fun acc kvs =>
        match preview_norm kvs with
        | some p => (some p.1, some p.2)
        | none => acc)
      acc objs
    = match (objs.filterMap preview_norm).getLast? with
      | some p => (some p.1, some p.2)
      | none => acc := by
  induction objs generalizing acc with
  | nil => rfl
  | cons kvs rest ih =>
    rw [List.foldl_cons, List.filterMap_cons]
    rcases hn : preview_norm kvs with _ | p
    · simp only [hn]
      exact ih acc
    · simp only [hn]
      rw [ih]
      rw [last_option_cons]
      rcases hl : (rest.filterMap preview_norm).getLast? with _ | q
      · rfl
      · rfl

/-- The preview fold is the last qualifying pair of the scanned stream. -/
theorem preview_fold_eq (objs : List (List (String × JVal))) :
    preview_fold objs
      = match (objs.filterMap preview_norm).getLast? with
        | some p => (some p.1, some p.2)
        | none => ((none : Option String), (none : Option String)) := by
  unfold preview_fold
  rw [preview_fun_eq]
  exact preview_fold_aux objs (none, none)

/-- Stripping the empty string. -/
theorem py_strip_empty : py_strip "" = "" := rfl

/-- A string with a nonempty strip is nonempty. -/
theorem py_strip_ne_empty (s : String) (h : py_strip s ≠ "") : s ≠ "" := by
  intro he
  subst he
  exact h py_strip_empty

/-- Part extraction only returns nonempty text. -/
theorem extract_text_parts_ne (parts : List JVal) (t : String)
    (h : extract_text_parts parts = some t) : t ≠ "" := by
  induction parts with
  | nil => exact absurd h (by simp [extract_text_parts])
  | cons p rest ih =>
    cases p with
    | obj part =>
      unfold extract_text_parts at h
      rcases htx : jget part "text" with _ | v
      · rw [htx] at h
        simp only at h
        rcases hd : jget part "data" with _ | w
        · rw [hd] at h
          simp only at h
          exact ih h
        · rw [hd] at h
          cases w with
          | str d =>
            simp only at h
            split_ifs at h with hc
            · simp only [Option.some.injEq] at h
              subst h
              exact py_strip_ne_empty _ hc.1
            · exact ih h
          | null => exact ih h
          | bool b => exact ih h
          | num lex => exact ih h
          | arr elems => exact ih h
          | obj fields => exact ih h
      · rw [htx] at h
        cases v with
        | str s =>
          simp only at h
          by_cases hs : py_strip s ≠ ""
          · rw [if_pos hs] at h
            simp only [Option.some.injEq] at h
            subst h
            exact py_strip_ne_empty _ hs
          · rw [if_neg hs] at h
            rcases hd : jget part "data" with _ | w
            · rw [hd] at h
              simp only at h
              exact ih h
            · rw [hd] at h
              cases w with
              | str d =>
                simp only at h
                split_ifs at h with hc
                · simp only [Option.some.injEq] at h
                  subst h
                  exact py_strip_ne_empty _ hc.1
                · exact ih h
              | null => exact ih h
              | bool b => exact ih h
              | num lex => exact ih h
              | arr elems => exact ih h
              | obj fields => exact ih h
        | null =>
          simp only at h
          rcases hd : jget part "data" with _ | w
          · rw [hd] at h
            simp only at h
            exact ih h
          · rw [hd] at h
            cases w with
            | str d =>
              simp only at h
              split_ifs at h with hc
              · simp only [Option.some.injEq] at h
                subst h
                exact py_strip_ne_empty _ hc.1
              · exact ih h
            | null => exact ih h
            | bool b => exact ih h
            | num lex => exact ih h
            | arr elems => exact ih h
            | obj fields => exact ih h
        | bool b =>
          simp only at h
          rcases hd : jget part "data" with _ | w
          · rw [hd] at h
            simp only at h
            exact ih h
          · rw [hd] at h
            cases w with
            | str d =>
              simp only at h
              split_ifs at h with hc
              · simp only [Option.some.injEq] at h
                subst h
                exact py_strip_ne_empty _ hc.1
              · exact ih h
            | null => exact ih h
            | bool b2 => exact ih h
            | num lex => exact ih h
            | arr elems => exact ih h
            | obj fields => exact ih h
        | num lex =>
          simp only at h
          rcases hd : jget part "data" with _ | w
          · rw [hd] at h
            simp only at h
            exact ih h
          · rw [hd] at h
            cases w with
            | str d =>
              simp only at h
              split_ifs at h with hc
              · simp only [Option.some.injEq] at h
                subst h
                exact py_strip_ne_empty _ hc.1
              · exact ih h
            | null => exact ih h
            | bool b => exact ih h
            | num lex2 => exact ih h
            | arr elems => exact ih h
            | obj fields => exact ih h
        | arr elems =>
          simp only at h
          rcases hd : jget part "data" with _ | w
          · rw [hd] at h
            simp only at h
            exact ih h
          · rw [hd] at h
            cases w with
            | str d =>
              simp only at h
              split_ifs at h with hc
              · simp only [Option.some.injEq] at h
                subst h
                exact py_strip_ne_empty _ hc.1
              · exact ih h
            | null => exact ih h
            | bool b => exact ih h
            | num lex => exact ih h
            | arr elems2 => exact ih h
            | obj fields => exact ih h
        | obj fields =>
          simp only at h
          rcases hd : jget part "data" with _ | w
          · rw [hd] at h
            simp only at h
            exact ih h
          · rw [hd] at h
            cases w with
            | str d =>
              simp only at h
              split_ifs at h with hc
              · simp only [Option.some.injEq] at h
                subst h
                exact py_strip_ne_empty _ hc.1
              · exact ih h
            | null => exact ih h
            | bool b => exact ih h
            | num lex => exact ih h
            | arr elems => exact ih h
            | obj fields2 => exact ih h
    | null => exact ih (by simpa [extract_text_parts] using h)
    | bool b => exact ih (by simpa [extract_text_parts] using h)
    | num lex => exact ih (by simpa [extract_text_parts] using h)
    | str s => exact ih (by simpa [extract_text_parts] using h)
    | arr elems => exact ih (by simpa [extract_text_parts] using h)

/-- Message text extraction only returns nonempty text. -/
theorem extract_text_ne (kvs : List (String × JVal)) (t : String)
    (h : extract_text_from_message kvs = some t) : t ≠ "" := by
  unfold extract_text_from_message at h
  rcases hcnt : jget kvs "content" with _ | v
  · rw [hcnt] at h
    exact absurd h (by simp)
  · rw [hcnt] at h
    cases v with
    | str s =>
      have h2 : (if py_strip s ≠ "" then some s else none) = some t := h
      by_cases hs : py_strip s ≠ ""
      · rw [if_pos hs] at h2
        simp only [Option.some.injEq] at h2
        subst h2
        exact py_strip_ne_empty _ hs
      · rw [if_neg hs] at h2
        exact absurd h2 (by simp)
    | arr parts => exact extract_text_parts_ne parts t h
    | null => exact absurd h (by simp)
    | bool b => exact absurd h (by simp)
    | num lex => exact absurd h (by simp)
    | obj fields => exact absurd h (by simp)

/-- A qualifying pair's text came from the message's text extraction. -/
theorem preview_norm_text (kvs : List (String × JVal)) (p : String × String)
    (h : preview_norm kvs = some p) : extract_text_from_message kvs = some p.2 := by
  unfold preview_norm at h
  rcases hr : jget kvs "role" with _ | v
  · rw [hr] at h
    exact absurd h (by simp)
  · rw [hr] at h
    cases v with
    | str r =>
      rcases ht : extract_text_from_message kvs with _ | t
      · rw [ht] at h
        exact absurd h (by simp)
      · rw [ht] at h
        have h2 : (if r = "user" ∧ (py_lstrip t).startsWith "<user_info>" then none
            else some (r, t)) = some p := h
        by_cases hc : r = "user" ∧ ((py_lstrip t).startsWith "<user_info>" = true)
        · rw [if_pos hc] at h2
          exact absurd h2 (by simp)
        · rw [if_neg hc] at h2
          simp only [Option.some.injEq] at h2
          subst h2
          rfl
    | null => exact absurd h (by simp)
    | bool b => exact absurd h (by simp)
    | num lex => exact absurd h (by simp)
    | arr elems => exact absurd h (by simp)
    | obj fields => exact absurd h (by simp)

/-- Lifting a successful connection-level preview through the wrapper. -/
theorem with_ro_of_ok {α : Type} (st : Store) (c : Cache)
    (op : Cache → Except PErr α × Cache × List Access) (v : α) (c1 : Cache)
    (l1 : List Access) (hcn : st.present = true ∧ st.connectOk = true)
    (hop : op c = (Except.ok v, c1, l1)) :
    with_ro_connection st c op = (Except.ok (some v), c1, l1) := by
  unfold with_ro_connection
  rw [if_neg (not_not_intro hcn), hop]

/-- The public preview returns exactly the connection-level result on a
healthy connection. -/
theorem preview_public_of_conn (st : Store) (bid : String)
    (pair : Option String × Option String) (log : List Access)
    (hcn : st.present = true ∧ st.connectOk = true)
    (hconn : extract_last_message_preview_from_connection st bid
      = (Except.ok pair, log)) :
    extract_last_message_preview st bid = (pair, log) := by
  unfold extract_last_message_preview
  rw [hconn]
  rw [with_ro_of_ok st empty_cache _ pair empty_cache log hcn rfl]

/-- Connection-level preview: only the identified blob is scanned and its
last qualifying message returned; an unqualifying blob falls back to the
bounded recent extraction (200 blobs, one message). -/
theorem c6_conn (st : Store) (bid : String) (blob : List Nat)
    (hq : st.queriesFail = false)
    (hfind : st.blobs.find? (fun b => b.1 == bid) = some (bid, blob))
    (hne : ¬ blob = []) :
    (∀ p, (preview_quals blob).getLast? = some p →
      extract_last_message_preview_from_connection st bid
        = (Except.ok (some p.1, some p.2), [Access.fetch_blob_by_id bid]))
    ∧ ((preview_quals blob).getLast? = none →
      extract_last_message_preview_from_connection st bid
        = (Except.ok
            (match (run_rows false (some 1) ["user", "assistant"]
                (recent_window st 200)).getLast? with
             | some p => (some p.1, some p.2)
             | none => (none, none)),
           [Access.fetch_blob_by_id bid, Access.fetch_rows_descending 200])) := by
  have hrb : read_blob_from_connection st bid
      = (Except.ok (some blob), [Access.fetch_blob_by_id bid]) := by
    unfold read_blob_from_connection
    simp [hq, hfind]
  have hobjs := preview_fold_eq ((iter_embedded_json_objects blob 200).filterMap jval_as_obj)
  constructor
  · intro p hp2
    have hq2 : (((iter_embedded_json_objects blob 200).filterMap jval_as_obj).filterMap
        preview_norm).getLast? = some p := hp2
    obtain ⟨kvs, hmem, hpn⟩ := List.mem_filterMap.mp (last_option_mem hq2)
    have hne2 : p.2 ≠ "" := extract_text_ne kvs p.2 (preview_norm_text kvs p hpn)
    unfold extract_last_message_preview_from_connection
    simp only [hrb]
    rw [if_neg hne]
    rw [hobjs, hq2]
    simp only
    rw [if_pos hne2]
  · intro hnone
    have hq2 : (((iter_embedded_json_objects blob 200).filterMap jval_as_obj).filterMap
        preview_norm).getLast? = none := hnone
    have hco : extract_messages_from_connection st (some 1) (some 200)
        ["user", "assistant"] false
        = (Except.ok (run_rows false (some 1) ["user", "assistant"]
            (recent_window st 200)),
           [Access.fetch_rows_descending 200]) := by
      have hnp : mm_nonpos (some 1) = false := by decide
      simp only [extract_messages_from_connection, hnp, Bool.false_eq_true, if_false]
      rw [if_neg (by norm_num : ¬ (200 : Int) ≤ 0)]
      simp [hq, recent_window]
    unfold extract_last_message_preview_from_connection
    simp only [hrb]
    rw [if_neg hne]
    rw [hobjs, hq2]
    simp only [hco]
    rcases hl : (run_rows false (some 1) ["user", "assistant"]
        (recent_window st 200)).getLast? with _ | q
    · rfl
    · rfl

/-- C6: on a healthy store, read_last_message_preview fetches only the
blob named by latest_root_blob_id, scans it with the balanced-object
baseline scanner, and returns the last qualifying (role, text) pair of
that blob in document order; if the blob yields no qualifying message it
returns the last pair of a bounded recent extraction over the most recent
200 blobs with max_messages = 1 (logged as the blob fetch plus the single
descending rows query). -/
theorem c6_preview (st : Store) (bid : String) (blob : List Nat)
    (hp : st.present = true) (hcn : st.connectOk = true) (hq : st.queriesFail = false)
    (hfind : st.blobs.find? (fun b => b.1 == bid) = some (bid, blob))
    (hne : ¬ blob = []) :
    (∀ p, (preview_quals blob).getLast? = some p →
      extract_last_message_preview st bid
        = ((some p.1, some p.2), [Access.fetch_blob_by_id bid]))
    ∧ ((preview_quals blob).getLast? = none →
      extract_last_message_preview st bid
        = ((match (run_rows false (some 1) ["user", "assistant"]
              (recent_window st 200)).getLast? with
            | some p => (some p.1, some p.2)
            | none => (none, none)),
           [Access.fetch_blob_by_id bid, Access.fetch_rows_descending 200])) := by
  obtain ⟨h1, h2⟩ := c6_conn st bid blob hq hfind hne
  constructor
  · intro p hp2
    exact preview_public_of_conn st bid _ _ ⟨hp, hcn⟩ (h1 p hp2)
  · intro hnone
    exact preview_public_of_conn st bid _ _ ⟨hp, hcn⟩ (h2 hnone)

/-- A healthy store with one message-bearing blob and one junk blob. -/
def c6_store : Store :=
  ⟨"/tmp/c6.db", true, true, false,
    [("b1", msg_bytes "user" "m0" ++ msg_bytes "assistant" "m1"),
     ("b2", ascii_bytes "junk")],
    []⟩

/-- Witness for C6: the message blob previews to its last message through
the single blob fetch; the junk blob falls back to the bounded recent
extraction. -/
theorem c6_witness :
    extract_last_message_preview c6_store "b1"
      = ((some "assistant", some "m1"), [Access.fetch_blob_by_id "b1"]) ∧
    extract_last_message_preview c6_store "b2"
      = ((some "assistant", some "m1"),
         [Access.fetch_blob_by_id "b2", Access.fetch_rows_descending 200]) := by
  constructor
  · exact (c6_preview c6_store "b1"
      (msg_bytes "user" "m0" ++ msg_bytes "assistant" "m1")
      (by decide) (by decide) (by decide) (by decide) (by decide)).1
      ("assistant", "m1") (by decide)
  · have h := (c6_preview c6_store "b2" (ascii_bytes "junk")
      (by decide) (by decide) (by decide) (by decide) (by decide)).2 (by decide)
    rw [h]
    decide

/-! ## C4: duplicate suppression -/

/-- First-occurrence deduplication of a key stream against a seen set. -/
def dedupF : List (String × String) → List (String × String) → List (String × String)
  | _, [] => []
  | seen, k :: rest =>
    if k ∈ seen then dedupF seen rest else k :: dedupF (k :: seen) rest

/-- The row-selection of _extract_messages_from_connection: ascending
(optionally head-limited) for from-start, else the most recent window. -/
def selected_rows (st : Store) (mb : Option Int) (fs : Bool) : List (List Nat) :=
  match mb with
  | none => st.blobs.map (fun b => b.2)
  | some m =>
    if fs then (st.blobs.map (fun b => b.2)).take m.toNat
    else
      let all := st.blobs.map (fun b => b.2)
      all.drop (all.length - m.toNat)

/-- The final output slicing of _extract_messages_from_connection. -/
def final_slice (fs : Bool) (mm : Option Int) (out : Msgs) : Msgs :=
  match mm with
  | none => out
  | some m => if fs then out.take m.toNat else out.drop (out.length - m.toNat)

/-- The qualifying keys contributed by one blob, in scan order. -/
def blob_cands (roles : List String) (blob : List Nat) : List (String × String) :=
  if ¬ has_brace_and_marker blob then []
  else
    let objs := iter_message_objects_role_anchored blob roles 500
    if objs.isEmpty then
      ((iter_embedded_json_objects blob 500).filterMap jval_as_obj).filterMap (ext_norm roles)
    else objs.filterMap (ext_norm roles)

/-- The full candidate key stream over the selected rows. -/
def cand_stream (roles : List String) : List (List Nat) → List (String × String)
  | [] => []
  | r :: rest => blob_cands roles r ++ cand_stream roles rest

/-- Folding the raw appender over a key stream. -/
def ext_fold_keys (fs : Bool) (mm : Option Int) (st : ExtState)
    (keys : List (String × String)) : ExtState :=
  keys.foldl (ext_append fs mm) st

/-- The extractor-state invariant: output keys are all recorded in the
seen set, and the output has no duplicates. -/
def ext_inv (st : ExtState) : Prop :=
  (∀ p ∈ st.out, p ∈ st.seen) ∧ st.out.Nodup

/-- A stopped appender ignores its key. -/
theorem ext_append_stopped (fs : Bool) (mm : Option Int) (st : ExtState)
    (k : String × String) (hs : st.stopped = true) : ext_append fs mm st k = st := by
  unfold ext_append
  rw [if_pos hs]

/-- A key already seen is dropped. -/
theorem ext_append_mem (fs : Bool) (mm : Option Int) (st : ExtState)
    (k : String × String) (hs : st.stopped = false) (hk : k ∈ st.seen) :
    ext_append fs mm st k = st := by
  unfold ext_append
  rw [if_neg (show ¬ st.stopped = true by simp [hs]), if_pos hk]

/-- A fresh key is appended; under the invariant the adjacent-duplicate
check can never fire, because the previous last entry is already seen. -/
theorem ext_append_new (fs : Bool) (mm : Option Int) (st : ExtState)
    (k : String × String) (hsub : ∀ p ∈ st.out, p ∈ st.seen)
    (hs : st.stopped = false) (hk : ¬ k ∈ st.seen) :
    ext_append fs mm st k
      = ⟨k :: st.seen, st.out ++ [k],
         fs && (match mm with
                | some m => decide (((st.out ++ [k]).length : Int) ≥ m)
                | none => false)⟩ := by
  have hadj : ¬ (st.out ≠ [] ∧ st.out.getLast? = some k) := by
    rintro ⟨h1, h2⟩
    exact hk (hsub k (last_option_mem h2))
  unfold ext_append
  rw [if_neg (show ¬ st.stopped = true by simp [hs]), if_neg hk, if_neg hadj]

/-- The appender preserves the extractor-state invariant. -/
theorem ext_append_inv (fs : Bool) (mm : Option Int) (st : ExtState)
    (k : String × String) (h : ext_inv st) : ext_inv (ext_append fs mm st k) := by
  by_cases h1 : st.stopped = true
  · rw [ext_append_stopped fs mm st k h1]
    exact h
  · have hs : st.stopped = false := by simpa using h1
    by_cases h2 : k ∈ st.seen
    · rw [ext_append_mem fs mm st k hs h2]
      exact h
    · rw [ext_append_new fs mm st k h.1 hs h2]
      constructor
      · intro p hp
        rcases List.mem_append.mp hp with hp | hp
        · exact List.mem_cons_of_mem k (h.1 p hp)
        · simp only [List.mem_singleton] at hp
          subst hp
          exact List.mem_cons_self _ _
      · have hko : k ∉ st.out := fun hmem => h2 (h.1 k hmem)
        exact List.Nodup.append h.2 (List.nodup_singleton k)
          (by intro a ha hb
              simp only [List.mem_singleton] at hb
              subst hb
              exact hko ha)

/-- The key fold preserves the invariant. -/
theorem fold_keys_inv (fs : Bool) (mm : Option Int) :
    ∀ (keys : List (String × String)) (st : ExtState), ext_inv st →
      ext_inv (ext_fold_keys fs mm st keys) := by
  intro keys
  induction keys with
  | nil => intro st h; exact h
  | cons k rest ih => intro st h; exact ih _ (ext_append_inv fs mm st k h)

/-- A stopped state absorbs the whole fold. -/
theorem fold_keys_stopped (fs : Bool) (mm : Option Int) :
    ∀ (keys : List (String × String)) (st : ExtState), st.stopped = true →
      ext_fold_keys fs mm st keys = st := by
  intro keys
  induction keys with
  | nil => intro st h; rfl
  | cons k rest ih =>
    intro st h
    show ext_fold_keys fs mm (ext_append fs mm st k) rest = st
    rw [ext_append_stopped fs mm st k h]
    exact ih st h

/-- With no reachable stop (recent direction, or unbounded max_messages)
the fold appends exactly the first-occurrence dedup of the stream. -/
theorem fold_keys_nostop (fs : Bool) (mm : Option Int)
    (hns : fs = false ∨ mm = none) :
    ∀ (keys : List (String × String)) (st : ExtState), ext_inv st →
      st.stopped = false →
      ext_fold_keys fs mm st keys
        = ⟨(dedupF st.seen keys).reverse ++ st.seen,
           st.out ++ dedupF st.seen keys, false⟩ := by
  intro keys
  induction keys with
  | nil =>
    intro st hI hs
    rcases st with ⟨seen, out, stopped⟩
    simp only at hs
    subst hs
    simp [ext_fold_keys, dedupF]
  | cons k rest ih =>
    intro st hI hs
    show ext_fold_keys fs mm (ext_append fs mm st k) rest = _
    by_cases hk : k ∈ st.seen
    · rw [ext_append_mem fs mm st k hs hk, ih st hI hs]
      simp only [dedupF]
      rw [if_pos hk]
    · have hnewst : ext_append fs mm st k = ⟨k :: st.seen, st.out ++ [k], false⟩ := by
        rw [ext_append_new fs mm st k hI.1 hs hk]
        rcases hns with h | h
        · subst h
          simp
        · subst h
          simp
      have hI2 := ext_append_inv fs mm st k hI
      rw [hnewst] at hI2 ⊢
      rw [ih ⟨k :: st.seen, st.out ++ [k], false⟩ hI2 rfl]
      simp only [dedupF]
      rw [if_neg hk]
      simp [List.append_assoc]

/-- In a bounded from-start extraction the fold appends the head of the
dedup stream up to the remaining budget. -/
theorem fold_keys_start (m : Int) (hm : 0 < m) :
    ∀ (keys : List (String × String)) (st : ExtState), ext_inv st →
      st.stopped = decide (m.toNat ≤ st.out.length) →
      (ext_fold_keys true (some m) st keys).out
        = st.out ++ (dedupF st.seen keys).take (m.toNat - st.out.length) := by
  intro keys
  induction keys with
  | nil => intro st hI hJ; simp [ext_fold_keys, dedupF]
  | cons k rest ih =>
    intro st hI hJ
    by_cases hfull : m.toNat ≤ st.out.length
    · have hs : st.stopped = true := by rw [hJ]; exact decide_eq_true hfull
      rw [fold_keys_stopped true (some m) (k :: rest) st hs]
      have hz : m.toNat - st.out.length = 0 := by omega
      rw [hz]
      simp
    · have hs : st.stopped = false := by rw [hJ]; exact decide_eq_false hfull
      show (ext_fold_keys true (some m) (ext_append true (some m) st k) rest).out = _
      by_cases hk : k ∈ st.seen
      · rw [ext_append_mem true (some m) st k hs hk, ih st hI hJ]
        simp only [dedupF]
        rw [if_pos hk]
      · have hstop2 : (true && (match (some m : Option Int) with
            | some m2 => decide (((st.out ++ [k]).length : Int) ≥ m2)
            | none => false)) = decide (m.toNat ≤ (st.out ++ [k]).length) := by
          simp only [Bool.true_and]
          exact decide_eq_decide.mpr (ge_iff_le.trans Int.toNat_le.symm)
        have hI2 := ext_append_inv true (some m) st k hI
        rw [ext_append_new true (some m) st k hI.1 hs hk, hstop2] at hI2 ⊢
        rw [ih ⟨k :: st.seen, st.out ++ [k], decide (m.toNat ≤ (st.out ++ [k]).length)⟩
          hI2 rfl]
        simp only [dedupF]
        rw [if_neg hk]
        have hlen : (st.out ++ [k]).length = st.out.length + 1 := by simp
        rw [hlen]
        have hd : m.toNat - st.out.length = (m.toNat - (st.out.length + 1)) + 1 := by omega
        rw [hd, List.take_succ_cons]
        simp [List.append_assoc]

/-- The extractor loop over scanned dicts is the key fold over the
normalized candidates. -/
theorem ext_fold_objs_eq (fs : Bool) (mm : Option Int) (roles : List String) :
    ∀ (objs : List (List (String × JVal))) (st : ExtState),
      ext_fold_objs fs mm roles st objs
        = ext_fold_keys fs mm st (objs.filterMap (ext_norm roles)) := by
  intro objs
  induction objs with
  | nil => intro st; rfl
  | cons kvs rest ih =>
    intro st
    rcases hn : ext_norm roles kvs with _ | key
    · have h1 : ext_fold_objs fs mm roles st (kvs :: rest)
          = ext_fold_objs fs mm roles st rest := by
        unfold ext_fold_objs
        rw [List.foldl_cons]
        simp only [hn]
      rw [h1, ih st, List.filterMap_cons, hn]
    · have h1 : ext_fold_objs fs mm roles st (kvs :: rest)
          = ext_fold_objs fs mm roles (ext_append fs mm st key) rest := by
        unfold ext_fold_objs
        rw [List.foldl_cons]
        simp only [hn]
      rw [h1, ih _, List.filterMap_cons, hn]
      rfl

/-- Per-blob processing is the key fold over the blob's candidates. -/
theorem process_blob_eq (fs : Bool) (mm : Option Int) (roles : List String)
    (st : ExtState) (blob : List Nat) :
    process_blob fs mm roles st blob = ext_fold_keys fs mm st (blob_cands roles blob) := by
  unfold process_blob blob_cands
  by_cases hf : has_brace_and_marker blob = true
  · rw [if_neg (not_not_intro hf), if_neg (not_not_intro hf)]
    by_cases hE : (iter_message_objects_role_anchored blob roles 500).isEmpty = true
    · rw [if_pos hE, if_pos hE]
      have hnil : iter_message_objects_role_anchored blob roles 500 = [] :=
        List.isEmpty_iff.mp hE
      rw [hnil]
      exact ext_fold_objs_eq fs mm roles _ _
    · have hE2 : (iter_message_objects_role_anchored blob roles 500).isEmpty = false := by
        simpa using hE
      rw [if_neg (by simp [hE2]), if_neg (by simp [hE2])]
      exact ext_fold_objs_eq fs mm roles _ _
  · have hf2 : ¬ has_brace_and_marker blob = true := hf
    rw [if_pos hf2, if_pos hf2]
    rfl

/-- The row loop is the key fold over the whole candidate stream. -/
theorem rows_fold_eq (fs : Bool) (mm : Option Int) (roles : List String) :
    ∀ (rows : List (List Nat)) (st : ExtState),
      rows.foldl (process_blob fs mm roles) st
        = ext_fold_keys fs mm st (cand_stream roles rows) := by
  intro rows
  induction rows with
  | nil => intro st; rfl
  | cons r rest ih =>
    intro st
    rw [List.foldl_cons, process_blob_eq, ih]
    show ext_fold_keys fs mm (ext_fold_keys fs mm st (blob_cands roles r))
        (cand_stream roles rest)
      = ext_fold_keys fs mm st (blob_cands roles r ++ cand_stream roles rest)
    unfold ext_fold_keys
    rw [List.foldl_append]

/-- run_rows: duplicate-free output equal to the sliced first-occurrence
dedup of the candidate stream. -/
theorem run_rows_char (fs : Bool) (mm : Option Int) (roles : List String)
    (rows : List (List Nat)) :
    (run_rows fs mm roles rows).Nodup ∧
    List.Chain' (fun a b => a ≠ b) (run_rows fs mm roles rows) ∧
    (mm_nonpos mm = false →
      run_rows fs mm roles rows
        = final_slice fs mm (dedupF [] (cand_stream roles rows))) := by
  have hfold : rows.foldl (process_blob fs mm roles) ⟨[], [], false⟩
      = ext_fold_keys fs mm ⟨[], [], false⟩ (cand_stream roles rows) :=
    rows_fold_eq fs mm roles rows ⟨[], [], false⟩
  have hinv : ext_inv (ext_fold_keys fs mm ⟨[], [], false⟩ (cand_stream roles rows)) :=
    fold_keys_inv fs mm _ _ ⟨by intro p hp; exact absurd hp (by simp), List.nodup_nil⟩
  have hrun : run_rows fs mm roles rows
      = final_slice fs mm
          (ext_fold_keys fs mm ⟨[], [], false⟩ (cand_stream roles rows)).out := by
    unfold run_rows final_slice
    rw [hfold]
  have hnodup : (run_rows fs mm roles rows).Nodup := by
    rw [hrun]
    unfold final_slice
    rcases mm with _ | m
    · exact hinv.2
    · cases fs
      · simp only [Bool.false_eq_true, if_false]
        exact (List.drop_sublist _ _).nodup hinv.2
      · simp only [if_pos rfl]
        exact (List.take_sublist _ _).nodup hinv.2
  refine ⟨hnodup, List.Pairwise.chain' hnodup, ?_⟩
  intro hnp
  rw [hrun]
  rcases mm with _ | m
  · have h := fold_keys_nostop fs none (Or.inr rfl) (cand_stream roles rows)
      ⟨[], [], false⟩ ⟨by intro p hp; exact absurd hp (by simp), List.nodup_nil⟩ rfl
    rw [h]
    simp [final_slice]
  · have hm : 0 < m := by
      have := hnp
      simp only [mm_nonpos, decide_eq_false_iff_not] at this
      omega
    cases fs with
    | false =>
      have h := fold_keys_nostop false (some m) (Or.inl rfl) (cand_stream roles rows)
        ⟨[], [], false⟩ ⟨by intro p hp; exact absurd hp (by simp), List.nodup_nil⟩ rfl
      rw [h]
      simp [final_slice]
    | true =>
      have hJ : (false : Bool) = decide (m.toNat ≤ ([] : Msgs).length) := by
        symm
        apply decide_eq_false
        simp only [List.length_nil, Nat.le_zero]
        omega
      have h := fold_keys_start m hm (cand_stream roles rows)
        ⟨[], [], false⟩ ⟨by intro p hp; exact absurd hp (by simp), List.nodup_nil⟩ hJ
      simp only [List.nil_append, List.length_nil, Nat.sub_zero] at h
      simp only [final_slice]
      rw [h]
      simp [List.take_take]

/-- C4: every successful extraction yields a sequence with no duplicate
(role, text) pair at all (hence none adjacent), and on a healthy store the
result is exactly the final slice of the first-occurrence dedup of the
scanned candidate stream: later exact duplicates are suppressed and the
first occurrence wins. -/
theorem c4_first_wins (st : Store) (mm mb : Option Int) (roles : List String)
    (fs : Bool) (res : Msgs)
    (hres : (extract_messages_from_connection st mm mb roles fs).1 = Except.ok res) :
    res.Nodup ∧ List.Chain' (fun a b => a ≠ b) res ∧
    (st.queriesFail = false →
      res = final_slice fs mm (dedupF [] (cand_stream roles (selected_rows st mb fs)))) := by
  unfold extract_messages_from_connection at hres
  by_cases hnp : mm_nonpos mm = true
  · rw [if_pos hnp] at hres
    simp only [Except.ok.injEq] at hres
    obtain ⟨m, hmm, hm⟩ : ∃ m, mm = some m ∧ m ≤ 0 := by
      rcases mm with _ | m
      · exact absurd hnp (by simp [mm_nonpos])
      · exact ⟨m, rfl, by simpa [mm_nonpos] using hnp⟩
    subst hmm
    subst hres
    refine ⟨List.nodup_nil, List.chain'_nil, ?_⟩
    intro hq
    have htn : m.toNat = 0 := Int.toNat_of_nonpos hm
    unfold final_slice
    cases fs
    · simp [htn, List.drop_length]
    · simp [htn]
  · have hnp2 : mm_nonpos mm = false := by simpa using hnp
    simp only [hnp2, Bool.false_eq_true, if_false] at hres
    rcases mb with _ | m
    · by_cases hq : st.queriesFail = true
      · rw [if_pos hq] at hres
        exact absurd hres (by simp)
      · have hq2 : st.queriesFail = false := by simpa using hq
        simp only [hq2, Bool.false_eq_true, if_false, Except.ok.injEq] at hres
        subst hres
        obtain ⟨h1, h2, h3⟩ := run_rows_char fs mm roles (st.blobs.map (fun b => b.2))
        exact ⟨h1, h2, fun _ => h3 hnp2⟩
    · simp only at hres
      by_cases hmb : m ≤ 0
      · rw [if_pos hmb] at hres
        simp only [Except.ok.injEq] at hres
        subst hres
        refine ⟨List.nodup_nil, List.chain'_nil, ?_⟩
        intro hq
        have htn : m.toNat = 0 := Int.toNat_of_nonpos hmb
        have hdrop : (st.blobs.map (fun b => b.2)).drop st.blobs.length = [] := by
          have := List.drop_length (st.blobs.map (fun b => b.2))
          simpa using this
        rcases mm with _ | mmv <;> cases fs <;>
          simp [selected_rows, final_slice, cand_stream, dedupF, htn, hdrop]
      · rw [if_neg hmb] at hres
        cases fs with
        | true =>
          rw [if_pos rfl] at hres
          by_cases hq : st.queriesFail = true
          · rw [if_pos hq] at hres
            exact absurd hres (by simp)
          · have hq2 : st.queriesFail = false := by simpa using hq
            simp only [hq2, Bool.false_eq_true, if_false, Except.ok.injEq] at hres
            subst hres
            obtain ⟨h1, h2, h3⟩ :=
              run_rows_char true mm roles ((st.blobs.map (fun b => b.2)).take m.toNat)
            exact ⟨h1, h2, fun _ => h3 hnp2⟩
        | false =>
          rw [if_neg (by simp : ¬ ((false : Bool) = true))] at hres
          by_cases hq : st.queriesFail = true
          · rw [if_pos hq] at hres
            exact absurd hres (by simp)
          · have hq2 : st.queriesFail = false := by simpa using hq
            simp only [hq2, Bool.false_eq_true, if_false, Except.ok.injEq] at hres
            subst hres
            obtain ⟨h1, h2, h3⟩ :=
              run_rows_char false mm roles
                (let all := st.blobs.map (fun b => b.2)
                 all.drop (all.length - m.toNat))
            exact ⟨h1, h2, fun _ => h3 hnp2⟩

/-- A healthy store with one blob embedding an exact duplicate message. -/
def c4_store : Store :=
  ⟨"/tmp/c4.db", true, true, false,
    [("b1", msg_bytes "user" "m0" ++ msg_bytes "user" "m0"
        ++ msg_bytes "assistant" "m1")], []⟩

/-- Witness for C4: the duplicated message appears once, first occurrence
first. -/
theorem c4_witness :
    ([("user", "m0"), ("assistant", "m1")] : Msgs).Nodup ∧
    List.Chain' (fun a b => a ≠ b) [("user", "m0"), ("assistant", "m1")] ∧
    (c4_store.queriesFail = false →
      [("user", "m0"), ("assistant", "m1")]
        = final_slice false none
            (dedupF [] (cand_stream roles_ua (selected_rows c4_store none false)))) :=
  c4_first_wins c4_store none none roles_ua false
    [("user", "m0"), ("assistant", "m1")] (by decide)

/-! ## C1 infrastructure: positional lemmas for the byte primitives -/

theorem getd_cons_succ (x : Nat) (l : List Nat) (n d : Nat) :
    (x :: l).getD (n + 1) d = l.getD n d := rfl

theorem getd_append_left (d : Nat) :
    ∀ (l1 l2 : List Nat) (o : Nat), o < l1.length → (l1 ++ l2).getD o d = l1.getD o d := by
  intro l1
  induction l1 with
  | nil => intro l2 o h; simp at h
  | cons x t ih =>
    intro l2 o h
    cases o with
    | zero => rfl
    | succ o2 =>
      show (t ++ l2).getD o2 d = t.getD o2 d
      exact ih l2 o2 (by simpa using h)

theorem getd_append_right (d : Nat) :
    ∀ (l1 l2 : List Nat) (o : Nat), (l1 ++ l2).getD (l1.length + o) d = l2.getD o d := by
  intro l1
  induction l1 with
  | nil => intro l2 o; simp
  | cons x t ih =>
    intro l2 o
    rw [show (x :: t).length + o = (t.length + o) + 1 from by simp; omega]
    show (t ++ l2).getD (t.length + o) d = l2.getD o d
    exact ih l2 o

theorem getd_drop (d : Nat) :
    ∀ (n : Nat) (l : List Nat) (m : Nat), (l.drop n).getD m d = l.getD (n + m) d := by
  intro n
  induction n with
  | zero => intro l m; simp
  | succ n2 ih =>
    intro l m
    cases l with
    | nil => simp
    | cons x t =>
      rw [show n2 + 1 + m = (n2 + m) + 1 from by omega]
      show (t.drop n2).getD m d = t.getD (n2 + m) d
      exact ih t m

theorem getd_mem (d : Nat) :
    ∀ (l : List Nat) (o : Nat), o < l.length → l.getD o d ∈ l := by
  intro l
  induction l with
  | nil => intro o h; simp at h
  | cons x t ih =>
    intro o h
    cases o with
    | zero => exact List.mem_cons_self _ _
    | succ o2 =>
      exact List.mem_cons_of_mem x (ih o2 (by simpa using h))

theorem getlast_getd (d : Nat) :
    ∀ (l : List Nat) (v : Nat), l.getLast? = some v → l.getD (l.length - 1) d = v := by
  intro l
  induction l with
  | nil => intro v h; simp at h
  | cons x t ih =>
    intro v h
    cases t with
    | nil =>
      simp only [List.getLast?_singleton, Option.some.injEq] at h
      subst h
      rfl
    | cons y t2 =>
      rw [List.getLast?_cons_cons] at h
      have h2 := ih v h
      rw [show (y :: t2).length - 1 = t2.length from by simp] at h2
      rw [show (x :: y :: t2).length - 1 = t2.length + 1 from by simp]
      exact h2

theorem drop_append_le :
    ∀ (l1 l2 : List Nat) (n : Nat), n ≤ l1.length → (l1 ++ l2).drop n = l1.drop n ++ l2 := by
  intro l1
  induction l1 with
  | nil =>
    intro l2 n h
    simp at h
    subst h
    simp
  | cons x t ih =>
    intro l2 n h
    cases n with
    | zero => simp
    | succ n2 =>
      show (t ++ l2).drop n2 = t.drop n2 ++ l2
      exact ih l2 n2 (by simpa using h)

theorem drop_append_add :
    ∀ (l1 l2 : List Nat) (n : Nat), (l1 ++ l2).drop (l1.length + n) = l2.drop n := by
  intro l1
  induction l1 with
  | nil => intro l2 n; simp
  | cons x t ih =>
    intro l2 n
    rw [show (x :: t).length + n = (t.length + n) + 1 from by simp; omega]
    show (t ++ l2).drop (t.length + n) = l2.drop n
    exact ih l2 n

theorem take_append_le :
    ∀ (l1 l2 : List Nat) (n : Nat), l1.length ≤ n →
      (l1 ++ l2).take n = l1 ++ l2.take (n - l1.length) := by
  intro l1
  induction l1 with
  | nil => intro l2 n h; simp
  | cons x t ih =>
    intro l2 n h
    cases n with
    | zero => simp at h
    | succ n2 =>
      show x :: (t ++ l2).take n2 = x :: (t ++ l2.take (n2 + 1 - (t.length + 1)))
      rw [ih l2 n2 (by simpa using h)]
      have harith : n2 - t.length = n2 + 1 - (t.length + 1) := by omega
      rw [harith]

theorem prefix_getd (d : Nat) :
    ∀ (pat l : List Nat), pat.isPrefixOf l = true →
      ∀ k, k < pat.length → l.getD k d = pat.getD k d := by
  intro pat
  induction pat with
  | nil => intro l h k hk; simp at hk
  | cons p pt ih =>
    intro l h k hk
    cases l with
    | nil => simp [List.isPrefixOf] at h
    | cons x t =>
      simp only [List.isPrefixOf, Bool.and_eq_true, beq_iff_eq] at h
      cases k with
      | zero => simpa using h.1.symm
      | succ k2 =>
        show t.getD k2 d = pt.getD k2 d
        exact ih t h.2 k2 (by simpa using hk)

theorem pref_of_empty : ∀ (l : List Nat), List.isPrefixOf [] l = true := by
  intro l
  cases l <;> rfl

theorem prefix_append_le :
    ∀ (pat l1 : List Nat) (l2 : List Nat), pat.length ≤ l1.length →
      pat.isPrefixOf (l1 ++ l2) = pat.isPrefixOf l1 := by
  intro pat
  induction pat with
  | nil => intro l1 l2 h; rw [pref_of_empty, pref_of_empty]
  | cons p pt ih =>
    intro l1 l2 h
    cases l1 with
    | nil => simp at h
    | cons x t =>
      show (p == x && pt.isPrefixOf (t ++ l2)) = (p == x && pt.isPrefixOf t)
      rw [ih t l2 (by simpa using h)]

theorem byte_find_aux_append (b : Nat) :
    ∀ (l1 l2 : List Nat) (i : Nat),
      byte_find_aux b (l1 ++ l2) i
        = match byte_find_aux b l1 i with
          | some j => some j
          | none => byte_find_aux b l2 (i + l1.length) := by
  intro l1
  induction l1 with
  | nil => intro l2 i; simp [byte_find_aux]
  | cons x t ih =>
    intro l2 i
    show (if x == b then some i else byte_find_aux b (t ++ l2) (i + 1))
      = match (if x == b then some i else byte_find_aux b t (i + 1)) with
        | some j => some j
        | none => byte_find_aux b l2 (i + (t.length + 1))
    by_cases hx : (x == b) = true
    · rw [if_pos hx, if_pos hx]
    · rw [if_neg hx, if_neg hx, ih l2 (i + 1)]
      have : i + 1 + t.length = i + (t.length + 1) := by omega
      rw [this]

theorem byte_find_aux_none_all (b : Nat) :
    ∀ (l : List Nat) (i : Nat), (∀ x ∈ l, (x == b) = false) → byte_find_aux b l i = none := by
  intro l
  induction l with
  | nil => intro i h; rfl
  | cons x t ih =>
    intro i h
    show (if x == b then some i else byte_find_aux b t (i + 1)) = none
    rw [if_neg (by simp [h x (List.mem_cons_self _ _)]),
      ih (i + 1) (fun y hy => h y (List.mem_cons_of_mem x hy))]

theorem byte_find_aux_none_mem (b : Nat) :
    ∀ (l : List Nat) (i : Nat), byte_find_aux b l i = none → ∀ x ∈ l, x ≠ b := by
  intro l
  induction l with
  | nil => intro i h x hx; simp at hx
  | cons y t ih =>
    intro i h x hx
    have h2 : (if y == b then some i else byte_find_aux b t (i + 1)) = none := h
    by_cases hy : (y == b) = true
    · rw [if_pos hy] at h2
      exact absurd h2 (by simp)
    · rw [if_neg hy] at h2
      rcases List.mem_cons.mp hx with hx | hx
      · subst hx
        simpa using hy
      · exact ih (i + 1) h2 x hx

theorem byte_find_aux_head (b : Nat) (xs : List Nat) (i : Nat) :
    byte_find_aux b (b :: xs) i = some i := by
  show (if b == b then some i else byte_find_aux b xs (i + 1)) = some i
  rw [if_pos (by simp)]

theorem matches_at_ge (data pat : List Nat) (p : Nat) (hp : pat ≠ [])
    (h : data.length ≤ p) : matches_at data pat p = false := by
  unfold matches_at
  rw [List.drop_eq_nil_of_le h]
  rcases pat with _ | ⟨x, t⟩
  · exact absurd rfl hp
  · rfl

theorem sub_find_from_ge (data pat : List Nat) (i : Nat) (hp : pat ≠ [])
    (h : data.length ≤ i) : sub_find_from data pat i = none := by
  unfold sub_find_from
  rw [List.drop_eq_nil_of_le h]
  show (if pat = [] then some i else none) = none
  rw [if_neg hp]

theorem sf_skip (data pat : List Nat) (i : Nat) (hp : pat ≠ [])
    (h : matches_at data pat i = false) :
    sub_find_from data pat i = sub_find_from data pat (i + 1) := by
  unfold sub_find_from
  unfold matches_at at h
  rcases hd : data.drop i with _ | ⟨x, xs⟩
  · have hd2 : data.drop (i + 1) = [] := by
      have := List.tail_drop data i
      rw [hd] at this
      exact this.symm
    rw [hd2]
    simp [sub_find_aux, hp]
  · have hd2 : data.drop (i + 1) = xs := by
      have := List.tail_drop data i
      rw [hd] at this
      exact this.symm
    rw [hd2]
    show (if pat.isPrefixOf (x :: xs) then some i else sub_find_aux pat xs (i + 1))
      = sub_find_aux pat xs (i + 1)
    rw [hd] at h
    rw [if_neg (by simp [h])]

theorem sf_found (data pat : List Nat) (i : Nat) (hp : pat ≠ [])
    (h : matches_at data pat i = true) : sub_find_from data pat i = some i := by
  unfold sub_find_from
  unfold matches_at at h
  rcases hd : data.drop i with _ | ⟨x, xs⟩
  · rw [hd] at h
    rcases pat with _ | ⟨p, pt⟩
    · exact absurd rfl hp
    · simp [List.isPrefixOf] at h
  · rw [hd] at h
    show (if pat.isPrefixOf (x :: xs) then some i else sub_find_aux pat xs (i + 1)) = some i
    rw [if_pos h]

theorem sf_jump (data pat : List Nat) (hp : pat ≠ []) :
    ∀ (d i : Nat), (∀ p, i ≤ p → p < i + d → matches_at data pat p = false) →
      sub_find_from data pat i = sub_find_from data pat (i + d) := by
  intro d
  induction d with
  | zero => intro i h; rfl
  | succ d2 ih =>
    intro i h
    rw [sf_skip data pat i hp (h i (Nat.le_refl i) (by omega))]
    rw [ih (i + 1) (fun p h1 h2 => h p (by omega) (by omega))]
    congr 1
    omega

theorem sub_find_aux_none_all (pat : List Nat) (hp : pat ≠ []) :
    ∀ (l : List Nat) (i : Nat), sub_find_aux pat l i = none →
      ∀ k, pat.isPrefixOf (l.drop k) = false := by
  intro l
  induction l with
  | nil =>
    intro i h k
    rw [List.drop_nil]
    rcases pat with _ | ⟨p, pt⟩
    · exact absurd rfl hp
    · rfl
  | cons x t ih =>
    intro i h k
    have h2 : (if pat.isPrefixOf (x :: t) then some i else sub_find_aux pat t (i + 1)) = none := h
    by_cases hx : pat.isPrefixOf (x :: t) = true
    · rw [if_pos hx] at h2
      exact absurd h2 (by simp)
    · rw [if_neg hx] at h2
      cases k with
      | zero =>
        simp only [Bool.not_eq_true] at hx
        simpa using hx
      | succ k2 => exact ih (i + 1) h2 k2

theorem sub_find_aux_sound (pat : List Nat) (hp : pat ≠ []) :
    ∀ (l : List Nat) (i j : Nat), sub_find_aux pat l i = some j →
      i ≤ j ∧ pat.isPrefixOf (l.drop (j - i)) = true ∧
      ∀ p, i ≤ p → p < j → pat.isPrefixOf (l.drop (p - i)) = false := by
  intro l
  induction l with
  | nil =>
    intro i j h
    have h2 : (if pat = [] then some i else none) = some j := h
    rw [if_neg hp] at h2
    exact absurd h2 (by simp)
  | cons x t ih =>
    intro i j h
    have h2 : (if pat.isPrefixOf (x :: t) then some i else sub_find_aux pat t (i + 1)) = some j := h
    by_cases hx : pat.isPrefixOf (x :: t) = true
    · rw [if_pos hx] at h2
      simp only [Option.some.injEq] at h2
      subst h2
      refine ⟨Nat.le_refl i, by simpa using hx, ?_⟩
      intro p h1 h2
      omega
    · rw [if_neg hx] at h2
      obtain ⟨hij, hpre, hmin⟩ := ih (i + 1) j h2
      refine ⟨by omega, ?_, ?_⟩
      · have : j - i = (j - (i + 1)) + 1 := by omega
        rw [this]
        simpa using hpre
      · intro p hp1 hp2
        by_cases hpi : p = i
        · subst hpi
          simp only [Nat.sub_self, List.drop_zero]
          simp only [Bool.not_eq_true] at hx
          exact hx
        · have : p - i = (p - (i + 1)) + 1 := by omega
          rw [this]
          show pat.isPrefixOf (t.drop (p - (i + 1))) = false
          exact hmin p (by omega) hp2

theorem fb_aux_shift :
    ∀ (l : List Nat) (k j0 : Nat) (d : Int) (is es : Bool),
      fb_aux l (k + j0) d is es = (fb_aux l k d is es).map (fun x => x + j0) := by
  intro l
  induction l with
  | nil => intro k j0 d is es; rfl
  | cons b rest ih =>
    intro k j0 d is es
    simp only [fb_aux]
    split_ifs <;>
      first
        | (rw [show k + j0 + 1 = k + 1 + j0 by omega]; exact ih (k + 1) j0 _ _ _)
        | simp

theorem fb_aux_extend :
    ∀ (l l2 : List Nat) (j0 : Nat) (d : Int) (is es : Bool) (j : Nat),
      fb_aux l j0 d is es = some j → fb_aux (l ++ l2) j0 d is es = some j := by
  intro l
  induction l with
  | nil => intro l2 j0 d is es j h; simp [fb_aux] at h
  | cons b rest ih =>
    intro l2 j0 d is es j h
    simp only [fb_aux] at h ⊢
    split_ifs at h ⊢ <;>
      first
        | exact ih l2 (j0 + 1) _ _ _ j h
        | exact h
        | (exfalso; simp at h)

theorem byte_rfind_aux_exact (data : List Nat) (b left : Nat) :
    ∀ (K kp : Nat), kp < K → (data.getD (left + kp) 0x100 == b) = true →
      (∀ t, kp < t → t < K → (data.getD (left + t) 0x100 == b) = false) →
      byte_rfind_aux data b left K = some (left + kp) := by
  intro K
  induction K with
  | zero => intro kp h; omega
  | succ K2 ih =>
    intro kp hlt hb hno
    show (if data.getD (left + K2) 0x100 == b then some (left + K2)
          else byte_rfind_aux data b left K2) = some (left + kp)
    by_cases hk : kp = K2
    · subst hk
      rw [if_pos hb]
    · rw [if_neg (by rw [hno K2 (by omega) (by omega)]; simp)]
      exact ih kp (by omega) hb (fun t h1 h2 => hno t h1 (by omega))

theorem byte_rfind_exact (data : List Nat) (b left hi pos : Nat)
    (h1 : left ≤ pos) (h2 : pos < min hi data.length)
    (hb : (data.getD pos 0x100 == b) = true)
    (hno : ∀ t, pos < t → t < min hi data.length → (data.getD t 0x100 == b) = false) :
    byte_rfind data b left hi = some pos := by
  unfold byte_rfind
  have hpos : pos = left + (pos - left) := by omega
  rw [show some pos = some (left + (pos - left)) from by rw [← hpos]]
  apply byte_rfind_aux_exact data b left (min hi data.length - left) (pos - left)
    (by omega) (by rw [← hpos]; exact hb)
  intro t ht1 ht2
  exact hno (left + t) (by omega) (by omega)

/-- A marker match fully inside a block is the block-local prefix test. -/
theorem matches_in_block (X blk Y : List Nat) (o : Nat) (pat : List Nat)
    (h : o + pat.length ≤ blk.length) :
    matches_at (X ++ (blk ++ Y)) pat (X.length + o) = pat.isPrefixOf (blk.drop o) := by
  unfold matches_at
  rw [drop_append_add X (blk ++ Y) o,
    drop_append_le blk Y o (by omega),
    prefix_append_le pat (blk.drop o) Y (by rw [List.length_drop]; omega)]

/-- No role marker can straddle out of a block that ends in a closing
brace: the marker contains no closing brace byte. -/
theorem straddle_none (X blk Y : List Nat) (o : Nat)
    (h1 : o < blk.length) (h2 : blk.length < o + 6)
    (hlast : blk.getLast? = some 0x7D) :
    matches_at (X ++ (blk ++ Y)) role_marker (X.length + o) = false := by
  by_contra hcon
  have htrue : matches_at (X ++ (blk ++ Y)) role_marker (X.length + o) = true := by
    simpa using hcon
  unfold matches_at at htrue
  have hget := prefix_getd 0x100 role_marker _ htrue (blk.length - 1 - o)
    (by rw [role_marker_length]; omega)
  rw [getd_drop 0x100 (X.length + o) (X ++ (blk ++ Y)) (blk.length - 1 - o)] at hget
  have hidx : X.length + o + (blk.length - 1 - o) = X.length + (blk.length - 1) := by omega
  rw [hidx, getd_append_right 0x100 X (blk ++ Y) (blk.length - 1),
    getd_append_left 0x100 blk Y (blk.length - 1) (by omega),
    getlast_getd 0x100 blk 0x7D hlast] at hget
  have hk : blk.length - 1 - o < 6 := by omega
  have hne : ∀ k, k < 6 → role_marker.getD k 0x100 ≠ 0x7D := by
    intro k hk6
    interval_cases k <;> decide
  exact hne (blk.length - 1 - o) hk hget.symm

/-! ## C1 well-formed input model (the spec's well-formedness class) -/

/-- A segment of a well-formed buffer: inert junk or a balanced object. -/
inductive Chunk where
  | junk (bytes : List Nat)
  | obj (bytes : List Nat)

/-- The raw bytes of a segment list. -/
def chunks_bytes : List Chunk → List Nat
  | [] => []
  | Chunk.junk j :: rest => j ++ chunks_bytes rest
  | Chunk.obj b :: rest => b ++ chunks_bytes rest

/-- The parsed dict of a block, when it parses to a JSON object. -/
def block_obj (blk : List Nat) : Option (List (String × JVal)) :=
  match parse_json_bytes blk with
  | some (JVal.obj kvs) => some kvs
  | _ => none

/-- The isolated balanced scan of a block closes exactly on its last byte. -/
def block_closes (blk : List Nat) : Bool :=
  match find_balanced_close blk 0 blk.length with
  | some j => j + 1 == blk.length
  | none => false

/-- A balanced object block: opens with a brace, ends with a closing brace,
closes exactly at its last byte under the string-aware balance scan, fits
the anchored scanner's object-length bound, and parses to a JSON object. -/
def obj_block_ok (blk : List Nat) : Bool :=
  (blk.headD 0 == 0x7B) && (blk.getLast? == some 0x7D) &&
  decide (blk.length ≤ 262144) && block_closes blk && (block_obj blk).isSome

/-- Marker shape of a message block: the first role marker sits after the
opening brace within the anchored scanner's back-window, fully inside the
block, with no further opening brace between the block's brace and it. -/
def msg_marker_ok (blk : List Nat) : Bool :=
  match sub_find_from blk role_marker 0 with
  | some mo =>
    decide (1 ≤ mo) && decide (mo + 6 ≤ blk.length) && decide (mo ≤ 65536) &&
    (byte_find_from (blk.take mo) 0x7B 1 == none)
  | none => false

/-- Field shape of a message block: a string role in the accepted set and
a content key. -/
def msg_fields_ok (roles : List String) (blk : List Nat) : Bool :=
  match block_obj blk with
  | some kvs =>
    (match jget kvs "role" with
     | some (JVal.str r) => decide (r ∈ roles)
     | _ => false) && jhas kvs "content"
  | none => false

/-- A message block for the given role set. -/
def msg_block_ok (roles : List String) (blk : List Nat) : Bool :=
  obj_block_ok blk && msg_marker_ok blk && msg_fields_ok roles blk

/-- A non-message object block: balanced and parsing, with no role marker
anywhere, and normalizing to nothing under the extractor's normalizer. -/
def plain_block_ok (roles : List String) (blk : List Nat) : Bool :=
  obj_block_ok blk && (sub_find_from blk role_marker 0 == none) &&
  (match block_obj blk with
   | some kvs => (ext_norm roles kvs).isNone
   | none => false)

/-- One well-formed segment: junk free of braces and quotes, or an object
block that is either plain or a message. -/
def chunk_ok (roles : List String) : Chunk → Bool
  | Chunk.junk j => j.all (fun b => !(b == 0x7B) && !(b == 0x22))
  | Chunk.obj b => plain_block_ok roles b || msg_block_ok roles b

/-- The spec's well-formedness class: a buffer assembled from such
segments. -/
def well_formed_chunks (roles : List String) (cs : List Chunk) : Bool :=
  cs.all (chunk_ok roles)

/-- Number of object segments. -/
def obj_count : List Chunk → Nat
  | [] => 0
  | Chunk.obj _ :: rest => obj_count rest + 1
  | Chunk.junk _ :: rest => obj_count rest

/-- Number of message segments. -/
def msg_count (roles : List String) : List Chunk → Nat
  | [] => 0
  | Chunk.obj b :: rest =>
    (if msg_block_ok roles b then 1 else 0) + msg_count roles rest
  | Chunk.junk _ :: rest => msg_count roles rest

/-- The dicts the baseline scanner yields on a well-formed buffer. -/
def base_objs (cs : List Chunk) : List JVal :=
  cs.filterMap (fun c =>
    match c with
    | Chunk.obj b => (block_obj b).map JVal.obj
    | Chunk.junk _ => none)

/-- The dicts the anchored scanner yields on a well-formed buffer. -/
def msg_objs (roles : List String) (cs : List Chunk) : List (List (String × JVal)) :=
  cs.filterMap (fun c =>
    match c with
    | Chunk.obj b => if msg_block_ok roles b then block_obj b else none
    | Chunk.junk _ => none)

/-! ### Facts extracted from a well-formed object block -/

theorem obj_block_parts (blk : List Nat) (h : obj_block_ok blk = true) :
    (∃ rest, blk = 0x7B :: rest) ∧ blk.getLast? = some 0x7D ∧
    blk.length ≤ 262144 ∧
    find_balanced_close blk 0 blk.length = some (blk.length - 1) ∧
    ∃ kvs, block_obj blk = some kvs := by
  unfold obj_block_ok at h
  simp only [Bool.and_eq_true, beq_iff_eq, decide_eq_true_eq,
    Option.isSome_iff_exists] at h
  obtain ⟨⟨⟨⟨hh, hl⟩, hlen⟩, hcl⟩, kvs, hkv⟩ := h
  refine ⟨?_, hl, hlen, ?_, ⟨kvs, hkv⟩⟩
  · rcases hb : blk with _ | ⟨x, rest⟩
    · rw [hb] at hh
      simp at hh
    · rw [hb] at hh
      refine ⟨rest, ?_⟩
      have : x = 0x7B := by simpa using hh
      rw [this]
  · unfold block_closes at hcl
    rcases hf : find_balanced_close blk 0 blk.length with _ | j
    · rw [hf] at hcl
      simp at hcl
    · rw [hf] at hcl
      simp only [beq_iff_eq] at hcl
      congr 1
      omega

theorem block_obj_parse (blk : List Nat) (kvs : List (String × JVal))
    (h : block_obj blk = some kvs) :
    parse_json_bytes blk = some (JVal.obj kvs) := by
  unfold block_obj at h
  rcases hp : parse_json_bytes blk with _ | v
  · rw [hp] at h
    exact absurd h (by simp)
  · rw [hp] at h
    cases v with
    | obj kvs2 =>
      simp only [Option.some.injEq] at h
      subst h
      rfl
    | null => exact absurd h (by simp)
    | bool b => exact absurd h (by simp)
    | num lex => exact absurd h (by simp)
    | str s => exact absurd h (by simp)
    | arr elems => exact absurd h (by simp)

theorem obj_block_pos (blk : List Nat) (h : obj_block_ok blk = true) :
    1 ≤ blk.length := by
  obtain ⟨⟨rest, hb⟩, _⟩ := obj_block_parts blk h
  rw [hb]
  simp

theorem fb_aux_shift0 (l : List Nat) (j0 : Nat) (d : Int) (is es : Bool) :
    fb_aux l j0 d is es = (fb_aux l 0 d is es).map (fun x => x + j0) := by
  have h := fb_aux_shift l 0 j0 d is es
  rwa [Nat.zero_add] at h

theorem drop_concat_mid (X T : List Nat) :
    (X ++ T).drop X.length = T := by
  have h := drop_append_add X T 0
  simpa using h

/-- The in-context balanced scan of a well-formed block closes on the
block's last byte, for any window covering the block. -/
theorem fbc_block (X blk Y : List Nat) (lim : Nat) (h : obj_block_ok blk = true)
    (hlim : X.length + blk.length ≤ lim) :
    find_balanced_close (X ++ (blk ++ Y)) X.length lim
      = some (X.length + (blk.length - 1)) := by
  obtain ⟨_, _, _, hfbc0, _⟩ := obj_block_parts blk h
  have hfb : fb_aux blk 0 0 false false = some (blk.length - 1) := by
    unfold find_balanced_close at hfbc0
    rwa [List.drop_zero, Nat.sub_zero, List.take_length] at hfbc0
  unfold find_balanced_close
  rw [drop_concat_mid X (blk ++ Y),
    take_append_le blk Y (lim - X.length) (by omega),
    fb_aux_shift0 _ X.length 0 false false,
    fb_aux_extend blk _ 0 0 false false (blk.length - 1) hfb]
  simp [Nat.add_comm]

theorem slice_block (X blk Y : List Nat) (hpos : 1 ≤ blk.length) :
    slice_bytes (X ++ (blk ++ Y)) X.length (X.length + (blk.length - 1) + 1) = blk := by
  unfold slice_bytes
  rw [drop_concat_mid X (blk ++ Y),
    show X.length + (blk.length - 1) + 1 - X.length = blk.length from by omega,
    take_append_le blk Y blk.length (Nat.le_refl _), Nat.sub_self]
  simp

theorem getd_take (d : Nat) :
    ∀ (m : Nat) (l : List Nat) (o : Nat), o < m → (l.take m).getD o d = l.getD o d := by
  intro m
  induction m with
  | zero => intro l o h; omega
  | succ m2 ih =>
    intro l o h
    cases l with
    | nil => simp
    | cons x t =>
      cases o with
      | zero => rfl
      | succ o2 =>
        show (t.take m2).getD o2 d = t.getD o2 d
        exact ih t o2 (by omega)

/-! ### No marker occurrences in junk and plain regions -/

theorem junk_nomatch (X j Y : List Nat) (o : Nat)
    (hall : ∀ x ∈ j, (!(x == 0x7B) && !(x == 0x22)) = true) (ho : o < j.length) :
    matches_at (X ++ (j ++ Y)) role_marker (X.length + o) = false := by
  by_contra hcon
  have htrue : matches_at (X ++ (j ++ Y)) role_marker (X.length + o) = true := by
    simpa using hcon
  unfold matches_at at htrue
  have hget := prefix_getd 0x100 role_marker _ htrue 0 (by rw [role_marker_length]; omega)
  rw [getd_drop 0x100 (X.length + o) (X ++ (j ++ Y)) 0] at hget
  rw [show X.length + o + 0 = X.length + o from by omega] at hget
  rw [getd_append_right 0x100 X (j ++ Y) o, getd_append_left 0x100 j Y o ho] at hget
  have hmem := getd_mem 0x100 j o ho
  have hq := hall _ hmem
  simp only [Bool.and_eq_true, Bool.not_eq_eq_eq_not, Bool.not_true, beq_eq_false_iff_ne] at hq
  exact hq.2 (by rw [hget]; rfl)

theorem plain_nomatch (X blk Y : List Nat) (o : Nat)
    (hob : obj_block_ok blk = true)
    (hnomk : sub_find_from blk role_marker 0 = none) (ho : o < blk.length) :
    matches_at (X ++ (blk ++ Y)) role_marker (X.length + o) = false := by
  obtain ⟨_, hlast, _⟩ := obj_block_parts blk hob
  by_cases hs : o + 6 ≤ blk.length
  · rw [matches_in_block X blk Y o role_marker (by rw [role_marker_length]; exact hs)]
    have hnl : sub_find_aux role_marker blk 0 = none := by
      unfold sub_find_from at hnomk
      rwa [List.drop_zero] at hnomk
    exact sub_find_aux_none_all role_marker (by decide) blk 0 hnl o
  · exact straddle_none X blk Y o ho (by omega) hlast

theorem region_skip_marker (X R Y : List Nat)
    (hnom : ∀ o, o < R.length → matches_at (X ++ (R ++ Y)) role_marker (X.length + o) = false) :
    sub_find_from (X ++ (R ++ Y)) role_marker X.length
      = sub_find_from (X ++ (R ++ Y)) role_marker (X.length + R.length) := by
  apply sf_jump _ role_marker (by decide) R.length X.length
  intro p h1 h2
  have hp : p = X.length + (p - X.length) := by omega
  rw [hp]
  exact hnom (p - X.length) (by omega)

/-! ### The anchored scanner's step on a message block -/

theorem msg_marker_parts (blk : List Nat) (h : msg_marker_ok blk = true) :
    ∃ mo, sub_find_from blk role_marker 0 = some mo ∧ 1 ≤ mo ∧ mo + 6 ≤ blk.length ∧
      mo ≤ 65536 ∧ byte_find_from (blk.take mo) 0x7B 1 = none := by
  unfold msg_marker_ok at h
  rcases hmo : sub_find_from blk role_marker 0 with _ | mo
  · rw [hmo] at h
    simp at h
  · rw [hmo] at h
    simp only [Bool.and_eq_true, decide_eq_true_eq, beq_iff_eq] at h
    exact ⟨mo, rfl, h.1.1.1, h.1.1.2, h.1.2, h.2⟩

theorem msg_fields_parts (roles : List String) (blk : List Nat) (kvs : List (String × JVal))
    (h : msg_fields_ok roles blk = true) (hkv : block_obj blk = some kvs) :
    (∃ r, jget kvs "role" = some (JVal.str r) ∧ r ∈ roles) ∧ jhas kvs "content" = true := by
  unfold msg_fields_ok at h
  rw [hkv] at h
  simp only [Bool.and_eq_true] at h
  refine ⟨?_, h.2⟩
  rcases hr : jget kvs "role" with _ | v
  · rw [hr] at h
    simp at h
  · rw [hr] at h
    cases v with
    | str r =>
      refine ⟨r, rfl, ?_⟩
      have := h.1
      simpa using this
    | null => simp at h
    | bool b => simp at h
    | num lex => simp at h
    | arr elems => simp at h
    | obj fields => simp at h

theorem msg_first_marker (X blk Y : List Nat) (mo : Nat)
    (hmo : sub_find_from blk role_marker 0 = some mo)
    (hm6 : mo + 6 ≤ blk.length) :
    sub_find_from (X ++ (blk ++ Y)) role_marker X.length = some (X.length + mo) := by
  have hloc := sub_find_aux_sound role_marker (by decide) blk 0 mo
    (by unfold sub_find_from at hmo; rwa [List.drop_zero] at hmo)
  have hjump : sub_find_from (X ++ (blk ++ Y)) role_marker X.length
      = sub_find_from (X ++ (blk ++ Y)) role_marker (X.length + mo) := by
    apply sf_jump _ role_marker (by decide) mo X.length
    intro p h1 h2
    have hp : p = X.length + (p - X.length) := by omega
    rw [hp]
    rw [matches_in_block X blk Y (p - X.length) role_marker
      (by rw [role_marker_length]; omega)]
    have := hloc.2.2 (p - X.length) (by omega) (by omega)
    simpa using this
  rw [hjump]
  apply sf_found _ role_marker _ (by decide)
  rw [matches_in_block X blk Y mo role_marker (by rw [role_marker_length]; exact hm6)]
  simpa using hloc.2.1

theorem collect_head (data : List Nat) (left k hi s : Nat)
    (hrf : byte_rfind data 0x7B left hi = some s) :
    collect_candidates data left (k + 1) hi = s :: collect_candidates data left k s := by
  simp [collect_candidates, hrf]

theorem first_qualifying_head (data : List Nat) (rolesSet : List String) (maxObjLen : Nat)
    (s e : Nat) (rest : List Nat) (kvs : List (String × JVal)) (r : String)
    (hscan : scan_balanced_object_end data s maxObjLen = some e)
    (hparse : parse_json_dict_from_span data s e = some kvs)
    (hrole : jget kvs "role" = some (JVal.str r)) (hin : r ∈ rolesSet)
    (hcont : jhas kvs "content" = true) :
    first_qualifying data rolesSet maxObjLen (s :: rest) = some (kvs, e + 1) := by
  simp only [first_qualifying, hscan, hparse, hrole]
  rw [if_pos hin, if_pos hcont]

theorem msg_enclosing (roles : List String) (X blk Y : List Nat) (mo : Nat)
    (kvs : List (String × JVal))
    (hob : obj_block_ok blk = true)
    (hmo : sub_find_from blk role_marker 0 = some mo)
    (h1 : 1 ≤ mo) (hm6 : mo + 6 ≤ blk.length) (hbw : mo ≤ 65536)
    (hnb : byte_find_from (blk.take mo) 0x7B 1 = none)
    (hkv : block_obj blk = some kvs)
    (hrole : ∃ r, jget kvs "role" = some (JVal.str r) ∧ r ∈ roles)
    (hcont : jhas kvs "content" = true) :
    find_enclosing_message_obj_around_role (X ++ (blk ++ Y)) (X.length + mo) roles 65536 16 262144
      = some (kvs, X.length + blk.length) := by
  obtain ⟨⟨rest0, hblk0⟩, hlast, hlen, hfbc0, _⟩ := obj_block_parts blk hob
  have hpos := obj_block_pos blk hob
  have hlenD : (X ++ (blk ++ Y)).length = X.length + (blk.length + Y.length) := by
    simp [List.length_append]
  have hget0 : (X ++ (blk ++ Y)).getD X.length 0x100 = 0x7B := by
    have h := getd_append_right 0x100 X (blk ++ Y) 0
    have h0 : X.length + 0 = X.length := by omega
    rw [h0] at h
    rw [h, getd_append_left 0x100 blk Y 0 (by omega), hblk0]
    rfl
  -- the local prefix of the marker at mo gives the quote byte there
  have hloc := sub_find_aux_sound role_marker (by decide) blk 0 mo
    (by unfold sub_find_from at hmo; rwa [List.drop_zero] at hmo)
  have hq : blk.getD mo 0x100 = 0x22 := by
    have hpre : role_marker.isPrefixOf (blk.drop mo) = true := by simpa using hloc.2.1
    have hg := prefix_getd 0x100 role_marker _ hpre 0 (by rw [role_marker_length]; omega)
    rw [getd_drop 0x100 mo blk 0] at hg
    have h0 : mo + 0 = mo := by omega
    rw [h0] at hg
    rw [hg]
    rfl
  -- no opening brace strictly between the block brace and the marker
  have hnbm : ∀ o, 1 ≤ o → o ≤ mo → ((X ++ (blk ++ Y)).getD (X.length + o) 0x100 == 0x7B) = false := by
    intro o ho1 homo
    have hgo : (X ++ (blk ++ Y)).getD (X.length + o) 0x100 = blk.getD o 0x100 := by
      rw [getd_append_right 0x100 X (blk ++ Y) o,
        getd_append_left 0x100 blk Y o (by omega)]
    rw [hgo]
    by_cases hom : o = mo
    · subst hom
      rw [hq]
      decide
    · have hlt : o < mo := by omega
      have hmem : blk.getD o 0x100 ∈ (blk.take mo).drop 1 := by
        have hgd : ((blk.take mo).drop 1).getD (o - 1) 0x100 = blk.getD o 0x100 := by
          rw [getd_drop 0x100 1 (blk.take mo) (o - 1),
            show 1 + (o - 1) = o from by omega,
            getd_take 0x100 mo blk o hlt]
        rw [← hgd]
        apply getd_mem
        rw [List.length_drop, List.length_take]
        omega
      have hne := byte_find_aux_none_mem 0x7B ((blk.take mo).drop 1) 1 hnb _ hmem
      simpa using hne
  -- the nearest opening brace at or before the marker is the block start
  have hrf : byte_rfind (X ++ (blk ++ Y)) 0x7B (X.length + mo - 65536) (X.length + mo + 1)
      = some X.length := by
    apply byte_rfind_exact _ _ _ _ X.length (by omega)
      (by rw [hlenD]; omega) (by rw [hget0]; rfl)
    intro t ht1 ht2
    have hmin : min (X.length + mo + 1) (X ++ (blk ++ Y)).length = X.length + mo + 1 := by
      rw [hlenD]
      omega
    rw [hmin] at ht2
    rw [show t = X.length + (t - X.length) from by omega]
    exact hnbm (t - X.length) (by omega) (by omega)
  have he : scan_balanced_object_end (X ++ (blk ++ Y)) X.length 262144
      = some (X.length + (blk.length - 1)) := by
    unfold scan_balanced_object_end
    rw [if_neg (by rw [hlenD]; omega : ¬ (X ++ (blk ++ Y)).length ≤ X.length)]
    rw [if_neg (by rw [hget0]; omega : ¬ (X ++ (blk ++ Y)).getD X.length 0x100 ≠ 0x7B)]
    apply fbc_block X blk Y _ hob
    rw [hlenD]
    omega
  have hp : parse_json_dict_from_span (X ++ (blk ++ Y)) X.length (X.length + (blk.length - 1))
      = some kvs := by
    unfold parse_json_dict_from_span
    rw [if_neg (by rw [hlenD]; omega :
      ¬ (X.length + (blk.length - 1) < X.length ∨
         (X ++ (blk ++ Y)).length ≤ X.length + (blk.length - 1)))]
    rw [slice_block X blk Y hpos, block_obj_parse blk kvs hkv]
  obtain ⟨r, hr, hrin⟩ := hrole
  unfold find_enclosing_message_obj_around_role
  rw [if_neg (by rw [hlenD]; omega : ¬ (X ++ (blk ++ Y)).length ≤ X.length + mo)]
  show first_qualifying (X ++ (blk ++ Y)) roles 262144
      (collect_candidates (X ++ (blk ++ Y)) (X.length + mo - 65536) (max 1 16)
        (X.length + mo + 1))
    = some (kvs, X.length + blk.length)
  rw [show (max 1 16) = 15 + 1 from rfl]
  rw [collect_head _ _ 15 _ X.length hrf]
  rw [first_qualifying_head (X ++ (blk ++ Y)) roles 262144 X.length
    (X.length + (blk.length - 1))
    (collect_candidates (X ++ (blk ++ Y)) (X.length + mo - 65536) 15 X.length)
    kvs r he hp hr hrin hcont]
  have harith : X.length + (blk.length - 1) + 1 = X.length + blk.length := by omega
  rw [harith]

/-! ## C1: scanner characterizations on well-formed buffers -/

theorem chunks_bytes_junk (j : List Nat) (rest : List Chunk) :
    chunks_bytes (Chunk.junk j :: rest) = j ++ chunks_bytes rest := rfl

theorem chunks_bytes_obj (b : List Nat) (rest : List Chunk) :
    chunks_bytes (Chunk.obj b :: rest) = b ++ chunks_bytes rest := rfl

theorem chunk_ok_junk (roles : List String) (j : List Nat)
    (h : chunk_ok roles (Chunk.junk j) = true) :
    ∀ x ∈ j, (!(x == 0x7B) && !(x == 0x22)) = true := by
  intro x hx
  have h2 : j.all (fun b => !(b == 0x7B) && !(b == 0x22)) = true := h
  exact List.all_eq_true.mp h2 x hx

theorem chunk_ok_obj (roles : List String) (b : List Nat)
    (h : chunk_ok roles (Chunk.obj b) = true) :
    plain_block_ok roles b = true ∨ msg_block_ok roles b = true := by
  have h2 : (plain_block_ok roles b || msg_block_ok roles b) = true := h
  simpa [Bool.or_eq_true] using h2

theorem plain_parts (roles : List String) (b : List Nat)
    (h : plain_block_ok roles b = true) :
    obj_block_ok b = true ∧ sub_find_from b role_marker 0 = none ∧
    ∃ kvs, block_obj b = some kvs ∧ ext_norm roles kvs = none := by
  unfold plain_block_ok at h
  simp only [Bool.and_eq_true, beq_iff_eq] at h
  refine ⟨h.1.1, h.1.2, ?_⟩
  rcases hkv : block_obj b with _ | kvs
  · rw [hkv] at h
    simp at h
  · rw [hkv] at h
    refine ⟨kvs, rfl, ?_⟩
    have h2 := h.2
    simpa [Option.isNone_iff_eq_none] using h2

theorem msg_parts (roles : List String) (b : List Nat)
    (h : msg_block_ok roles b = true) :
    obj_block_ok b = true ∧ msg_marker_ok b = true ∧ msg_fields_ok roles b = true := by
  unfold msg_block_ok at h
  simp only [Bool.and_eq_true] at h
  exact ⟨h.1.1, h.1.2, h.2⟩

theorem plain_not_msg (roles : List String) (b : List Nat)
    (h : sub_find_from b role_marker 0 = none) : msg_block_ok roles b = false := by
  unfold msg_block_ok msg_marker_ok
  rw [h]
  simp

/-- The baseline scanner on a well-formed tail yields the parsed dicts of
its object segments, in order. -/
theorem base_scan (mo : Nat) (roles : List String) :
    ∀ (cs : List Chunk) (X : List Nat) (found : Nat),
      well_formed_chunks roles cs = true → found + obj_count cs ≤ mo →
      iter_embedded_go (X ++ chunks_bytes cs) mo
          ((X ++ chunks_bytes cs).length + 1) X.length found
        = base_objs cs := by
  intro cs
  induction cs with
  | nil =>
    intro X found hwf hcnt
    apply iter_embedded_go_no_brace
    apply byte_find_from_ge
    simp [chunks_bytes]
  | cons c rest ih =>
    intro X found hwf hcnt
    have hwf2 : chunk_ok roles c = true ∧ well_formed_chunks roles rest = true := by
      simpa [well_formed_chunks, List.all_cons, Bool.and_eq_true] using hwf
    cases c with
    | junk j =>
      rw [chunks_bytes_junk]
      have hall : ∀ x ∈ j, (x == 0x7B) = false := by
        intro x hx
        have h2 := chunk_ok_junk roles j hwf2.1 x hx
        simp only [Bool.and_eq_true, Bool.not_eq_eq_eq_not, Bool.not_true] at h2
        exact h2.1
      have hfind : byte_find_from (X ++ (j ++ chunks_bytes rest)) 0x7B X.length
          = byte_find_from (X ++ (j ++ chunks_bytes rest)) 0x7B (X.length + j.length) := by
        unfold byte_find_from
        rw [drop_concat_mid X (j ++ chunks_bytes rest),
          byte_find_aux_append 0x7B j (chunks_bytes rest) X.length,
          byte_find_aux_none_all 0x7B j X.length hall]
        have hdrop2 : (X ++ (j ++ chunks_bytes rest)).drop (X.length + j.length)
            = chunks_bytes rest := by
          rw [← List.append_assoc]
          have h3 := drop_concat_mid (X ++ j) (chunks_bytes rest)
          simpa [List.length_append] using h3
        rw [hdrop2]
      rw [iter_embedded_go_congr _ mo _ X.length (X.length + j.length) found hfind]
      have h2 := ih (X ++ j) found hwf2.2 (by simpa [obj_count] using hcnt)
      rw [List.append_assoc,
        show (X ++ j).length = X.length + j.length from by simp] at h2
      exact h2
    | obj blk =>
      rw [chunks_bytes_obj]
      have hob : obj_block_ok blk = true := by
        rcases chunk_ok_obj roles blk hwf2.1 with h | h
        · exact (plain_parts roles blk h).1
        · exact (msg_parts roles blk h).1
      obtain ⟨⟨rest0, hblk0⟩, hlast, hlen, hfbc0, kvs, hkv⟩ := obj_block_parts blk hob
      have hpos := obj_block_pos blk hob
      have hcnt2 : found + (obj_count rest + 1) ≤ mo := by
        simpa [obj_count] using hcnt
      have hfind : byte_find_from (X ++ (blk ++ chunks_bytes rest)) 0x7B X.length
          = some X.length := by
        unfold byte_find_from
        rw [drop_concat_mid X (blk ++ chunks_bytes rest), hblk0]
        exact byte_find_aux_head 0x7B _ X.length
      have hclose : find_balanced_close (X ++ (blk ++ chunks_bytes rest)) X.length
          (X ++ (blk ++ chunks_bytes rest)).length = some (X.length + (blk.length - 1)) := by
        apply fbc_block X blk _ _ hob
        simp [List.length_append]
      have hparse : parse_json_bytes (slice_bytes (X ++ (blk ++ chunks_bytes rest)) X.length
          (X.length + (blk.length - 1) + 1)) = some (JVal.obj kvs) := by
        rw [slice_block X blk _ hpos]
        exact block_obj_parse blk kvs hkv
      rw [iter_embedded_go_yield _ mo _ X.length found X.length (X.length + (blk.length - 1))
        kvs (by omega) (by omega) hfind hclose hparse]
      have h2 := ih (X ++ blk) (found + 1) hwf2.2 (by omega)
      rw [List.append_assoc,
        show (X ++ blk).length = X.length + blk.length from by simp] at h2
      rw [show X.length + (blk.length - 1) + 1 = X.length + blk.length from by omega, h2]
      have hbo : base_objs (Chunk.obj blk :: rest) = JVal.obj kvs :: base_objs rest := by
        simp [base_objs, List.filterMap_cons, hkv]
      rw [hbo]

/-- The anchored scanner loop on a well-formed tail yields the parsed
dicts of its message segments, in order. -/
theorem anch_scan (ma : Nat) (roles : List String) :
    ∀ (cs : List Chunk) (X : List Nat) (found : Nat),
      well_formed_chunks roles cs = true → found + msg_count roles cs ≤ ma →
      iter_role_anchored_go (X ++ chunks_bytes cs) roles ma
          ((X ++ chunks_bytes cs).length + 1) X.length found
        = msg_objs roles cs := by
  intro cs
  induction cs with
  | nil =>
    intro X found hwf hcnt
    apply iter_anch_go_no_marker
    apply sub_find_from_ge _ _ _ (by decide)
    simp [chunks_bytes]
  | cons c rest ih =>
    intro X found hwf hcnt
    have hwf2 : chunk_ok roles c = true ∧ well_formed_chunks roles rest = true := by
      simpa [well_formed_chunks, List.all_cons, Bool.and_eq_true] using hwf
    cases c with
    | junk j =>
      rw [chunks_bytes_junk]
      have hfind := region_skip_marker X j (chunks_bytes rest)
        (fun o ho => junk_nomatch X j (chunks_bytes rest) o (chunk_ok_junk roles j hwf2.1) ho)
      rw [iter_anch_go_congr _ roles ma _ X.length (X.length + j.length) found hfind]
      have h2 := ih (X ++ j) found hwf2.2 (by simpa [msg_count] using hcnt)
      rw [List.append_assoc,
        show (X ++ j).length = X.length + j.length from by simp] at h2
      exact h2
    | obj blk =>
      rw [chunks_bytes_obj]
      rcases chunk_ok_obj roles blk hwf2.1 with hpl | hmsg
      · obtain ⟨hob, hnomk, kvs, hkv, hnorm⟩ := plain_parts roles blk hpl
        have hnotmsg := plain_not_msg roles blk hnomk
        have hfind := region_skip_marker X blk (chunks_bytes rest)
          (fun o ho => plain_nomatch X blk (chunks_bytes rest) o hob hnomk ho)
        rw [iter_anch_go_congr _ roles ma _ X.length (X.length + blk.length) found hfind]
        have h2 := ih (X ++ blk) found hwf2.2 (by simpa [msg_count, hnotmsg] using hcnt)
        rw [List.append_assoc,
          show (X ++ blk).length = X.length + blk.length from by simp] at h2
        rw [h2]
        simp [msg_objs, List.filterMap_cons, hnotmsg]
      · obtain ⟨hob, hmk, hmf⟩ := msg_parts roles blk hmsg
        obtain ⟨mo, hmo, h1, hm6, hbw, hnb⟩ := msg_marker_parts blk hmk
        obtain ⟨_, _, _, _, kvs, hkv⟩ := obj_block_parts blk hob
        obtain ⟨hrole, hcont⟩ := msg_fields_parts roles blk kvs hmf hkv
        have hcnt2 : found + (1 + msg_count roles rest) ≤ ma := by
          simpa [msg_count, hmsg] using hcnt
        have hfind := msg_first_marker X blk (chunks_bytes rest) mo hmo hm6
        have henc := msg_enclosing roles X blk (chunks_bytes rest) mo kvs hob hmo h1 hm6
          hbw hnb hkv hrole hcont
        rw [iter_anch_go_yield _ roles ma _ X.length found (X.length + mo)
          (X.length + blk.length) kvs (by omega) (by omega) hfind henc]
        rw [show max (X.length + blk.length) (X.length + mo + 6) = X.length + blk.length from
          Nat.max_eq_left (by omega)]
        have h2 := ih (X ++ blk) (found + 1) hwf2.2 (by omega)
        rw [List.append_assoc,
          show (X ++ blk).length = X.length + blk.length from by simp] at h2
        rw [h2]
        simp [msg_objs, List.filterMap_cons, hmsg, hkv]

/-- No role marker matches anywhere in a message-free well-formed buffer. -/
theorem no_marker_all (roles : List String) :
    ∀ (cs : List Chunk) (X : List Nat),
      well_formed_chunks roles cs = true → msg_count roles cs = 0 →
      ∀ p, X.length ≤ p → matches_at (X ++ chunks_bytes cs) role_marker p = false := by
  intro cs
  induction cs with
  | nil =>
    intro X hwf hmz p hp
    apply matches_at_ge _ _ _ (by decide)
    simpa [chunks_bytes] using hp
  | cons c rest ih =>
    intro X hwf hmz p hp
    have hwf2 : chunk_ok roles c = true ∧ well_formed_chunks roles rest = true := by
      simpa [well_formed_chunks, List.all_cons, Bool.and_eq_true] using hwf
    cases c with
    | junk j =>
      rw [chunks_bytes_junk]
      by_cases hin : p < X.length + j.length
      · rw [show p = X.length + (p - X.length) from by omega]
        exact junk_nomatch X j (chunks_bytes rest) (p - X.length)
          (chunk_ok_junk roles j hwf2.1) (by omega)
      · have h2 := ih (X ++ j) hwf2.2 (by simpa [msg_count] using hmz) p
          (by simp only [List.length_append]; omega)
        rw [List.append_assoc] at h2
        exact h2
    | obj blk =>
      rw [chunks_bytes_obj]
      have hpl : plain_block_ok roles blk = true := by
        rcases chunk_ok_obj roles blk hwf2.1 with h | h
        · exact h
        · exfalso
          have : (1 + msg_count roles rest) = 0 := by simpa [msg_count, h] using hmz
          omega
      obtain ⟨hob, hnomk, _⟩ := plain_parts roles blk hpl
      by_cases hin : p < X.length + blk.length
      · rw [show p = X.length + (p - X.length) from by omega]
        exact plain_nomatch X blk (chunks_bytes rest) (p - X.length) hob hnomk (by omega)
      · have hmz2 : msg_count roles rest = 0 := by
          have := plain_not_msg roles blk hnomk
          simpa [msg_count, this] using hmz
        have h2 := ih (X ++ blk) hwf2.2 hmz2 p (by simp only [List.length_append]; omega)
        rw [List.append_assoc] at h2
        exact h2

theorem msg_objs_nil (roles : List String) :
    ∀ cs, msg_count roles cs = 0 → msg_objs roles cs = [] := by
  intro cs
  induction cs with
  | nil => intro h; rfl
  | cons c rest ih =>
    intro h
    cases c with
    | junk j =>
      have h2 := ih (by simpa [msg_count] using h)
      simpa [msg_objs, List.filterMap_cons] using h2
    | obj blk =>
      by_cases hm : msg_block_ok roles blk = true
      · exfalso
        have : (1 + msg_count roles rest) = 0 := by simpa [msg_count, hm] using h
        omega
      · have hm2 : msg_block_ok roles blk = false := by simpa using hm
        have h2 := ih (by simpa [msg_count, hm2] using h)
        simpa [msg_objs, List.filterMap_cons, hm2] using h2

theorem chunks_bytes_append :
    ∀ (a b : List Chunk), chunks_bytes (a ++ b) = chunks_bytes a ++ chunks_bytes b := by
  intro a
  induction a with
  | nil => intro b; rfl
  | cons c rest ih =>
    intro b
    cases c with
    | junk j =>
      show j ++ chunks_bytes (rest ++ b) = (j ++ chunks_bytes rest) ++ chunks_bytes b
      rw [ih b, List.append_assoc]
    | obj blk =>
      show blk ++ chunks_bytes (rest ++ b) = (blk ++ chunks_bytes rest) ++ chunks_bytes b
      rw [ih b, List.append_assoc]

theorem msg_exists (roles : List String) :
    ∀ cs, 0 < msg_count roles cs →
      ∃ cs1 blk cs2, cs = cs1 ++ Chunk.obj blk :: cs2 ∧ msg_block_ok roles blk = true := by
  intro cs
  induction cs with
  | nil => intro h; simp [msg_count] at h
  | cons c rest ih =>
    intro h
    cases c with
    | junk j =>
      obtain ⟨cs1, blk, cs2, hsplit, hmsg⟩ := ih (by simpa [msg_count] using h)
      exact ⟨Chunk.junk j :: cs1, blk, cs2, by rw [hsplit]; rfl, hmsg⟩
    | obj b =>
      by_cases hm : msg_block_ok roles b = true
      · exact ⟨[], b, rest, rfl, hm⟩
      · have hm2 : msg_block_ok roles b = false := by simpa using hm
        obtain ⟨cs1, blk, cs2, hsplit, hmsg⟩ := ih (by
          have h2 : (0 : Nat) + msg_count roles rest = msg_count roles (Chunk.obj b :: rest) := by
            simp [msg_count, hm2]
          omega)
        exact ⟨Chunk.obj b :: cs1, blk, cs2, by rw [hsplit]; rfl, hmsg⟩

/-- The anchored scanner on a whole well-formed buffer. -/
theorem anch_whole (ma : Nat) (roles : List String) (cs : List Chunk)
    (hwf : well_formed_chunks roles cs = true) (hcnt : msg_count roles cs ≤ ma) :
    iter_message_objects_role_anchored (chunks_bytes cs) roles ma = msg_objs roles cs := by
  unfold iter_message_objects_role_anchored
  by_cases hmz : msg_count roles cs = 0
  · have hnom : sub_find_from (chunks_bytes cs) role_marker 0 = none := by
      have hjump := sf_jump (chunks_bytes cs) role_marker (by decide) (chunks_bytes cs).length 0
        (fun p h1 h2 => by
          have h3 := no_marker_all roles cs [] hwf hmz p (by simp)
          simpa using h3)
      rw [Nat.zero_add] at hjump
      rw [hjump]
      exact sub_find_from_ge _ _ _ (by decide) (Nat.le_refl _)
    rw [msg_objs_nil roles cs hmz]
    by_cases hd : chunks_bytes cs = []
    · rw [if_pos hd]
    · rw [if_neg hd]
      by_cases hr : roles = []
      · rw [if_pos hr]
      · rw [if_neg hr, if_pos (by rw [hnom]; simp)]
  · obtain ⟨cs1, blk, cs2, hsplit, hmsg⟩ := msg_exists roles cs (Nat.pos_of_ne_zero hmz)
    obtain ⟨hob, hmk, hmf⟩ := msg_parts roles blk hmsg
    obtain ⟨mo, hmo, h1, hm6, hbw, hnb⟩ := msg_marker_parts blk hmk
    obtain ⟨⟨rest0, hblk0⟩, _, _, _, kvs, hkv⟩ := obj_block_parts blk hob
    obtain ⟨⟨r, hr, hrin⟩, hcont⟩ := msg_fields_parts roles blk kvs hmf hkv
    have hbytes : chunks_bytes cs = chunks_bytes cs1 ++ (blk ++ chunks_bytes cs2) := by
      rw [hsplit, chunks_bytes_append]
      rfl
    have hpos := obj_block_pos blk hob
    have hd : ¬ chunks_bytes cs = [] := by
      intro hnil
      rw [hbytes] at hnil
      have : (chunks_bytes cs1 ++ (blk ++ chunks_bytes cs2)).length = 0 := by
        rw [hnil]; rfl
      simp only [List.length_append] at this
      omega
    have hrne : ¬ roles = [] := by
      intro hnil
      rw [hnil] at hrin
      simp at hrin
    have hbrace : byte_find_from (chunks_bytes cs) 0x7B 0 ≠ none := by
      intro hnone
      unfold byte_find_from at hnone
      rw [List.drop_zero] at hnone
      have hmem : (0x7B : Nat) ∈ chunks_bytes cs := by
        rw [hbytes, hblk0]
        exact List.mem_append.mpr (Or.inr (List.mem_append.mpr (Or.inl
          (List.mem_cons_self _ _))))
      exact byte_find_aux_none_mem 0x7B (chunks_bytes cs) 0 hnone _ hmem rfl
    have hmark : sub_find_from (chunks_bytes cs) role_marker 0 ≠ none := by
      intro hnone
      unfold sub_find_from at hnone
      rw [List.drop_zero] at hnone
      have hmatch : matches_at (chunks_bytes cs) role_marker ((chunks_bytes cs1).length + mo)
          = true := by
        rw [hbytes]
        rw [matches_in_block (chunks_bytes cs1) blk (chunks_bytes cs2) mo role_marker
          (by rw [role_marker_length]; exact hm6)]
        have hloc := sub_find_aux_sound role_marker (by decide) blk 0 mo
          (by unfold sub_find_from at hmo; rwa [List.drop_zero] at hmo)
        simpa using hloc.2.1
      unfold matches_at at hmatch
      have := sub_find_aux_none_all role_marker (by decide) (chunks_bytes cs) 0 hnone
        ((chunks_bytes cs1).length + mo)
      rw [this] at hmatch
      exact absurd hmatch (by simp)
    rcases hfb : byte_find_from (chunks_bytes cs) 0x7B 0 with _ | c1
    · exact absurd hfb hbrace
    · rcases hsf : sub_find_from (chunks_bytes cs) role_marker 0 with _ | m1
      · exact absurd hsf hmark
      · rw [if_neg hd, if_neg hrne, if_neg (by simp)]
        have h2 := anch_scan ma roles cs [] 0 hwf (by omega)
        simpa using h2

/-- The baseline scanner on a whole well-formed buffer. -/
theorem base_whole (mo : Nat) (roles : List String) (cs : List Chunk)
    (hwf : well_formed_chunks roles cs = true) (hcnt : obj_count cs ≤ mo) :
    iter_embedded_json_objects (chunks_bytes cs) mo = base_objs cs := by
  unfold iter_embedded_json_objects
  have h2 := base_scan mo roles cs [] 0 hwf (by omega)
  simpa using h2

/-- Both scanners' outputs agree after the extractor's normalizer and role
filter. -/
theorem filter_eq (roles : List String) :
    ∀ cs, well_formed_chunks roles cs = true →
      (msg_objs roles cs).filterMap (ext_norm roles)
        = ((base_objs cs).filterMap jval_as_obj).filterMap (ext_norm roles) := by
  intro cs
  induction cs with
  | nil => intro hwf; rfl
  | cons c rest ih =>
    intro hwf
    have hwf2 : chunk_ok roles c = true ∧ well_formed_chunks roles rest = true := by
      simpa [well_formed_chunks, List.all_cons, Bool.and_eq_true] using hwf
    cases c with
    | junk j =>
      have h2 := ih hwf2.2
      simpa [msg_objs, base_objs, List.filterMap_cons] using h2
    | obj blk =>
      rcases chunk_ok_obj roles blk hwf2.1 with hpl | hmsg
      · obtain ⟨hob, hnomk, kvs, hkv, hnorm⟩ := plain_parts roles blk hpl
        have hnotmsg := plain_not_msg roles blk hnomk
        have h2 := ih hwf2.2
        simpa [msg_objs, base_objs, List.filterMap_cons, hnotmsg, hkv, jval_as_obj,
          hnorm] using h2
      · obtain ⟨hob, _, _⟩ := msg_parts roles blk hmsg
        obtain ⟨_, _, _, _, kvs, hkv⟩ := obj_block_parts blk hob
        have h2 := ih hwf2.2
        rcases hn : ext_norm roles kvs with _ | p <;>
          simpa [msg_objs, base_objs, List.filterMap_cons, hmsg, hkv, jval_as_obj,
            hn] using h2

/-- C1: on well-formed inputs — buffers assembled from brace-and-quote
free junk and balanced, bounded, parsing object blocks whose role markers
sit directly inside message objects with an accepted role and a content
key, and whose other objects carry no marker and normalize to nothing —
the role-anchored scanner with its normalizer and role filter applied
produces exactly the ordered sequence of normalized messages of the
balanced-object baseline scanner under the same normalizer and filter. -/
theorem c1_scanner_refinement (roles : List String) (cs : List Chunk) (maxB maxA : Nat)
    (hwf : well_formed_chunks roles cs = true)
    (hob : obj_count cs ≤ maxB) (hma : msg_count roles cs ≤ maxA) :
    (iter_message_objects_role_anchored (chunks_bytes cs) roles maxA).filterMap
        (ext_norm roles)
      = ((iter_embedded_json_objects (chunks_bytes cs) maxB).filterMap
          jval_as_obj).filterMap (ext_norm roles) := by
  rw [anch_whole maxA roles cs hwf hma, base_whole maxB roles cs hwf hob]
  exact filter_eq roles cs hwf

/-- A concrete well-formed buffer: junk, a user message, junk, a plain
object, an assistant message. -/
def c1_chunks : List Chunk :=
  [Chunk.junk (ascii_bytes "noise"), Chunk.obj (msg_bytes "user" "m0"),
   Chunk.junk (ascii_bytes "##"), Chunk.obj (ascii_bytes "\x7b\"a\":3\x7d"),
   Chunk.obj (msg_bytes "assistant" "m1")]

/-- Witness for C1 at a concrete well-formed buffer and the scanners'
default budgets. -/
theorem c1_witness :
    (iter_message_objects_role_anchored (chunks_bytes c1_chunks) roles_ua 500).filterMap
        (ext_norm roles_ua)
      = ((iter_embedded_json_objects (chunks_bytes c1_chunks) 200).filterMap
          jval_as_obj).filterMap (ext_norm roles_ua) :=
  c1_scanner_refinement roles_ua c1_chunks 200 500 (by decide) (by decide) (by decide)

end AgentStore
